import Mathlib

/-!
# Dots and Boxes: the move-selection engine of `algo.h`

A shallow embedding of `Computer::get_neighbours`, `Computer::filled_edges`,
`Computer::allowed_moves`, `Computer::minimax_heuristic` and `Computer::minimax`.

* C++ `int` is `Int`; none of the quantities below comes near the machine range.
* An array read `grid[row][col]` outside the storage is the fault `out_of_range`.
* The class `Board` is declared outside `algo.h`.  Its data members read by the engine
  (`size`, `horizontal_dashes`, `vertical_dashes`) are fields of `Board`; the rest of the
  object is the field `hidden`, and its member functions are the record `BoardOps`.
* The global random engine `rng` is the explicit state `Rng`.
-/

namespace DotsAndBoxes

/-! ## Data model -/

/-- A candidate `tuple<int, int, bool>`: row, column, and whether the edge is vertical. -/
abbrev Move := Int × Int × Bool

/-- A search result `tuple<int, int, bool, int>`: row, column, vertical flag, score. -/
abbrev Scored := Int × Int × Bool × Int

/-- Ways in which a run of the model stops without a value. -/
inductive Fault where
  | out_of_range
  | out_of_fuel
deriving DecidableEq, Repr

/-- The board object as seen from `algo.h`: the three public data members the engine reads,
and the remainder of the object. -/
structure Board (σ : Type) where
  size : Int
  horizontal_dashes : List (List Bool)
  vertical_dashes : List (List Bool)
  hidden : σ

/-- The member functions of `Board` called by the engine; their bodies are not part of
`algo.h`, so they are parameters of the search. -/
structure BoardOps (σ : Type) where
  finished : Board σ → Bool
  get_score : Board σ → Char → Int
  add_move : Board σ → Int → Int → Bool → Char → Board σ
  remove_move : Board σ → Int → Int → Bool → Board σ

/-- The read `grid[row][col]` with `int` indices. -/
def read (grid : List (List α)) (row col : Int) : Except Fault α :=
  if 0 ≤ row ∧ 0 ≤ col then
    match (grid[row.toNat]?) with
    | none => .error .out_of_range
    | some cells =>
      match (cells[col.toNat]?) with
      | none => .error .out_of_range
      | some x => .ok x
  else .error .out_of_range

/-- The value a `bool` contributes when added to an `int`. -/
def bit (x : Bool) : Int := if x then 1 else 0

/-! ## `Computer::get_neighbours` -/

/-- Squares that contain the edge `(row, col, vertical)`. -/
def get_neighbours (game : Board σ) (row col : Int) (vertical : Bool) : List (Int × Int) :=
  if vertical then
    (if col > 0 then [(row, col - 1)] else []) ++ (if col < game.size then [(row, col)] else [])
  else
    (if row > 0 then [(row - 1, col)] else []) ++ (if row < game.size then [(row, col)] else [])

/-! ## `Computer::filled_edges` -/

/-- Number of filled edges of the square at `(row, col)`. -/
def filled_edges (game : Board σ) (row col : Int) : Except Fault Int := do
  let sum : Int := 0
  let sum := sum + bit (← read game.horizontal_dashes row col)
  let sum := sum + bit (← read game.vertical_dashes row col)
  let sum := sum + bit (← read game.horizontal_dashes (row + 1) col)
  let sum := sum + bit (← read game.vertical_dashes row (col + 1))
  pure sum

/-! ## The random engine and `std::shuffle` -/

/-- State of the random engine: the numbers it is still going to produce. -/
abbrev Rng := List Nat

/-- One draw from the engine (an exhausted engine keeps producing 0). -/
def Rng.next : Rng → Nat × Rng
  | [] => (0, [])
  | d :: rest => (d, rest)

/-- Worker of `shuffle`: `n` elements of `pool` are still to be placed. -/
def shuffle_go : Nat → List Move → Rng → List Move × Rng
  | 0, _, rng => ([], rng)
  | n + 1, pool, rng =>
    let i := rng.next.1 % (n + 1)
    match (pool[i]?) with
    | none => ([], rng.next.2)
    | some x =>
      let r := shuffle_go n (pool.eraseIdx i) rng.next.2
      (x :: r.1, r.2)

/-- The library call `shuffle(first, last, rng)`.  The standard fixes only that the result is
a rearrangement selected by the engine; here each position is filled by drawing one of the
elements not placed yet. -/
def shuffle (l : List Move) (rng : Rng) : List Move × Rng :=
  shuffle_go l.length l rng

/-! ## `Computer::allowed_moves` -/

/-- The iteration space of the three nested `for` loops, in execution order. -/
def scan_order (size : Int) : List Move :=
  [false, true].flatMap fun vertical =>
    (List.range (size + 1 - bit vertical).toNat).flatMap fun (row : Nat) =>
      (List.range (size + bit vertical).toNat).map fun (col : Nat) =>
        ((row : Int), (col : Int), vertical)

/-- The three priority vectors of `allowed_moves`. -/
structure Buckets where
  edges_3 : List Move
  edges_0_1 : List Move
  edges_2 : List Move
deriving DecidableEq, Repr

/-- The loop over the squares of one edge; the state is `(edges_2, edge_2, edge_3)`. -/
def inspect (game : Board σ) (m : Move) :
    List (Int × Int) → List Move × Bool × Bool → Except Fault (List Move × Bool × Bool)
  | [], st => pure st
  | square :: rest, (edges_2, edge_2, edge_3) => do
    if (← filled_edges game square.1 square.2) = 2 then
      pure (edges_2 ++ [m], true, edge_3)
    else if (← filled_edges game square.1 square.2) = 3 then
      inspect game m rest (edges_2, edge_2, true)
    else
      inspect game m rest (edges_2, edge_2, edge_3)

/-- Body of the innermost `for` loop for the edge `(row, col, vertical)`. -/
def visit (game : Board σ) (b : Buckets) (m : Move) : Except Fault Buckets := do
  let filled ←
    if m.2.2 then read game.vertical_dashes m.1 m.2.1
    else read game.horizontal_dashes m.1 m.2.1
  if filled then
    pure b
  else
    let (edges_2, edge_2, edge_3) ←
      inspect game m (get_neighbours game m.1 m.2.1 m.2.2) (b.edges_2, false, false)
    if !edge_2 then
      if edge_3 then
        pure { b with edges_3 := b.edges_3 ++ [m], edges_2 := edges_2 }
      else
        pure { b with edges_0_1 := b.edges_0_1 ++ [m], edges_2 := edges_2 }
    else
      pure { b with edges_2 := edges_2 }

/-- The nested loops, run over the iteration space. -/
def scan (game : Board σ) : List Move → Buckets → Except Fault Buckets
  | [], b => pure b
  | m :: rest, b => do
    let b1 ← visit game b m
    scan game rest b1

/-- The candidate moves: the three vectors are filled by the scan, shuffled one after the
other, and concatenated as `edges_3`, `edges_0_1`, `edges_2`. -/
def allowed_moves (game : Board σ) (rng : Rng) : Except Fault (List Move × Rng) := do
  let b ← scan game (scan_order game.size) ⟨[], [], []⟩
  let s3 := shuffle b.edges_3 rng
  let s01 := shuffle b.edges_0_1 s3.2
  let s2 := shuffle b.edges_2 s01.2
  pure (s3.1 ++ s01.1 ++ s2.1, s2.2)

/-! ## `Computer::minimax_heuristic` -/

/-- Heuristic value of a position: the score of `max_agent` minus the score of `min_agent`. -/
def minimax_heuristic (ops : BoardOps σ) (game : Board σ) (max_agent min_agent : Char) : Int :=
  ops.get_score game max_agent - ops.get_score game min_agent

/-! ## `Computer::minimax` -/

/-- What a call of `minimax` leaves behind: the returned tuple, the board object it worked
on, and the random engine. -/
abbrev Outcome (σ : Type) := Scored × Board σ × Rng

/-- The `for` loop of the maximizing branch over the candidates still to be examined, with
the loop-carried variables `max_move`, `game`, `alpha` and the engine.  `recur` is the
recursive call `minimax(game, depth - 1, ...)`. -/
def max_loop (ops : BoardOps σ) (max_agent : Char) (beta : Int)
    (recur : Board σ → Int → Int → Bool → Rng → Except Fault (Outcome σ)) :
    List Move → Scored → Board σ → Int → Rng → Except Fault (Outcome σ)
  | [], max_move, game, _, rng => pure (max_move, game, rng)
  | (row, col, vertical) :: rest, max_move, game, alpha, rng => do
    let previous_score := ops.get_score game max_agent
    let game := ops.add_move game row col vertical max_agent
    let (eval, game, rng) ←
      if previous_score < ops.get_score game max_agent then recur game alpha beta true rng
      else recur game alpha beta false rng
    let max_move := if eval.2.2.2 > max_move.2.2.2 then (row, col, vertical, eval.2.2.2) else max_move
    let game := ops.remove_move game row col vertical
    let alpha := max alpha eval.2.2.2
    if beta ≤ alpha then
      pure (max_move, game, rng)
    else
      max_loop ops max_agent beta recur rest max_move game alpha rng

/-- The `for` loop of the minimizing branch, with the loop-carried variables `min_move`,
`game`, `beta` and the engine. -/
def min_loop (ops : BoardOps σ) (min_agent : Char) (alpha : Int)
    (recur : Board σ → Int → Int → Bool → Rng → Except Fault (Outcome σ)) :
    List Move → Scored → Board σ → Int → Rng → Except Fault (Outcome σ)
  | [], min_move, game, _, rng => pure (min_move, game, rng)
  | (row, col, vertical) :: rest, min_move, game, beta, rng => do
    let previous_score := ops.get_score game min_agent
    let game := ops.add_move game row col vertical min_agent
    let (eval, game, rng) ←
      if previous_score < ops.get_score game min_agent then recur game alpha beta false rng
      else recur game alpha beta true rng
    let min_move := if eval.2.2.2 < min_move.2.2.2 then (row, col, vertical, eval.2.2.2) else min_move
    let game := ops.remove_move game row col vertical
    let beta := min beta eval.2.2.2
    if beta ≤ alpha then
      pure (min_move, game, rng)
    else
      min_loop ops min_agent alpha recur rest min_move game beta rng

/-- Minimax with alpha-beta pruning.  `fuel` bounds the nesting of calls in the model: a call
that would nest deeper stops with `out_of_fuel`. -/
def minimax (ops : BoardOps σ) : Nat → Board σ → Int → Int → Int → Bool → Char → Char → Rng →
    Except Fault (Outcome σ)
  | 0, _, _, _, _, _, _, _, _ => .error .out_of_fuel
  | fuel + 1, game, depth, alpha, beta, maximize, max_agent, min_agent, rng =>
    if depth = 0 ∨ ops.finished game = true then
      pure ((0, 0, false, minimax_heuristic ops game max_agent min_agent), game, rng)
    else if maximize then do
      let (moves, rng) ← allowed_moves game rng
      max_loop ops max_agent beta
        (fun g a b mx r => minimax ops fuel g (depth - 1) a b mx max_agent min_agent r)
        moves (0, 0, false, -1000) game alpha rng
    else do
      let (moves, rng) ← allowed_moves game rng
      min_loop ops min_agent alpha
        (fun g a b mx r => minimax ops fuel g (depth - 1) a b mx max_agent min_agent r)
        moves (0, 0, false, 1000) game beta rng

/-! ## Vocabulary of the statements -/

/-- Shape of the storage of a board of size `N`: `horizontal_dashes` is `(N+1) x N` and
`vertical_dashes` is `N x (N+1)`. -/
def WellFormed (game : Board σ) : Prop :=
  0 ≤ game.size ∧
  game.horizontal_dashes.length = (game.size + 1).toNat ∧
  (∀ cells ∈ game.horizontal_dashes, cells.length = game.size.toNat) ∧
  game.vertical_dashes.length = game.size.toNat ∧
  (∀ cells ∈ game.vertical_dashes, cells.length = (game.size + 1).toNat)

instance (game : Board σ) : Decidable (WellFormed game) :=
  inferInstanceAs (Decidable (_ ∧ _ ∧ _ ∧ _ ∧ _))

/-- Coordinates of an edge of a board of size `size`. -/
def valid_edge (size : Int) (m : Move) : Prop :=
  if m.2.2 then 0 ≤ m.1 ∧ m.1 < size ∧ 0 ≤ m.2.1 ∧ m.2.1 ≤ size
  else 0 ≤ m.1 ∧ m.1 ≤ size ∧ 0 ≤ m.2.1 ∧ m.2.1 < size

instance (size : Int) (m : Move) : Decidable (valid_edge size m) :=
  inferInstanceAs (Decidable (if _ then _ else _))

/-- Coordinates of a square of a board of size `size`. -/
def valid_cell (size : Int) (row col : Int) : Prop :=
  0 ≤ row ∧ row < size ∧ 0 ≤ col ∧ col < size

instance (size row col : Int) : Decidable (valid_cell size row col) :=
  inferInstanceAs (Decidable (_ ∧ _ ∧ _ ∧ _))

/-- The edge lies on the outer frame of the board. -/
def on_boundary (size : Int) (m : Move) : Prop :=
  if m.2.2 then m.2.1 = 0 ∨ m.2.1 = size else m.1 = 0 ∨ m.1 = size

instance (size : Int) (m : Move) : Decidable (on_boundary size m) :=
  inferInstanceAs (Decidable (if _ then _ else _))

/-- The four edges of the square `(row, col)`, in the order `filled_edges` reads them:
top, left, bottom, right. -/
def borders (row col : Int) : List Move :=
  [(row, col, false), (row, col, true), (row + 1, col, false), (row, col + 1, true)]

/-- State of an edge: the array entry if it exists, undrawn otherwise. -/
def drawn (game : Board σ) (m : Move) : Bool :=
  match (if m.2.2 then read game.vertical_dashes m.1 m.2.1
         else read game.horizontal_dashes m.1 m.2.1) with
  | .ok x => x
  | .error _ => false

/-- The assignment `grid[row][col] = x`; nothing is stored outside the array. -/
def write (grid : List (List α)) (row col : Int) (x : α) : List (List α) :=
  if 0 ≤ row ∧ 0 ≤ col then grid.modify (fun cells => cells.set col.toNat x) row.toNat
  else grid

/-- The board with the state of edge `m` set to `x`. -/
def mark (game : Board σ) (m : Move) (x : Bool) : Board σ :=
  if m.2.2 then { game with vertical_dashes := write game.vertical_dashes m.1 m.2.1 x }
  else { game with horizontal_dashes := write game.horizontal_dashes m.1 m.2.1 x }


/-- Fill count of the square `(row, col)`: how many of its four borders are drawn. -/
def fill (game : Board σ) (row col : Int) : Nat :=
  (borders row col).countP (drawn game)

/-- The edge `m` is a border of some square of the board whose fill count is `k`. -/
def touches (game : Board σ) (m : Move) (k : Nat) : Prop :=
  ∃ row col, valid_cell game.size row col ∧ m ∈ borders row col ∧ fill game row col = k

/-- Some square listed by `get_neighbours` for the edge `m` has fill count `k`. -/
def near (game : Board σ) (m : Move) (k : Nat) : Bool :=
  (get_neighbours game m.1 m.2.1 m.2.2).any fun square => fill game square.1 square.2 == k

/-- The legal moves of a position: the undrawn edges of the board, row by row, horizontal
edges first. -/
def undrawn_edges (game : Board σ) : List Move :=
  (scan_order game.size).filter fun m => !drawn game m

/-- Priority class of a candidate: 0 when it borders a square with three drawn edges and none
with two, 1 when it borders neither, 2 when it borders a square with two drawn edges. -/
def priority (game : Board σ) (m : Move) : Nat :=
  if near game m 2 then 2 else if near game m 3 then 0 else 1

/-- The legal moves of priority class `k`, in scan order. -/
def bucket (game : Board σ) (k : Nat) : List Move :=
  (undrawn_edges game).filter fun m => priority game m == k

/-! ## The candidates a node examines -/

/-- The scores `get<3>(eval)` of the candidates that the `for` loop of the maximizing branch
examines, in the order in which it examines them: the loop of `max_loop` with the evaluated
scores listed instead of the best tuple.  The list ends with the candidate after which
`beta <= alpha` holds, and before a recursive call that does not return. -/
def max_evals (ops : BoardOps σ) (max_agent : Char) (beta : Int)
    (recur : Board σ → Int → Int → Bool → Rng → Except Fault (Outcome σ)) :
    List Move → Board σ → Int → Rng → List Int
  | [], _, _, _ => []
  | (row, col, vertical) :: rest, game, alpha, rng =>
    let previous_score := ops.get_score game max_agent
    let game := ops.add_move game row col vertical max_agent
    match (if previous_score < ops.get_score game max_agent then recur game alpha beta true rng
      else recur game alpha beta false rng) with
    | .error _ => []
    | .ok (eval, game, rng) =>
      let game := ops.remove_move game row col vertical
      let alpha := max alpha eval.2.2.2
      if beta ≤ alpha then [eval.2.2.2]
      else eval.2.2.2 :: max_evals ops max_agent beta recur rest game alpha rng

/-- The scores of the candidates that the `for` loop of the minimizing branch examines, in the
order in which it examines them; the counterpart of `max_evals` for `min_loop`. -/
def min_evals (ops : BoardOps σ) (min_agent : Char) (alpha : Int)
    (recur : Board σ → Int → Int → Bool → Rng → Except Fault (Outcome σ)) :
    List Move → Board σ → Int → Rng → List Int
  | [], _, _, _ => []
  | (row, col, vertical) :: rest, game, beta, rng =>
    let previous_score := ops.get_score game min_agent
    let game := ops.add_move game row col vertical min_agent
    match (if previous_score < ops.get_score game min_agent then recur game alpha beta false rng
      else recur game alpha beta true rng) with
    | .error _ => []
    | .ok (eval, game, rng) =>
      let game := ops.remove_move game row col vertical
      let beta := min beta eval.2.2.2
      if beta ≤ alpha then [eval.2.2.2]
      else eval.2.2.2 :: min_evals ops min_agent alpha recur rest game beta rng

/-! ## The contract of the board collaborator -/

/-- On the positions satisfying `Inv`, the storage has the shape of a board, playing a legal
move leads to such a position again, and `remove_move` exactly reverses `add_move` on the same
edge. -/
structure Reversible (ops : BoardOps σ) (Inv : Board σ → Prop) : Prop where
  well_formed : ∀ g, Inv g → WellFormed g
  add_keeps : ∀ g m p, Inv g → m ∈ undrawn_edges g → Inv (ops.add_move g m.1 m.2.1 m.2.2 p)
  remove_add : ∀ g m p, Inv g → m ∈ undrawn_edges g →
    ops.remove_move (ops.add_move g m.1 m.2.1 m.2.2 p) m.1 m.2.1 m.2.2 = g

/-- A position that `finished()` reports as not finished has a legal move. -/
def Playable (ops : BoardOps σ) (Inv : Board σ → Prop) : Prop :=
  ∀ g, Inv g → ops.finished g = false → undrawn_edges g ≠ []

/-- The contract of `finished()`: it is true exactly when no legal edge remains. -/
def Terminal (ops : BoardOps σ) (Inv : Board σ → Prop) : Prop :=
  ∀ g, Inv g → (ops.finished g = true ↔ undrawn_edges g = [])

/-- Every score differential lies strictly between the sentinels -1000 and 1000. -/
def Bounded (ops : BoardOps σ) (Inv : Board σ → Prop) (max_agent min_agent : Char) : Prop :=
  ∀ g, Inv g → -1000 < minimax_heuristic ops g max_agent min_agent ∧
    minimax_heuristic ops g max_agent min_agent < 1000

/-- Drawing an edge that completes a square (it borders one with three drawn edges) raises the
score of the mover, and drawing an edge never changes the score of another player. -/
def Scoring (ops : BoardOps σ) (Inv : Board σ → Prop) : Prop :=
  ∀ g m p, Inv g → m ∈ undrawn_edges g →
    (touches g m 3 →
      ops.get_score g p + 1 ≤ ops.get_score (ops.add_move g m.1 m.2.1 m.2.2 p) p) ∧
    ∀ q, q ≠ p → ops.get_score (ops.add_move g m.1 m.2.1 m.2.2 p) q = ops.get_score g q

/-- The move fields of a search result. -/
def Scored.move (r : Scored) : Move := (r.1, r.2.1, r.2.2.1)

/-- The score field of a search result. -/
def Scored.score (r : Scored) : Int := r.2.2.2

/-- Fail-soft relation between a returned score `v`, the window `(alpha, beta)` and the exact
value `exact`: a score inside the window is exact, a score at or below `alpha` is an upper
bound of the exact value, a score at or above `beta` is a lower bound. -/
def FailSoft (alpha beta v exact : Int) : Prop :=
  (v ≤ alpha → exact ≤ v) ∧ (alpha < v → v < beta → v = exact) ∧ (beta ≤ v → v ≤ exact)

/-- The value `v` is the value `c m` of one of the moves `m` of the list. -/
def attained (v : Int) (moves : List Move) (c : Move → Int) : Prop :=
  ∃ m ∈ moves, v = c m

/-! ## Reference: minimax without pruning -/

/-- The position after `player` draws the legal move `m`. -/
def play (ops : BoardOps σ) (game : Board σ) (m : Move) (player : Char) : Board σ :=
  ops.add_move game m.1 m.2.1 m.2.2 player

/-- The extra-turn rule: the mover keeps the turn exactly when the move raised its score. -/
def keeps_turn (ops : BoardOps σ) (game : Board σ) (m : Move) (player : Char) : Bool :=
  decide (ops.get_score game player < ops.get_score (play ops game m player) player)

/-- Depth-limited minimax over the legal moves without pruning: the heuristic value at depth
0 and at finished positions; otherwise the largest (maximizing) or smallest (minimizing) value
of the positions one move away, searched one level less deep with the extra-turn rule, starting
from the sentinel -1000 or 1000. -/
def plain_minimax (ops : BoardOps σ) (max_agent min_agent : Char) : Nat → Board σ → Bool → Int
  | 0, game, _ => minimax_heuristic ops game max_agent min_agent
  | depth + 1, game, maximize =>
    if ops.finished game then minimax_heuristic ops game max_agent min_agent
    else if maximize then
      (undrawn_edges game).foldl (fun best m =>
        max best (plain_minimax ops max_agent min_agent depth (play ops game m max_agent)
          (keeps_turn ops game m max_agent))) (-1000)
    else
      (undrawn_edges game).foldl (fun best m =>
        min best (plain_minimax ops max_agent min_agent depth (play ops game m min_agent)
          (!keeps_turn ops game m min_agent))) 1000

/-! ## A board implementation, modelled from the spec -/

/-- Modelled from the spec: the state of the `Board` object that `algo.h` does not read: for
every square, the player it is attributed to, if any. -/
abbrev Owners := List (List (Option Char))

/-- Modelled from the spec: `finished()` is "true when no legal edges remain". -/
def std_finished (game : Board Owners) : Bool :=
  game.horizontal_dashes.all (fun cells => cells.all id) &&
    game.vertical_dashes.all (fun cells => cells.all id)

/-- The squares of a board of size `size`, row by row. -/
def squares (size : Int) : List (Int × Int) :=
  (List.range size.toNat).flatMap fun (row : Nat) =>
    (List.range size.toNat).map fun (col : Nat) => ((row : Int), (col : Int))

/-- Modelled from the spec: the player the square `(row, col)` is attributed to, if any. -/
def owner (game : Board Owners) (row col : Int) : Option Char :=
  match read game.hidden row col with
  | .ok x => x
  | .error _ => none

/-- Modelled from the spec: `get_score(player)` is the "current box count for a player". -/
def std_get_score (game : Board Owners) (player : Char) : Int :=
  ((squares game.size).countP (fun square => owner game square.1 square.2 == some player) : Nat)

/-- Modelled from the spec: the attribution of the squares among `squares` that have all four
edges drawn on `game` to `owner`. -/
def assign_squares (game : Board Owners) (owner : Option Char) : List (Int × Int) → Owners → Owners
  | [], o => o
  | square :: rest, o =>
    match filled_edges game square.1 square.2 with
    | .ok n => assign_squares game owner rest (if n = 4 then write o square.1 square.2 owner else o)
    | .error _ => assign_squares game owner rest o

/-- Modelled from the spec: `add_move` "marks an edge drawn and attributes any completed
cell(s) to `player`'s score". -/
def std_add_move (game : Board Owners) (row col : Int) (vertical : Bool) (player : Char) :
    Board Owners :=
  let game1 := mark game (row, col, vertical) true
  { game1 with
    hidden := assign_squares game1 (some player) (get_neighbours game1 row col vertical) game1.hidden }

/-- Modelled from the spec: `remove_move` "reverses the effect of the most recent `add_move`
on that edge, including reverting any score attribution". -/
def std_remove_move (game : Board Owners) (row col : Int) (vertical : Bool) : Board Owners :=
  { mark game (row, col, vertical) false with
    hidden := assign_squares game none (get_neighbours game row col vertical) game.hidden }

/-- Modelled from the spec: the member functions of the board collaborator of section 6. -/
def std_ops : BoardOps Owners where
  finished := std_finished
  get_score := std_get_score
  add_move := std_add_move
  remove_move := std_remove_move

/-- The board of `n x n` squares with no edge drawn and no square attributed. -/
def empty_board (n : Nat) : Board Owners where
  size := n
  horizontal_dashes := List.replicate (n + 1) (List.replicate n false)
  vertical_dashes := List.replicate n (List.replicate (n + 1) false)
  hidden := List.replicate n (List.replicate n none)

/-- The board obtained from `game` by drawing the listed edges without attributing squares. -/
def with_edges (game : Board σ) (edges : List Move) : Board σ :=
  edges.foldl (fun g m => mark g m true) game

/-- The 2 x 2 position with exactly v(0,0), h(1,0), v(0,1), v(1,1), h(1,1), v(1,2) drawn and
no square attributed: the squares (0,0) and (1,1) have three drawn edges, the other two have
two. -/
def two_boxes_board : Board Owners :=
  with_edges (empty_board 2)
    [(0, 0, true), (1, 0, false), (0, 1, true), (1, 1, true), (1, 1, false), (1, 2, true)]

/-- Modelled from the spec: the positions of the game: the storage has the shape of a board of
size `game.size`, and only squares with all four edges drawn are attributed to a player. -/
def Consistent (game : Board Owners) : Prop :=
  WellFormed game ∧
  game.hidden.length = game.size.toNat ∧
  (∀ cells ∈ game.hidden, cells.length = game.size.toNat) ∧
  (∀ square ∈ squares game.size,
    fill game square.1 square.2 < 4 → owner game square.1 square.2 = none)

instance (game : Board Owners) : Decidable (Consistent game) :=
  inferInstanceAs (Decidable (_ ∧ _ ∧ _ ∧ _))

/-- The positions of the game on boards of at most `n x n` squares. -/
def std_inv (n : Nat) (game : Board Owners) : Prop :=
  Consistent game ∧ game.size ≤ n

instance (n : Nat) (game : Board Owners) : Decidable (std_inv n game) :=
  inferInstanceAs (Decidable (_ ∧ _))

/-- The board of `n x n` squares with every edge drawn and every square attributed to
`player`. -/
def full_board (n : Nat) (player : Char) : Board Owners where
  size := n
  horizontal_dashes := List.replicate (n + 1) (List.replicate n true)
  vertical_dashes := List.replicate n (List.replicate (n + 1) true)
  hidden := List.replicate n (List.replicate n (some player))

/-- A late position on a 32 x 32 board: every edge is drawn except the bottom edge h(32, 31)
of the last square (31, 31), that square is not attributed, and the 1023 completed squares are
all attributed to player B. -/
def late_board : Board Owners :=
  { mark (full_board 32 'B') (32, 31, false) false with
    hidden := write (full_board 32 'B').hidden 31 31 none }

/-- The 2 x 2 position with exactly h(0,0), v(0,0), h(1,0), h(0,1), v(0,2) drawn and no square
attributed: the square (0,0) has three drawn edges, the square (0,1) has two, the square (1,0)
has one and the square (1,1) has none.  The undrawn edge v(0,1) lies between the first two. -/
def mixed_board : Board Owners :=
  with_edges (empty_board 2)
    [(0, 0, false), (0, 0, true), (1, 0, false), (0, 1, false), (0, 2, true)]

/-- A board collaborator that breaks the contract of `finished()`: the operations of `std_ops`
with a `finished()` that never reports the end of the game. -/
def unending_ops : BoardOps Owners :=
  { std_ops with finished := fun _ => false }

/-! ## Reads on a well-formed board -/

theorem read_ok {grid : List (List α)} {rows cols : Nat} {row col : Int}
    (hlen : grid.length = rows) (hcells : ∀ cells ∈ grid, cells.length = cols)
    (hr0 : 0 ≤ row) (hr : row < rows) (hc0 : 0 ≤ col) (hc : col < cols) :
    ∃ x, read grid row col = .ok x := by
  have h1 : row.toNat < grid.length := by omega
  have h2 : col.toNat < (grid[row.toNat]).length := by
    rw [hcells _ (List.getElem_mem _)]; omega
  refine ⟨(grid[row.toNat])[col.toNat], ?_⟩
  simp [read, hr0, hc0, List.getElem?_eq_getElem h1, List.getElem?_eq_getElem h2]

theorem read_edge_ok {game : Board σ} (hw : WellFormed game) {m : Move}
    (hm : valid_edge game.size m) :
    (if m.2.2 then read game.vertical_dashes m.1 m.2.1
     else read game.horizontal_dashes m.1 m.2.1) = .ok (drawn game m) := by
  obtain ⟨h0, hh, hhc, hv, hvc⟩ := hw
  obtain ⟨row, col, vertical⟩ := m
  cases vertical
  · simp only [valid_edge, Bool.false_eq_true, if_false] at hm
    obtain ⟨x, hx⟩ := read_ok hh hhc hm.1 (by omega) hm.2.2.1 (by omega)
    simp [drawn, hx]
  · simp only [valid_edge, if_true] at hm
    obtain ⟨x, hx⟩ := read_ok hv hvc hm.1 (by omega) hm.2.2.1 (by omega)
    simp [drawn, hx]

theorem read_h_ok {game : Board σ} (hw : WellFormed game) (row col : Int)
    (hm : valid_edge game.size (row, col, false)) :
    read game.horizontal_dashes row col = .ok (drawn game (row, col, false)) := by
  simpa using read_edge_ok hw hm

theorem read_v_ok {game : Board σ} (hw : WellFormed game) (row col : Int)
    (hm : valid_edge game.size (row, col, true)) :
    read game.vertical_dashes row col = .ok (drawn game (row, col, true)) := by
  simpa using read_edge_ok hw hm

/-- On a well-formed board and a valid square, `filled_edges` counts the drawn borders. -/
theorem filled_edges_ok {game : Board σ} (hw : WellFormed game) {row col : Int}
    (hc : valid_cell game.size row col) :
    filled_edges game row col = .ok ((borders row col).countP (drawn game) : Nat) := by
  obtain ⟨h1, h2, h3, h4⟩ := hc
  have e1 := read_h_ok hw row col (by simp [valid_edge]; omega)
  have e2 := read_v_ok hw row col (by simp [valid_edge]; omega)
  have e3 := read_h_ok hw (row + 1) col (by simp [valid_edge]; omega)
  have e4 := read_v_ok hw row (col + 1) (by simp [valid_edge]; omega)
  simp only [filled_edges, e1, e2, e3, e4, borders, bind, Except.bind, pure, Except.pure,
    List.countP_cons, List.countP_nil]
  generalize drawn game (row, col, false) = a
  generalize drawn game (row, col, true) = b
  generalize drawn game (row + 1, col, false) = c
  generalize drawn game (row, col + 1, true) = d
  cases a <;> cases b <;> cases c <;> cases d <;> simp [bit]

/-! ## Writes -/

theorem read_write (grid : List (List α)) (row col : Int) (x : α) (r c : Int) :
    read (write grid row col x) r c =
      if r = row ∧ c = col then
        (match read grid row col with
         | .ok _ => .ok x
         | .error e => .error e)
      else read grid r c := by
  by_cases hrc : 0 ≤ row ∧ 0 ≤ col
  · by_cases hr : 0 ≤ r ∧ 0 ≤ c
    · obtain ⟨hr0, hc0⟩ := hr
      obtain ⟨hrow, hcol⟩ := hrc
      simp only [read, write, hrow, hcol, hr0, hc0, and_self, if_true, List.getElem?_modify]
      by_cases e1 : r = row
      · subst e1
        cases h1 : grid[r.toNat]? with
        | none => simp
        | some cells =>
          by_cases e2 : c = col
          · subst e2
            cases h2 : cells[c.toNat]? with
            | none =>
              have : cells.length ≤ c.toNat := by
                simpa [List.getElem?_eq_none_iff] using h2
              simp [h2, List.getElem?_set, Nat.not_lt.2 this]
            | some y =>
              have : c.toNat < cells.length := by
                by_contra hh
                have := List.getElem?_eq_none_iff.2 (not_lt.1 hh)
                simp [h2] at this
              simp [h2, List.getElem?_set, this]
          · have : col.toNat ≠ c.toNat := by omega
            simp [e2, List.getElem?_set, this]
      · have : row.toNat ≠ r.toNat := by omega
        simp [e1, this]
    · have hne : ¬ (r = row ∧ c = col) := by
        rintro ⟨rfl, rfl⟩; exact hr hrc
      simp [read, hr, hne]
  · simp only [write, hrc, if_false]
    split
    · rename_i h
      obtain ⟨rfl, rfl⟩ := h
      simp [read, hrc]
    · rfl

theorem shape_write {grid : List (List α)} {n k : Nat} (row col : Int) (x : α)
    (hl : grid.length = n) (hc : ∀ cells ∈ grid, cells.length = k) :
    (write grid row col x).length = n ∧ ∀ cells ∈ write grid row col x, cells.length = k := by
  unfold write
  split
  · refine ⟨by simpa using hl, ?_⟩
    intro cells hmem
    obtain ⟨i, hi, rfl⟩ := List.getElem_of_mem hmem
    have hi2 : i < grid.length := by simpa using hi
    have := List.getElem?_modify (fun cells => cells.set col.toNat x) row.toNat grid i
    rw [List.getElem?_eq_getElem hi, List.getElem?_eq_getElem hi2] at this
    simp only [Option.map_eq_map, Option.map_some', Option.some.injEq] at this
    rw [this]
    split <;> simp [hc _ (List.getElem_mem hi2)]
  · exact ⟨hl, hc⟩

theorem wellFormed_mark {game : Board σ} (hw : WellFormed game) (m : Move) (x : Bool) :
    WellFormed (mark game m x) := by
  obtain ⟨h0, hh, hhc, hv, hvc⟩ := hw
  unfold mark
  split
  · obtain ⟨a, b⟩ := shape_write m.1 m.2.1 x hv hvc
    exact ⟨h0, hh, hhc, a, b⟩
  · obtain ⟨a, b⟩ := shape_write m.1 m.2.1 x hh hhc
    exact ⟨h0, a, b, hv, hvc⟩

@[simp] theorem size_mark (game : Board σ) (m : Move) (x : Bool) :
    (mark game m x).size = game.size := by
  unfold mark; split <;> rfl

@[simp] theorem hidden_mark (game : Board σ) (m : Move) (x : Bool) :
    (mark game m x).hidden = game.hidden := by
  unfold mark; split <;> rfl

/-- Marking a valid edge of a well-formed board changes the state of that edge only. -/
theorem drawn_mark {game : Board σ} (hw : WellFormed game) {m : Move}
    (hm : valid_edge game.size m) (x : Bool) (e : Move) :
    drawn (mark game m x) e = if e = m then x else drawn game e := by
  have hr := read_edge_ok hw hm
  obtain ⟨row, col, vertical⟩ := m
  obtain ⟨r, c, v⟩ := e
  cases vertical <;> cases v
  · simp only [Bool.false_eq_true, if_false] at hr
    obtain ⟨y, hy⟩ : ∃ y, read game.horizontal_dashes row col = .ok y := ⟨_, hr⟩
    by_cases h : r = row ∧ c = col
    · simp [drawn, mark, read_write, h, hy]
    · have h2 : ¬ (r = row ∧ c = col) := h
      simp only [not_and] at h2
      simp [drawn, mark, read_write, h, h2]
  · simp [drawn, mark]
  · simp [drawn, mark]
  · simp only [if_true] at hr
    obtain ⟨y, hy⟩ : ∃ y, read game.vertical_dashes row col = .ok y := ⟨_, hr⟩
    by_cases h : r = row ∧ c = col
    · simp [drawn, mark, read_write, h, hy]
    · have h2 : ¬ (r = row ∧ c = col) := h
      simp only [not_and] at h2
      simp [drawn, mark, read_write, h, h2]

/-! ## Adjacency and fill counts -/

/-- The squares listed for a valid edge are the valid squares having it among their borders. -/
theorem mem_get_neighbours (game : Board σ) {row col : Int} {vertical : Bool}
    (hv : valid_edge game.size (row, col, vertical)) (r c : Int) :
    (r, c) ∈ get_neighbours game row col vertical ↔
      valid_cell game.size r c ∧ (row, col, vertical) ∈ borders r c := by
  cases vertical
  · simp only [valid_edge, Bool.false_eq_true, if_false] at hv
    simp only [get_neighbours, borders, valid_cell, Bool.false_eq_true, if_false,
      List.mem_append, List.mem_ite_nil_right, List.mem_singleton, Prod.mk.injEq,
      List.mem_cons, and_true, and_false, or_false, false_or, List.mem_nil_iff,
      Bool.true_eq_false]
    omega
  · simp only [valid_edge, if_true] at hv
    simp only [get_neighbours, borders, valid_cell, if_true,
      List.mem_append, List.mem_ite_nil_right, List.mem_singleton, Prod.mk.injEq,
      List.mem_cons, and_true, and_false, or_false, false_or, List.mem_nil_iff,
      Bool.false_eq_true, Bool.true_eq_false]
    omega

/-- C9: on a board of size at least 1 and for a valid edge, `get_neighbours` lists the square
before the edge (left of a vertical edge, above a horizontal one) when there is one and then
the square after it when there is one; it has one entry for an edge on the frame of the board
and two otherwise, and its entries are exactly the valid squares having the edge among their
four borders. -/
theorem get_neighbours_spec (game : Board σ) (row col : Int) (vertical : Bool)
    (hN : 1 ≤ game.size) (hv : valid_edge game.size (row, col, vertical)) :
    (vertical = true → get_neighbours game row col vertical =
      (if 0 < col then [(row, col - 1)] else []) ++
        (if col < game.size then [(row, col)] else [])) ∧
    (vertical = false → get_neighbours game row col vertical =
      (if 0 < row then [(row - 1, col)] else []) ++
        (if row < game.size then [(row, col)] else [])) ∧
    (get_neighbours game row col vertical).length =
      (if on_boundary game.size (row, col, vertical) then 1 else 2) ∧
    (∀ r c, (r, c) ∈ get_neighbours game row col vertical ↔
      valid_cell game.size r c ∧ (row, col, vertical) ∈ borders r c) := by
  refine ⟨?_, ?_, ?_, fun r c => mem_get_neighbours game hv r c⟩
  · rintro rfl; simp [get_neighbours]
  · rintro rfl; simp [get_neighbours]
  · cases vertical
    · simp only [valid_edge, Bool.false_eq_true, if_false] at hv
      simp only [get_neighbours, on_boundary, Bool.false_eq_true, if_false]
      split_ifs <;> first | rfl | (exfalso; omega)
    · simp only [valid_edge, if_true] at hv
      simp only [get_neighbours, on_boundary, if_true]
      split_ifs <;> first | rfl | (exfalso; omega)

/-- Witness of C9: the inner vertical edge (0, 1) of the 2 x 2 board lies between the squares
(0, 0) and (0, 1). -/
theorem get_neighbours_spec_witness :
    1 ≤ two_boxes_board.size ∧ valid_edge two_boxes_board.size (0, 1, true) ∧
    get_neighbours two_boxes_board 0 1 true = [(0, 0), (0, 1)] :=
  ⟨by decide, by decide,
    (get_neighbours_spec two_boxes_board 0 1 true (by decide) (by decide)).1 rfl⟩

theorem valid_edge_of_border {size row col : Int} (hc : valid_cell size row col) {e : Move}
    (he : e ∈ borders row col) : valid_edge size e := by
  obtain ⟨h1, h2, h3, h4⟩ := hc
  simp only [borders, List.mem_cons, List.mem_nil_iff, or_false] at he
  rcases he with rfl | rfl | rfl | rfl <;> simp [valid_edge] <;> omega

/-- C10: on a well-formed board and for a valid square, `filled_edges` returns the number of
drawn edges among the four borders of the square; the number lies between 0 and 4, is 4
exactly when all four borders are drawn and 0 exactly when none is, and drawing one undrawn
border raises it by exactly 1. -/
theorem filled_edges_spec (game : Board σ) (row col : Int) (hw : WellFormed game)
    (hc : valid_cell game.size row col) :
    ∃ n : Int, filled_edges game row col = .ok n ∧
      n = ((borders row col).countP (drawn game) : Nat) ∧
      borders row col =
        [(row, col, false), (row, col, true), (row + 1, col, false), (row, col + 1, true)] ∧
      0 ≤ n ∧ n ≤ 4 ∧
      (n = 4 ↔ ∀ e ∈ borders row col, drawn game e = true) ∧
      (n = 0 ↔ ∀ e ∈ borders row col, drawn game e = false) ∧
      (∀ e ∈ borders row col, drawn game e = false →
        filled_edges (mark game e true) row col = .ok (n + 1)) := by
  refine ⟨_, filled_edges_ok hw hc, rfl, rfl, by omega, ?_, ?_, ?_, ?_⟩
  · have := List.countP_le_length (drawn game) (l := borders row col)
    simp only [borders, List.length_cons, List.length_nil] at this
    simp only [borders]
    omega
  · have h4 : (borders row col).length = 4 := rfl
    rw [show (4 : Int) = ((borders row col).length : Nat) by rw [h4]; rfl, Nat.cast_inj,
      List.countP_eq_length]
  · rw [show (0 : Int) = ((0 : Nat) : Int) by rfl, Nat.cast_inj, List.countP_eq_zero]
    constructor
    · intro h e he
      simpa using h e he
    · intro h e he
      simp [h e he]
  · intro e he hd
    have hve := valid_edge_of_border hc he
    have hw2 := wellFormed_mark hw e true
    have hc2 : valid_cell (mark game e true).size row col := by simpa using hc
    rw [filled_edges_ok hw2 hc2]
    congr 1
    have hfun : drawn (mark game e true) = fun e2 => if e2 = e then true else drawn game e2 := by
      funext e2; exact drawn_mark hw hve true e2
    rw [hfun]
    simp only [borders, List.mem_cons, List.mem_nil_iff, or_false] at he
    simp only [borders, List.countP_cons, List.countP_nil]
    rcases he with rfl | rfl | rfl | rfl <;>
      simp only [hd, Prod.mk.injEq, true_and, and_true, and_false, if_true, if_false,
        Bool.false_eq_true, Bool.true_eq_false, add_right_eq_self, one_ne_zero, false_and,
        self_eq_add_right, and_self] <;>
      generalize drawn game (row, col, false) = a <;>
      generalize drawn game (row, col, true) = b <;>
      generalize drawn game (row + 1, col, false) = c <;>
      generalize drawn game (row, col + 1, true) = d <;>
      cases a <;> cases b <;> cases c <;> cases d <;> simp

/-- Witness of C10: the square (0, 0) of the sample position has three drawn borders, and
drawing its top edge gives four. -/
theorem filled_edges_spec_witness :
    WellFormed two_boxes_board ∧ valid_cell two_boxes_board.size 0 0 ∧
    ∃ n : Int, filled_edges two_boxes_board 0 0 = .ok n ∧ 0 ≤ n ∧ n ≤ 4 := by
  refine ⟨by decide, by decide, ?_⟩
  obtain ⟨n, h1, _, _, h2, h3, _⟩ :=
    filled_edges_spec two_boxes_board 0 0 (by decide) (by decide)
  exact ⟨n, h1, h2, h3⟩

/-! ## The shuffle rearranges -/

theorem cons_eraseIdx_perm : ∀ (l : List α) (i : Nat) (x : α), l[i]? = some x →
    (x :: l.eraseIdx i).Perm l
  | [], i, x, h => by simp at h
  | a :: l, 0, x, h => by
    simp only [List.getElem?_cons_zero, Option.some.injEq] at h
    subst h
    simp [List.eraseIdx]
  | a :: l, i + 1, x, h => by
    simp only [List.getElem?_cons_succ] at h
    have ih := cons_eraseIdx_perm l i x h
    simp only [List.eraseIdx]
    exact (List.Perm.swap a x _).trans (ih.cons a)

theorem shuffle_go_perm : ∀ (n : Nat) (pool : List Move) (rng : Rng), pool.length = n →
    (shuffle_go n pool rng).1.Perm pool
  | 0, pool, rng, h => by
    have : pool = [] := List.length_eq_zero.1 h
    simp [shuffle_go, this]
  | n + 1, pool, rng, h => by
    have hi : rng.next.1 % (n + 1) < pool.length := by
      rw [h]; exact Nat.mod_lt _ (Nat.succ_pos n)
    have hget : pool[rng.next.1 % (n + 1)]? = some pool[rng.next.1 % (n + 1)] :=
      List.getElem?_eq_getElem hi
    simp only [shuffle_go, hget]
    have hlen : (pool.eraseIdx (rng.next.1 % (n + 1))).length = n := by
      rw [List.length_eraseIdx_of_lt hi, h]; rfl
    exact ((shuffle_go_perm n _ rng.next.2 hlen).cons _).trans (cons_eraseIdx_perm _ _ _ hget)

/-- Whatever the engine produces, `shuffle` returns a rearrangement of its input. -/
theorem shuffle_perm (l : List Move) (rng : Rng) : (shuffle l rng).1.Perm l :=
  shuffle_go_perm l.length l rng rfl

theorem shuffle_go_onto : ∀ (target pool : List Move), target.Perm pool →
    ∃ rng : Rng, (shuffle_go pool.length pool rng).1 = target
  | [], pool, hp => by
    have : pool = [] := hp.symm.eq_nil
    subst this
    exact ⟨[], rfl⟩
  | x :: t, pool, hp => by
    have hx : x ∈ pool := hp.subset (List.mem_cons_self _ _)
    obtain ⟨i, hi, hxi⟩ := List.getElem_of_mem hx
    have hget : pool[i]? = some x := by rw [List.getElem?_eq_getElem hi, hxi]
    have hlen : pool.length = (pool.eraseIdx i).length + 1 := by
      rw [List.length_eraseIdx_of_lt hi]; omega
    have hrest : t.Perm (pool.eraseIdx i) :=
      List.Perm.cons_inv (hp.trans (cons_eraseIdx_perm pool i x hget).symm)
    obtain ⟨rng, hr⟩ := shuffle_go_onto t (pool.eraseIdx i) hrest
    refine ⟨i :: rng, ?_⟩
    rw [hlen]
    have hmod : i % ((pool.eraseIdx i).length + 1) = i := Nat.mod_eq_of_lt (by omega)
    simp only [shuffle_go, Rng.next, hmod, hget, hr]

/-- Every rearrangement of the input is the outcome of `shuffle` for some state of the
engine, so a statement about all engine states is a statement about all outcomes. -/
theorem shuffle_onto (l target : List Move) (hp : target.Perm l) :
    ∃ rng : Rng, (shuffle l rng).1 = target :=
  shuffle_go_onto target l hp

/-! ## The scan of `allowed_moves` -/

theorem mem_scan_order (size : Int) (m : Move) : m ∈ scan_order size ↔ valid_edge size m := by
  obtain ⟨row, col, vertical⟩ := m
  simp only [scan_order, List.mem_flatMap, List.mem_map, List.mem_range, List.mem_cons,
    List.mem_singleton, Prod.mk.injEq, valid_edge, List.mem_nil_iff, or_false, exists_eq_or_imp,
    exists_eq_left, bit, Bool.false_eq_true, if_false, if_true]
  cases vertical
  · simp only [Bool.false_eq_true, Bool.true_eq_false, and_false, exists_false, or_false,
      and_true, if_false]
    constructor
    · rintro ⟨a, ha, b, hb, rfl, rfl⟩
      omega
    · rintro ⟨h1, h2, h3, h4⟩
      exact ⟨row.toNat, by omega, col.toNat, by omega, by omega, by omega⟩
  · simp only [Bool.false_eq_true, Bool.true_eq_false, and_false, exists_false, false_or,
      and_true, if_true]
    constructor
    · rintro ⟨a, ha, b, hb, rfl, rfl⟩
      omega
    · rintro ⟨h1, h2, h3, h4⟩
      exact ⟨row.toNat, by omega, col.toNat, by omega, by omega, by omega⟩

theorem nodup_scan_order (size : Int) : (scan_order size).Nodup := by
  unfold scan_order
  rw [List.nodup_flatMap]
  refine ⟨?_, ?_⟩
  · intro vertical _
    rw [List.nodup_flatMap]
    refine ⟨?_, ?_⟩
    · intro row _
      refine (List.nodup_range _).map ?_
      intro a b h
      simpa using h
    · refine (List.nodup_range _).pairwise_of_forall_ne ?_
      intro a _ b _ hab
      simp only [Function.onFun, List.disjoint_left, List.mem_map]
      rintro x ⟨c, _, rfl⟩ ⟨d, _, h⟩
      simp only [Prod.mk.injEq] at h
      exact hab (by omega)
  · simp only [List.pairwise_cons, List.mem_singleton, forall_eq, List.mem_nil_iff,
      IsEmpty.forall_iff, implies_true, List.Pairwise.nil, and_true, Function.onFun,
      List.disjoint_left, List.mem_flatMap, List.mem_map]
    rintro x ⟨a, _, b, _, rfl⟩ ⟨c, _, d, _, h⟩
    simp at h

theorem near_iff_touches (game : Board σ) {m : Move} (hv : valid_edge game.size m) (k : Nat) :
    near game m k = true ↔ touches game m k := by
  obtain ⟨row, col, vertical⟩ := m
  simp only [near, touches, List.any_eq_true, beq_iff_eq, Prod.exists]
  constructor
  · rintro ⟨r, c, hmem, hk⟩
    exact ⟨r, c, ((mem_get_neighbours game hv r c).1 hmem).1,
      ((mem_get_neighbours game hv r c).1 hmem).2, hk⟩
  · rintro ⟨r, c, h1, h2, hk⟩
    exact ⟨r, c, (mem_get_neighbours game hv r c).2 ⟨h1, h2⟩, hk⟩

theorem inspect_ok {game : Board σ} (hw : WellFormed game) (m : Move) :
    ∀ (squares : List (Int × Int)) (edges_2 : List Move) (edge_2 edge_3 : Bool),
      (∀ square ∈ squares, valid_cell game.size square.1 square.2) →
      (squares.any (fun square => fill game square.1 square.2 == 2) = true →
        ∃ x, inspect game m squares (edges_2, edge_2, edge_3) = .ok (edges_2 ++ [m], true, x)) ∧
      (squares.any (fun square => fill game square.1 square.2 == 2) = false →
        inspect game m squares (edges_2, edge_2, edge_3) =
          .ok (edges_2, edge_2,
            edge_3 || squares.any (fun square => fill game square.1 square.2 == 3)))
  | [], edges_2, edge_2, edge_3, _ => by
    simp [inspect, pure, Except.pure]
  | square :: rest, edges_2, edge_2, edge_3, hvalid => by
    have hsq := hvalid square (List.mem_cons_self _ _)
    have hrest : ∀ s ∈ rest, valid_cell game.size s.1 s.2 :=
      fun s hs => hvalid s (List.mem_cons_of_mem _ hs)
    have hfe := filled_edges_ok hw hsq
    have hfill : (borders square.1 square.2).countP (drawn game) = fill game square.1 square.2 := rfl
    rw [hfill] at hfe
    by_cases h2 : fill game square.1 square.2 = 2
    · simp [inspect, hfe, h2, bind, Except.bind, pure, Except.pure]
    · have h2i : ¬ ((fill game square.1 square.2 : Nat) : Int) = 2 := by exact_mod_cast h2
      by_cases h3 : fill game square.1 square.2 = 3
      · obtain ⟨ih1, ih2⟩ := inspect_ok hw m rest edges_2 edge_2 true hrest
        simp only [inspect, hfe, bind, Except.bind, h3, List.any_cons, beq_iff_eq]
        simpa using And.intro ih1 ih2
      · have h3i : ¬ ((fill game square.1 square.2 : Nat) : Int) = 3 := by exact_mod_cast h3
        obtain ⟨ih1, ih2⟩ := inspect_ok hw m rest edges_2 edge_2 edge_3 hrest
        have hb2 : (fill game square.1 square.2 == 2) = false := by simpa using h2
        have hb3 : (fill game square.1 square.2 == 3) = false := by simpa using h3
        simp only [inspect, hfe, bind, Except.bind, h2i, h3i, if_false, List.any_cons,
          hb2, hb3, Bool.false_or]
        exact ⟨ih1, ih2⟩

theorem neighbours_valid (game : Board σ) {m : Move} (hv : valid_edge game.size m) :
    ∀ square ∈ get_neighbours game m.1 m.2.1 m.2.2, valid_cell game.size square.1 square.2 := by
  rintro ⟨r, c⟩ hmem
  exact ((mem_get_neighbours game hv r c).1 hmem).1

/-- One step of the scan: an undrawn valid edge is appended to the vector of its priority
class, a drawn one is skipped. -/
theorem visit_ok {game : Board σ} (hw : WellFormed game) (b : Buckets) {m : Move}
    (hv : valid_edge game.size m) :
    visit game b m = .ok
      ⟨b.edges_3 ++ [m].filter (fun e => !drawn game e && priority game e == 0),
       b.edges_0_1 ++ [m].filter (fun e => !drawn game e && priority game e == 1),
       b.edges_2 ++ [m].filter (fun e => !drawn game e && priority game e == 2)⟩ := by
  have hread := read_edge_ok hw hv
  obtain ⟨i1, i2⟩ := inspect_ok hw m (get_neighbours game m.1 m.2.1 m.2.2) b.edges_2 false false
    (neighbours_valid game hv)
  have hn2 : near game m 2 =
      (get_neighbours game m.1 m.2.1 m.2.2).any (fun square => fill game square.1 square.2 == 2) :=
    rfl
  have hn3 : near game m 3 =
      (get_neighbours game m.1 m.2.1 m.2.2).any (fun square => fill game square.1 square.2 == 3) :=
    rfl
  rw [← hn2] at i1 i2
  rw [← hn3] at i2
  have hvisit : visit game b m =
      (match drawn game m with
       | true => .ok b
       | false =>
         (inspect game m (get_neighbours game m.1 m.2.1 m.2.2) (b.edges_2, false, false)).bind
           fun r =>
            if !r.2.1 then
              if r.2.2 then .ok { b with edges_3 := b.edges_3 ++ [m], edges_2 := r.1 }
              else .ok { b with edges_0_1 := b.edges_0_1 ++ [m], edges_2 := r.1 }
            else .ok { b with edges_2 := r.1 }) := by
    unfold visit
    simp only [bind, Except.bind, pure, Except.pure]
    cases hmv : m.2.2 <;>
      simp only [hmv, Bool.false_eq_true, if_false, if_true] at hread ⊢ <;>
      rw [hread] <;> cases drawn game m <;> rfl
  rw [hvisit]
  cases hd : drawn game m
  · cases h2 : near game m 2
    · rw [i2 h2]
      cases h3 : near game m 3 <;>
        simp [priority, h2, h3, hd, Except.bind, List.filter_cons]
    · obtain ⟨x, hx⟩ := i1 h2
      rw [hx]
      simp [priority, h2, hd, Except.bind, List.filter_cons]
  · simp [hd, List.filter_cons]

theorem scan_ok {game : Board σ} (hw : WellFormed game) :
    ∀ (ms : List Move) (b : Buckets), (∀ m ∈ ms, valid_edge game.size m) →
      scan game ms b = .ok
        ⟨b.edges_3 ++ ms.filter (fun e => !drawn game e && priority game e == 0),
         b.edges_0_1 ++ ms.filter (fun e => !drawn game e && priority game e == 1),
         b.edges_2 ++ ms.filter (fun e => !drawn game e && priority game e == 2)⟩
  | [], b, _ => by simp [scan, pure, Except.pure]
  | m :: rest, b, hv => by
    have h1 := visit_ok hw b (hv m (List.mem_cons_self _ _))
    have h2 := scan_ok hw rest
      ⟨b.edges_3 ++ [m].filter (fun e => !drawn game e && priority game e == 0),
       b.edges_0_1 ++ [m].filter (fun e => !drawn game e && priority game e == 1),
       b.edges_2 ++ [m].filter (fun e => !drawn game e && priority game e == 2)⟩
      (fun e he => hv e (List.mem_cons_of_mem _ he))
    simp only [scan, h1, bind, Except.bind, h2, List.append_assoc]
    rw [← List.filter_append, ← List.filter_append, ← List.filter_append]
    rfl

theorem filter_pick_eq_bucket (game : Board σ) (k : Nat) :
    (scan_order game.size).filter (fun e => !drawn game e && priority game e == k) =
      bucket game k := by
  simp [bucket, undrawn_edges, List.filter_filter, Bool.and_comm]

/-- Structure of the result of `allowed_moves` on a well-formed board: a rearrangement of the
class-0 candidates, then one of the class-1 candidates, then one of the class-2 candidates. -/
theorem allowed_moves_ok {game : Board σ} (hw : WellFormed game) (rng : Rng) :
    ∃ l3 l01 l2 rng2, allowed_moves game rng = .ok (l3 ++ l01 ++ l2, rng2) ∧
      l3.Perm (bucket game 0) ∧ l01.Perm (bucket game 1) ∧ l2.Perm (bucket game 2) := by
  have hs := scan_ok hw (scan_order game.size) ⟨[], [], []⟩
    (fun m hm => (mem_scan_order _ _).1 hm)
  simp only [List.nil_append, filter_pick_eq_bucket] at hs
  refine ⟨_, _, _,
    (shuffle (bucket game 2) (shuffle (bucket game 1) (shuffle (bucket game 0) rng).2).2).2,
    ?_, shuffle_perm (bucket game 0) rng,
    shuffle_perm (bucket game 1) (shuffle (bucket game 0) rng).2,
    shuffle_perm (bucket game 2) (shuffle (bucket game 1) (shuffle (bucket game 0) rng).2).2⟩
  simp only [allowed_moves, hs, bind, Except.bind, pure, Except.pure]

theorem priority_le_two (game : Board σ) (m : Move) : priority game m ≤ 2 := by
  unfold priority; split_ifs <;> omega

/-- The three priority classes partition the legal moves. -/
theorem buckets_perm (game : Board σ) :
    (bucket game 0 ++ bucket game 1 ++ bucket game 2).Perm (undrawn_edges game) := by
  have h1 := List.filter_append_perm (fun m => priority game m == 0) (undrawn_edges game)
  have h2 := List.filter_append_perm (fun m => priority game m == 1)
    ((undrawn_edges game).filter (fun m => !(priority game m == 0)))
  have e1 : ((undrawn_edges game).filter (fun m => !(priority game m == 0))).filter
      (fun m => priority game m == 1) = bucket game 1 := by
    rw [List.filter_filter]
    refine List.filter_congr ?_
    intro m _
    by_cases h : priority game m = 1 <;> simp [h]
  have e2 : ((undrawn_edges game).filter (fun m => !(priority game m == 0))).filter
      (fun m => !(priority game m == 1)) = bucket game 2 := by
    rw [List.filter_filter]
    refine List.filter_congr ?_
    intro m _
    have := priority_le_two game m
    by_cases h : priority game m = 2
    · simp [h]
    · have h0 : (decide (priority game m = 2)) = false := by simpa using h
      by_cases h3 : priority game m = 0
      · simp [h3]
      · have h4 : priority game m = 1 := by omega
        simp [h4]
  rw [e1, e2] at h2
  rw [List.append_assoc]
  exact (List.Perm.append_left _ h2).trans h1

theorem mem_undrawn_edges (game : Board σ) (m : Move) :
    m ∈ undrawn_edges game ↔ valid_edge game.size m ∧ drawn game m = false := by
  simp [undrawn_edges, mem_scan_order]

theorem nodup_undrawn_edges (game : Board σ) : (undrawn_edges game).Nodup :=
  (nodup_scan_order game.size).filter _

theorem mem_bucket (game : Board σ) (k : Nat) (m : Move) :
    m ∈ bucket game k ↔ (valid_edge game.size m ∧ drawn game m = false) ∧ priority game m = k := by
  simp [bucket, mem_undrawn_edges]

/-- The candidates of `allowed_moves` are a rearrangement of the legal moves. -/
theorem allowed_moves_perm {game : Board σ} (hw : WellFormed game) (rng : Rng) :
    ∃ moves rng2, allowed_moves game rng = .ok (moves, rng2) ∧
      moves.Perm (undrawn_edges game) := by
  obtain ⟨l3, l01, l2, rng2, h, p3, p01, p2⟩ := allowed_moves_ok hw rng
  exact ⟨_, rng2, h, ((p3.append p01).append p2).trans (buckets_perm game)⟩

/-! ## The enumerator -/

/-- C1: on a well-formed board and for every state of the random engine, `allowed_moves`
returns a rearrangement of the undrawn edges: no entry occurs twice, an edge occurs in it
(exactly once) exactly when it is a valid edge of the board that is undrawn, and the result is
empty exactly when every edge of the board is drawn. -/
theorem allowed_moves_complete (game : Board σ) (rng : Rng) (hw : WellFormed game) :
    ∃ moves rng2, allowed_moves game rng = .ok (moves, rng2) ∧
      moves.Perm (undrawn_edges game) ∧ moves.Nodup ∧
      (∀ m, m ∈ moves ↔ valid_edge game.size m ∧ drawn game m = false) ∧
      (∀ m, moves.countP (fun e => decide (e = m)) =
        if valid_edge game.size m ∧ drawn game m = false then 1 else 0) ∧
      (moves = [] ↔ ∀ m, valid_edge game.size m → drawn game m = true) := by
  obtain ⟨moves, rng2, h, hp⟩ := allowed_moves_perm hw rng
  have hnd : moves.Nodup := hp.nodup_iff.2 (nodup_undrawn_edges game)
  have hmem : ∀ m, m ∈ moves ↔ valid_edge game.size m ∧ drawn game m = false :=
    fun m => hp.mem_iff.trans (mem_undrawn_edges game m)
  refine ⟨moves, rng2, h, hp, hnd, hmem, ?_, ?_⟩
  · intro m
    by_cases hm : valid_edge game.size m ∧ drawn game m = false
    · rw [if_pos hm]
      exact List.count_eq_one_of_mem hnd ((hmem m).2 hm)
    · rw [if_neg hm]
      rw [List.countP_eq_zero]
      intro e he hem
      exact hm ((hmem m).1 (by simpa using (of_decide_eq_true hem) ▸ he))
  · rw [List.eq_nil_iff_forall_not_mem]
    constructor
    · intro hall m hv
      by_contra hd
      exact hall m ((hmem m).2 ⟨hv, by simpa using hd⟩)
    · intro hall m hin
      have := (hmem m).1 hin
      rw [hall m this.1] at this
      exact absurd this.2 (by decide)

/-- Witness of C1: the sample 2 x 2 position is well formed, and the enumerator lists its six
undrawn edges. -/
theorem allowed_moves_complete_witness :
    WellFormed two_boxes_board ∧
    ∃ moves rng2, allowed_moves two_boxes_board [3, 1, 4, 1, 5] = .ok (moves, rng2) ∧
      moves.Perm (undrawn_edges two_boxes_board) ∧ moves.Nodup := by
  refine ⟨by decide, ?_⟩
  obtain ⟨moves, rng2, h, hp, hnd, _⟩ :=
    allowed_moves_complete two_boxes_board [3, 1, 4, 1, 5] (by decide)
  exact ⟨moves, rng2, h, hp, hnd⟩

/-- C2: on a well-formed board and for every state of the random engine, in the sequence
returned by `allowed_moves` every candidate bordering a square with three drawn edges and none
with two comes before every candidate bordering neither, and every such neutral candidate
comes before every candidate bordering a square with two drawn edges; hence the completing
candidates also come before the conceding ones. -/
theorem allowed_moves_order (game : Board σ) (rng : Rng) (hw : WellFormed game) :
    ∃ moves rng2, allowed_moves game rng = .ok (moves, rng2) ∧
      ∀ (i j : Nat) (hi : i < moves.length) (hj : j < moves.length),
        ((touches game moves[i] 3 ∧ ¬ touches game moves[i] 2) ∧
          (¬ touches game moves[j] 2 ∧ ¬ touches game moves[j] 3) → i < j) ∧
        ((¬ touches game moves[i] 2 ∧ ¬ touches game moves[i] 3) ∧
          touches game moves[j] 2 → i < j) ∧
        ((touches game moves[i] 3 ∧ ¬ touches game moves[i] 2) ∧
          touches game moves[j] 2 → i < j) := by
  obtain ⟨l3, l01, l2, rng2, h, p3, p01, p2⟩ := allowed_moves_ok hw rng
  refine ⟨_, rng2, h, ?_⟩
  have h3 : ∀ m ∈ l3, priority game m = 0 := fun m hm => ((mem_bucket game 0 m).1 (p3.mem_iff.1 hm)).2
  have h01 : ∀ m ∈ l01, priority game m = 1 :=
    fun m hm => ((mem_bucket game 1 m).1 (p01.mem_iff.1 hm)).2
  have h2 : ∀ m ∈ l2, priority game m = 2 := fun m hm => ((mem_bucket game 2 m).1 (p2.mem_iff.1 hm)).2
  have hvalid : ∀ m ∈ l3 ++ l01 ++ l2, valid_edge game.size m := by
    intro m hm
    simp only [List.mem_append] at hm
    rcases hm with (hm | hm) | hm
    · exact ((mem_bucket game 0 m).1 (p3.mem_iff.1 hm)).1.1
    · exact ((mem_bucket game 1 m).1 (p01.mem_iff.1 hm)).1.1
    · exact ((mem_bucket game 2 m).1 (p2.mem_iff.1 hm)).1.1
  have hpw : (l3 ++ l01 ++ l2).Pairwise (fun a b => priority game a ≤ priority game b) := by
    rw [List.pairwise_append, List.pairwise_append]
    refine ⟨⟨?_, ?_, ?_⟩, ?_, ?_⟩
    · exact List.pairwise_of_forall_mem_list (fun a ha b hb => by rw [h3 a ha, h3 b hb])
    · exact List.pairwise_of_forall_mem_list (fun a ha b hb => by rw [h01 a ha, h01 b hb])
    · intro a ha b hb; rw [h3 a ha, h01 b hb]; omega
    · exact List.pairwise_of_forall_mem_list (fun a ha b hb => by rw [h2 a ha, h2 b hb])
    · intro a ha b hb
      rw [h2 b hb]
      exact priority_le_two game a
  rw [List.pairwise_iff_getElem] at hpw
  have key : ∀ (i j : Nat) (hi : i < (l3 ++ l01 ++ l2).length) (hj : j < (l3 ++ l01 ++ l2).length),
      priority game (l3 ++ l01 ++ l2)[i] < priority game (l3 ++ l01 ++ l2)[j] → i < j := by
    intro i j hi hj hlt
    by_contra hij
    rcases Nat.lt_or_ge j i with hji | hji
    · have := hpw j i hj hi hji
      omega
    · have : i = j := by omega
      subst this
      omega
  have cls : ∀ m, valid_edge game.size m →
      ((touches game m 3 ∧ ¬ touches game m 2) ↔ priority game m = 0) ∧
      ((¬ touches game m 2 ∧ ¬ touches game m 3) ↔ priority game m = 1) ∧
      (touches game m 2 ↔ priority game m = 2) := by
    intro m hv
    rw [← near_iff_touches game hv 2, ← near_iff_touches game hv 3]
    unfold priority
    cases near game m 2 <;> cases near game m 3 <;> simp
  intro i j hi hj
  have ci := cls _ (hvalid _ (List.getElem_mem hi))
  have cj := cls _ (hvalid _ (List.getElem_mem hj))
  refine ⟨?_, ?_, ?_⟩
  · rintro ⟨a, b⟩
    exact key i j hi hj (by rw [ci.1.1 a, cj.2.1.1 b]; omega)
  · rintro ⟨a, b⟩
    exact key i j hi hj (by rw [ci.2.1.1 a, cj.2.2.1 b]; omega)
  · rintro ⟨a, b⟩
    exact key i j hi hj (by rw [ci.1.1 a, cj.2.2.1 b]; omega)

/-- Witness of C2: the statement at the sample 2 x 2 position. -/
theorem allowed_moves_order_witness :
    WellFormed two_boxes_board ∧
    ∃ moves rng2, allowed_moves two_boxes_board [2, 7, 1, 8] = .ok (moves, rng2) ∧
      ∀ (i j : Nat) (hi : i < moves.length) (hj : j < moves.length),
        (touches two_boxes_board moves[i] 3 ∧ ¬ touches two_boxes_board moves[i] 2) ∧
          touches two_boxes_board moves[j] 2 → i < j := by
  refine ⟨by decide, ?_⟩
  obtain ⟨moves, rng2, h, hord⟩ := allowed_moves_order two_boxes_board [2, 7, 1, 8] (by decide)
  exact ⟨moves, rng2, h, fun i j hi hj => (hord i j hi hj).2.2⟩

/-! ## The search: leaves -/

/-- The leaf case of `minimax`. -/
theorem minimax_leaf_eq (ops : BoardOps σ) (fuel : Nat) (game : Board σ) (depth alpha beta : Int)
    (maximize : Bool) (max_agent min_agent : Char) (rng : Rng)
    (h : depth = 0 ∨ ops.finished game = true) :
    minimax ops (fuel + 1) game depth alpha beta maximize max_agent min_agent rng =
      .ok ((0, 0, false, minimax_heuristic ops game max_agent min_agent), game, rng) := by
  simp only [minimax, h, if_true]
  rfl

/-- C6: with `depth == 0` or a finished board, `minimax` returns the placeholder move
`(0, 0, false)` with the heuristic value `get_score(max_agent) - get_score(min_agent)` of the
board as it is; the board object and the random engine are left as they were, so no move was
played and nothing was enumerated or shuffled. -/
theorem minimax_leaf (ops : BoardOps σ) (fuel : Nat) (game : Board σ) (depth alpha beta : Int)
    (maximize : Bool) (max_agent min_agent : Char) (rng : Rng)
    (h : depth = 0 ∨ ops.finished game = true) :
    minimax ops (fuel + 1) game depth alpha beta maximize max_agent min_agent rng =
      .ok ((0, 0, false, minimax_heuristic ops game max_agent min_agent), game, rng) ∧
    minimax_heuristic ops game max_agent min_agent =
      ops.get_score game max_agent - ops.get_score game min_agent :=
  ⟨minimax_leaf_eq ops fuel game depth alpha beta maximize max_agent min_agent rng h, rfl⟩

/-- Witness of C6: depth 0 at the sample 2 x 2 position, which is not finished. -/
theorem minimax_leaf_witness :
    ((0 : Int) = 0 ∨ std_ops.finished two_boxes_board = true) ∧
    minimax std_ops 1 two_boxes_board 0 (-1000) 1000 true 'A' 'B' [1, 2, 3] =
      .ok ((0, 0, false, 0), two_boxes_board, [1, 2, 3]) :=
  ⟨Or.inl rfl, (minimax_leaf std_ops 0 two_boxes_board 0 (-1000) 1000 true 'A' 'B' [1, 2, 3]
    (Or.inl rfl)).1⟩

/-! ## The search: the two loops -/

/-- One iteration of the maximizing loop. -/
theorem max_loop_cons (ops : BoardOps σ) (max_agent : Char) (beta : Int)
    (recur : Board σ → Int → Int → Bool → Rng → Except Fault (Outcome σ))
    (m : Move) (rest : List Move) (max_move : Scored) (game : Board σ) (alpha : Int) (rng : Rng) :
    max_loop ops max_agent beta recur (m :: rest) max_move game alpha rng =
      match recur (play ops game m max_agent) alpha beta (keeps_turn ops game m max_agent) rng with
      | .error e => .error e
      | .ok out =>
        if beta ≤ max alpha out.1.2.2.2 then
          .ok (if out.1.2.2.2 > max_move.2.2.2 then (m.1, m.2.1, m.2.2, out.1.2.2.2) else max_move,
            ops.remove_move out.2.1 m.1 m.2.1 m.2.2, out.2.2)
        else
          max_loop ops max_agent beta recur rest
            (if out.1.2.2.2 > max_move.2.2.2 then (m.1, m.2.1, m.2.2, out.1.2.2.2) else max_move)
            (ops.remove_move out.2.1 m.1 m.2.1 m.2.2) (max alpha out.1.2.2.2) out.2.2 := by
  obtain ⟨row, col, vertical⟩ := m
  simp only [max_loop, play, keeps_turn, bind, Except.bind, pure, Except.pure]
  by_cases h : ops.get_score game max_agent <
      ops.get_score (ops.add_move game row col vertical max_agent) max_agent
  · simp only [h, if_true, decide_True]
    cases recur (ops.add_move game row col vertical max_agent) alpha beta true rng <;> rfl
  · simp only [h, if_false, decide_False]
    cases recur (ops.add_move game row col vertical max_agent) alpha beta false rng <;> rfl

/-- One iteration of the minimizing loop. -/
theorem min_loop_cons (ops : BoardOps σ) (min_agent : Char) (alpha : Int)
    (recur : Board σ → Int → Int → Bool → Rng → Except Fault (Outcome σ))
    (m : Move) (rest : List Move) (min_move : Scored) (game : Board σ) (beta : Int) (rng : Rng) :
    min_loop ops min_agent alpha recur (m :: rest) min_move game beta rng =
      match recur (play ops game m min_agent) alpha beta (!keeps_turn ops game m min_agent) rng with
      | .error e => .error e
      | .ok out =>
        if min beta out.1.2.2.2 ≤ alpha then
          .ok (if out.1.2.2.2 < min_move.2.2.2 then (m.1, m.2.1, m.2.2, out.1.2.2.2) else min_move,
            ops.remove_move out.2.1 m.1 m.2.1 m.2.2, out.2.2)
        else
          min_loop ops min_agent alpha recur rest
            (if out.1.2.2.2 < min_move.2.2.2 then (m.1, m.2.1, m.2.2, out.1.2.2.2) else min_move)
            (ops.remove_move out.2.1 m.1 m.2.1 m.2.2) (min beta out.1.2.2.2) out.2.2 := by
  obtain ⟨row, col, vertical⟩ := m
  simp only [min_loop, play, keeps_turn, bind, Except.bind, pure, Except.pure]
  by_cases h : ops.get_score game min_agent <
      ops.get_score (ops.add_move game row col vertical min_agent) min_agent
  · simp only [h, if_true, decide_True, Bool.not_true]
    cases recur (ops.add_move game row col vertical min_agent) alpha beta false rng <;> rfl
  · simp only [h, if_false, decide_False, Bool.not_false]
    cases recur (ops.add_move game row col vertical min_agent) alpha beta true rng <;> rfl

/-- Induction rule for the maximizing loop.  `P rest max_move alpha` is what is known when the
candidates `rest` are still to be examined, `S m alpha e` what is known about the score `e`
returned for candidate `m` searched with lower bound `alpha`, and `Q` what is to hold of the
tuple the loop returns. -/
theorem max_loop_rule (ops : BoardOps σ) (max_agent : Char) (beta : Int)
    (recur : Board σ → Int → Int → Bool → Rng → Except Fault (Outcome σ))
    (game : Board σ) (all : List Move)
    (P : List Move → Scored → Int → Prop) (Q : Scored → Prop) (S : Move → Int → Int → Prop)
    (hundo : ∀ m ∈ all, ops.remove_move (play ops game m max_agent) m.1 m.2.1 m.2.2 = game)
    (hrec : ∀ m rest max_move alpha rng out, m ∈ all → P (m :: rest) max_move alpha →
      recur (play ops game m max_agent) alpha beta (keeps_turn ops game m max_agent) rng = .ok out →
      out.2.1 = play ops game m max_agent ∧ S m alpha out.1.2.2.2)
    (hcut : ∀ m rest max_move alpha e, m ∈ all → P (m :: rest) max_move alpha → S m alpha e →
      beta ≤ max alpha e →
      Q (if e > max_move.2.2.2 then (m.1, m.2.1, m.2.2, e) else max_move))
    (hgo : ∀ m rest max_move alpha e, m ∈ all → P (m :: rest) max_move alpha → S m alpha e →
      ¬ beta ≤ max alpha e →
      P rest (if e > max_move.2.2.2 then (m.1, m.2.1, m.2.2, e) else max_move) (max alpha e))
    (hdone : ∀ max_move alpha, P [] max_move alpha → Q max_move) :
    ∀ (rest : List Move) (max_move : Scored) (alpha : Int) (rng : Rng) (out : Outcome σ),
      (∀ m ∈ rest, m ∈ all) → P rest max_move alpha →
      max_loop ops max_agent beta recur rest max_move game alpha rng = .ok out →
      Q out.1 ∧ out.2.1 = game
  | [], max_move, alpha, rng, out, _, hP, h => by
    simp only [max_loop, pure, Except.pure, Except.ok.injEq] at h
    subst h
    exact ⟨hdone _ _ hP, rfl⟩
  | m :: rest, max_move, alpha, rng, out, hsub, hP, h => by
    have hm := hsub m (List.mem_cons_self _ _)
    rw [max_loop_cons] at h
    cases hr : recur (play ops game m max_agent) alpha beta (keeps_turn ops game m max_agent) rng with
    | error e => rw [hr] at h; cases h
    | ok res =>
      rw [hr] at h
      obtain ⟨hb, hS⟩ := hrec m rest max_move alpha rng res hm hP hr
      simp only [hb, hundo m hm] at h
      by_cases hc : beta ≤ max alpha res.1.2.2.2
      · simp only [hc, if_true, Except.ok.injEq] at h
        subst h
        exact ⟨hcut m rest max_move alpha _ hm hP hS hc, rfl⟩
      · simp only [hc, if_false] at h
        exact max_loop_rule ops max_agent beta recur game all P Q S hundo hrec hcut hgo hdone
          rest _ _ _ out (fun x hx => hsub x (List.mem_cons_of_mem _ hx))
          (hgo m rest max_move alpha _ hm hP hS hc) h

/-- Induction rule for the minimizing loop; `beta` is the loop-carried bound. -/
theorem min_loop_rule (ops : BoardOps σ) (min_agent : Char) (alpha : Int)
    (recur : Board σ → Int → Int → Bool → Rng → Except Fault (Outcome σ))
    (game : Board σ) (all : List Move)
    (P : List Move → Scored → Int → Prop) (Q : Scored → Prop) (S : Move → Int → Int → Prop)
    (hundo : ∀ m ∈ all, ops.remove_move (play ops game m min_agent) m.1 m.2.1 m.2.2 = game)
    (hrec : ∀ m rest min_move beta rng out, m ∈ all → P (m :: rest) min_move beta →
      recur (play ops game m min_agent) alpha beta (!keeps_turn ops game m min_agent) rng =
        .ok out →
      out.2.1 = play ops game m min_agent ∧ S m beta out.1.2.2.2)
    (hcut : ∀ m rest min_move beta e, m ∈ all → P (m :: rest) min_move beta → S m beta e →
      min beta e ≤ alpha →
      Q (if e < min_move.2.2.2 then (m.1, m.2.1, m.2.2, e) else min_move))
    (hgo : ∀ m rest min_move beta e, m ∈ all → P (m :: rest) min_move beta → S m beta e →
      ¬ min beta e ≤ alpha →
      P rest (if e < min_move.2.2.2 then (m.1, m.2.1, m.2.2, e) else min_move) (min beta e))
    (hdone : ∀ min_move beta, P [] min_move beta → Q min_move) :
    ∀ (rest : List Move) (min_move : Scored) (beta : Int) (rng : Rng) (out : Outcome σ),
      (∀ m ∈ rest, m ∈ all) → P rest min_move beta →
      min_loop ops min_agent alpha recur rest min_move game beta rng = .ok out →
      Q out.1 ∧ out.2.1 = game
  | [], min_move, beta, rng, out, _, hP, h => by
    simp only [min_loop, pure, Except.pure, Except.ok.injEq] at h
    subst h
    exact ⟨hdone _ _ hP, rfl⟩
  | m :: rest, min_move, beta, rng, out, hsub, hP, h => by
    have hm := hsub m (List.mem_cons_self _ _)
    rw [min_loop_cons] at h
    cases hr : recur (play ops game m min_agent) alpha beta (!keeps_turn ops game m min_agent)
        rng with
    | error e => rw [hr] at h; cases h
    | ok res =>
      rw [hr] at h
      obtain ⟨hb, hS⟩ := hrec m rest min_move beta rng res hm hP hr
      simp only [hb, hundo m hm] at h
      by_cases hc : min beta res.1.2.2.2 ≤ alpha
      · simp only [hc, if_true, Except.ok.injEq] at h
        subst h
        exact ⟨hcut m rest min_move beta _ hm hP hS hc, rfl⟩
      · simp only [hc, if_false] at h
        exact min_loop_rule ops min_agent alpha recur game all P Q S hundo hrec hcut hgo hdone
          rest _ _ _ out (fun x hx => hsub x (List.mem_cons_of_mem _ hx))
          (hgo m rest min_move beta _ hm hP hS hc) h

/-- The maximizing loop returns when every recursive call returns and restores its board. -/
theorem max_loop_total (ops : BoardOps σ) (max_agent : Char) (beta : Int)
    (recur : Board σ → Int → Int → Bool → Rng → Except Fault (Outcome σ))
    (game : Board σ) (all : List Move)
    (hundo : ∀ m ∈ all, ops.remove_move (play ops game m max_agent) m.1 m.2.1 m.2.2 = game)
    (hrec : ∀ m ∈ all, ∀ alpha rng, ∃ out,
      recur (play ops game m max_agent) alpha beta (keeps_turn ops game m max_agent) rng = .ok out ∧
      out.2.1 = play ops game m max_agent) :
    ∀ (rest : List Move) (max_move : Scored) (alpha : Int) (rng : Rng),
      (∀ m ∈ rest, m ∈ all) →
      ∃ out, max_loop ops max_agent beta recur rest max_move game alpha rng = .ok out
  | [], max_move, alpha, rng, _ => ⟨_, rfl⟩
  | m :: rest, max_move, alpha, rng, hsub => by
    have hm := hsub m (List.mem_cons_self _ _)
    obtain ⟨res, hr, hb⟩ := hrec m hm alpha rng
    rw [max_loop_cons, hr]
    simp only [hb, hundo m hm]
    split
    · exact ⟨_, rfl⟩
    · exact max_loop_total ops max_agent beta recur game all hundo hrec rest _ _ _
        (fun x hx => hsub x (List.mem_cons_of_mem _ hx))

/-- The minimizing loop returns when every recursive call returns and restores its board. -/
theorem min_loop_total (ops : BoardOps σ) (min_agent : Char) (alpha : Int)
    (recur : Board σ → Int → Int → Bool → Rng → Except Fault (Outcome σ))
    (game : Board σ) (all : List Move)
    (hundo : ∀ m ∈ all, ops.remove_move (play ops game m min_agent) m.1 m.2.1 m.2.2 = game)
    (hrec : ∀ m ∈ all, ∀ beta rng, ∃ out,
      recur (play ops game m min_agent) alpha beta (!keeps_turn ops game m min_agent) rng =
        .ok out ∧
      out.2.1 = play ops game m min_agent) :
    ∀ (rest : List Move) (min_move : Scored) (beta : Int) (rng : Rng),
      (∀ m ∈ rest, m ∈ all) →
      ∃ out, min_loop ops min_agent alpha recur rest min_move game beta rng = .ok out
  | [], min_move, beta, rng, _ => ⟨_, rfl⟩
  | m :: rest, min_move, beta, rng, hsub => by
    have hm := hsub m (List.mem_cons_self _ _)
    obtain ⟨res, hr, hb⟩ := hrec m hm beta rng
    rw [min_loop_cons, hr]
    simp only [hb, hundo m hm]
    split
    · exact ⟨_, rfl⟩
    · exact min_loop_total ops min_agent alpha recur game all hundo hrec rest _ _ _
        (fun x hx => hsub x (List.mem_cons_of_mem _ hx))

/-! ## The search: frame and termination -/

/-- The recursive case of `minimax`, past a successful enumeration. -/
theorem minimax_node (ops : BoardOps σ) (fuel : Nat) (game : Board σ) (depth alpha beta : Int)
    (maximize : Bool) (max_agent min_agent : Char) (rng : Rng)
    (hd : depth ≠ 0) (hf : ops.finished game = false) :
    minimax ops (fuel + 1) game depth alpha beta maximize max_agent min_agent rng =
      match allowed_moves game rng with
      | .error e => .error e
      | .ok cand =>
        if maximize then
          max_loop ops max_agent beta
            (fun g a b mx r => minimax ops fuel g (depth - 1) a b mx max_agent min_agent r)
            cand.1 (0, 0, false, -1000) game alpha cand.2
        else
          min_loop ops min_agent alpha
            (fun g a b mx r => minimax ops fuel g (depth - 1) a b mx max_agent min_agent r)
            cand.1 (0, 0, false, 1000) game beta cand.2 := by
  simp only [minimax, hd, hf, false_or, Bool.false_eq_true, if_false, bind, Except.bind]
  cases maximize <;> simp only [Bool.false_eq_true, if_false, if_true] <;>
    cases allowed_moves game rng <;> rfl

theorem mem_of_allowed {game : Board σ} {rng : Rng} {cand : List Move × Rng}
    (hw : WellFormed game) (h : allowed_moves game rng = .ok cand) :
    ∀ m ∈ cand.1, m ∈ undrawn_edges game := by
  obtain ⟨moves, rng2, h2, hp⟩ := allowed_moves_perm hw rng
  rw [h2] at h
  cases h
  exact fun m hm => hp.mem_iff.1 hm

/-- Whenever `minimax` returns, the board object is what it was at the call. -/
theorem minimax_frame {ops : BoardOps σ} {Inv : Board σ → Prop} (hrev : Reversible ops Inv)
    (max_agent min_agent : Char) :
    ∀ (fuel : Nat) (game : Board σ) (depth alpha beta : Int) (maximize : Bool) (rng : Rng)
      (out : Outcome σ), Inv game →
      minimax ops fuel game depth alpha beta maximize max_agent min_agent rng = .ok out →
      out.2.1 = game
  | 0, _, _, _, _, _, _, _, _, h => by simp [minimax] at h
  | fuel + 1, game, depth, alpha, beta, maximize, rng, out, hinv, h => by
    by_cases hleaf : depth = 0 ∨ ops.finished game = true
    · rw [minimax_leaf_eq ops fuel game depth alpha beta maximize max_agent min_agent rng hleaf]
        at h
      cases h
      rfl
    · have hd : depth ≠ 0 := fun e => hleaf (Or.inl e)
      have hf : ops.finished game = false := by
        cases hfin : ops.finished game
        · rfl
        · exact absurd (Or.inr hfin) hleaf
      rw [minimax_node ops fuel game depth alpha beta maximize max_agent min_agent rng hd hf] at h
      cases hc : allowed_moves game rng with
      | error e => rw [hc] at h; cases h
      | ok cand =>
        rw [hc] at h
        have hsub := mem_of_allowed (hrev.well_formed game hinv) hc
        cases maximize
        · simp only [Bool.false_eq_true, if_false] at h
          exact (min_loop_rule ops min_agent alpha _ game (undrawn_edges game)
            (fun _ _ _ => True) (fun _ => True) (fun _ _ _ => True)
            (fun m hm => hrev.remove_add game m min_agent hinv hm)
            (fun m rest mm b r res hm _ hr =>
              ⟨minimax_frame hrev max_agent min_agent fuel _ _ _ _ _ _ res
                (hrev.add_keeps game m min_agent hinv hm) hr, trivial⟩)
            (fun _ _ _ _ _ _ _ _ _ => trivial) (fun _ _ _ _ _ _ _ _ _ => trivial)
            (fun _ _ _ => trivial) cand.1 _ _ _ out hsub trivial h).2
        · simp only [if_true] at h
          exact (max_loop_rule ops max_agent beta _ game (undrawn_edges game)
            (fun _ _ _ => True) (fun _ => True) (fun _ _ _ => True)
            (fun m hm => hrev.remove_add game m max_agent hinv hm)
            (fun m rest mm a r res hm _ hr =>
              ⟨minimax_frame hrev max_agent min_agent fuel _ _ _ _ _ _ res
                (hrev.add_keeps game m max_agent hinv hm) hr, trivial⟩)
            (fun _ _ _ _ _ _ _ _ _ => trivial) (fun _ _ _ _ _ _ _ _ _ => trivial)
            (fun _ _ _ => trivial) cand.1 _ _ _ out hsub trivial h).2

/-- With a depth of at least 0 and nesting budget above the depth, `minimax` returns. -/
theorem minimax_total {ops : BoardOps σ} {Inv : Board σ → Prop} (hrev : Reversible ops Inv)
    (max_agent min_agent : Char) :
    ∀ (fuel : Nat) (game : Board σ) (depth alpha beta : Int) (maximize : Bool) (rng : Rng),
      Inv game → 0 ≤ depth → depth < fuel →
      ∃ out, minimax ops fuel game depth alpha beta maximize max_agent min_agent rng = .ok out
  | 0, _, depth, _, _, _, _, _, h0, h1 => by
    exfalso
    have : depth < 0 := by exact_mod_cast h1
    omega
  | fuel + 1, game, depth, alpha, beta, maximize, rng, hinv, h0, h1 => by
    by_cases hleaf : depth = 0 ∨ ops.finished game = true
    · exact ⟨_, minimax_leaf_eq ops fuel game depth alpha beta maximize max_agent min_agent rng
        hleaf⟩
    · have hd : depth ≠ 0 := fun e => hleaf (Or.inl e)
      have hf : ops.finished game = false := by
        cases hfin : ops.finished game
        · rfl
        · exact absurd (Or.inr hfin) hleaf
      have h1' : depth - 1 < (fuel : Int) := by push_cast at h1; omega
      rw [minimax_node ops fuel game depth alpha beta maximize max_agent min_agent rng hd hf]
      obtain ⟨moves, rng2, hc, hp⟩ := allowed_moves_perm (hrev.well_formed game hinv) rng
      rw [hc]
      have hsub : ∀ m ∈ moves, m ∈ undrawn_edges game := fun m hm => hp.mem_iff.1 hm
      have hrec : ∀ (p : Char) (mx : Bool), ∀ m ∈ undrawn_edges game, ∀ (a b : Int) (r : Rng),
          ∃ res, minimax ops fuel (play ops game m p) (depth - 1) a b mx max_agent min_agent r =
            .ok res ∧ res.2.1 = play ops game m p := by
        intro p mx m hm a b r
        obtain ⟨res, hres⟩ := minimax_total hrev max_agent min_agent fuel (play ops game m p)
          (depth - 1) a b mx r (hrev.add_keeps game m p hinv hm) (by omega) h1'
        exact ⟨res, hres, minimax_frame hrev max_agent min_agent fuel _ _ _ _ _ _ res
          (hrev.add_keeps game m p hinv hm) hres⟩
      cases maximize
      · simp only [Bool.false_eq_true, if_false]
        exact min_loop_total ops min_agent alpha _ game (undrawn_edges game)
          (fun m hm => hrev.remove_add game m min_agent hinv hm)
          (fun m hm b r => hrec min_agent _ m hm alpha b r) moves _ _ _ hsub
      · simp only [if_true]
        exact max_loop_total ops max_agent beta _ game (undrawn_edges game)
          (fun m hm => hrev.remove_add game m max_agent hinv hm)
          (fun m hm a r => hrec max_agent _ m hm a beta r) moves _ _ _ hsub

/-- C4: if `remove_move` exactly reverses `add_move` on the same edge (on the positions of the
game, which playing a legal move never leaves), then whenever `minimax` returns, for any depth,
window and maximizing flag, the board is identical to the board before the call, the cutoff
path included; and with depth at least 0 it does return. -/
theorem minimax_restores_board (ops : BoardOps σ) (Inv : Board σ → Prop)
    (hrev : Reversible ops Inv) (game : Board σ) (hinv : Inv game) (fuel : Nat)
    (depth alpha beta : Int) (maximize : Bool) (max_agent min_agent : Char) (rng : Rng) :
    (∀ result after rng2,
      minimax ops fuel game depth alpha beta maximize max_agent min_agent rng =
        .ok (result, after, rng2) → after = game) ∧
    (0 ≤ depth → depth < fuel → ∃ result rng2,
      minimax ops fuel game depth alpha beta maximize max_agent min_agent rng =
        .ok (result, game, rng2)) := by
  refine ⟨?_, ?_⟩
  · intro result after rng2 h
    exact minimax_frame hrev max_agent min_agent fuel game depth alpha beta maximize rng _ hinv h
  · intro h0 h1
    obtain ⟨⟨result, after, rng2⟩, h⟩ := minimax_total hrev max_agent min_agent fuel game depth
      alpha beta maximize rng hinv h0 h1
    have := minimax_frame hrev max_agent min_agent fuel game depth alpha beta maximize rng _ hinv h
    simp only at this
    subst this
    exact ⟨result, rng2, h⟩

/-! ## The board implementation: grids -/

theorem grid_ext {g1 g2 : List (List α)} (hl : g1.length = g2.length)
    (h : ∀ r c : Int, read g1 r c = read g2 r c) : g1 = g2 := by
  refine List.ext_getElem hl ?_
  intro i h1 h2
  refine List.ext_getElem? ?_
  intro j
  have := h i j
  simp only [read, Int.natCast_nonneg, and_self, if_true, Int.toNat_ofNat,
    List.getElem?_eq_getElem h1, List.getElem?_eq_getElem h2] at this
  cases e1 : (g1[i])[j]? <;> cases e2 : (g2[i])[j]? <;> simp [e1, e2] at this ⊢
  exact this

@[simp] theorem length_write (grid : List (List α)) (row col : Int) (x : α) :
    (write grid row col x).length = grid.length := by
  unfold write; split <;> simp

/-- Writing back the value that was stored before an assignment undoes the assignment. -/
theorem write_write_restore {grid : List (List α)} {row col : Int} {x : α}
    (h : read grid row col = .ok x) (y : α) :
    write (write grid row col y) row col x = grid := by
  refine grid_ext (by simp) ?_
  intro r c
  simp only [read_write]
  by_cases e : r = row ∧ c = col
  · obtain ⟨rfl, rfl⟩ := e
    simp [h]
  · simp [e]

/-! ## The board implementation: drawing and erasing -/

theorem get_neighbours_size {g1 : Board σ} {g2 : Board τ} (h : g1.size = g2.size)
    (row col : Int) (vertical : Bool) :
    get_neighbours g1 row col vertical = get_neighbours g2 row col vertical := by
  simp [get_neighbours, h]

/-- Erasing an edge that was undrawn before it was drawn gives back the board. -/
theorem mark_restore {game : Board σ} (hw : WellFormed game) {m : Move}
    (hv : valid_edge game.size m) (hd : drawn game m = false) :
    mark (mark game m true) m false = game := by
  have hr := read_edge_ok hw hv
  rw [hd] at hr
  obtain ⟨row, col, vertical⟩ := m
  cases vertical
  · simp only [Bool.false_eq_true, if_false] at hr
    simp only [mark, Bool.false_eq_true, if_false, write_write_restore hr]
  · simp only [if_true] at hr
    simp only [mark, if_true, write_write_restore hr]

theorem read_assign {gm : Board Owners} (hw : WellFormed gm) (o : Option Char) :
    ∀ (sqs : List (Int × Int)) (hid : Owners) (r c : Int),
      (∀ sq ∈ sqs, valid_cell gm.size sq.1 sq.2) →
      read (assign_squares gm o sqs hid) r c =
        if (r, c) ∈ sqs ∧ fill gm r c = 4 then
          (match read hid r c with
           | .ok _ => .ok o
           | .error e => .error e)
        else read hid r c
  | [], hid, r, c, _ => by simp [assign_squares]
  | sq :: rest, hid, r, c, hval => by
    have hsq := hval sq (List.mem_cons_self _ _)
    have hrest : ∀ s ∈ rest, valid_cell gm.size s.1 s.2 :=
      fun s hs => hval s (List.mem_cons_of_mem _ hs)
    have hfe : filled_edges gm sq.1 sq.2 = .ok ((fill gm sq.1 sq.2 : Nat) : Int) :=
      filled_edges_ok hw hsq
    simp only [assign_squares, hfe]
    rw [read_assign hw o rest _ r c hrest]
    obtain ⟨sr, sc⟩ := sq
    by_cases h4 : fill gm sr sc = 4
    · have h4i : ((fill gm sr sc : Nat) : Int) = 4 := by exact_mod_cast h4
      simp only [h4i, if_true, read_write, List.mem_cons, Prod.mk.injEq]
      by_cases e : r = sr ∧ c = sc
      · obtain ⟨rfl, rfl⟩ := e
        simp only [and_self, true_or, true_and, h4, if_true]
        cases read hid r c <;> simp
      · simp only [e, false_or, if_false]
    · have h4i : ¬ ((fill gm sr sc : Nat) : Int) = 4 := by exact_mod_cast h4
      simp only [h4i, if_false, List.mem_cons, Prod.mk.injEq]
      by_cases e : r = sr ∧ c = sc
      · obtain ⟨rfl, rfl⟩ := e
        simp [h4]
      · simp only [e, false_or]

theorem countP_update {l : List α} [DecidableEq α] (hn : l.Nodup) (f : α → Bool) (a : α)
    (ha : f a = false) :
    (a ∈ l → l.countP (fun e => if e = a then true else f e) = l.countP f + 1) ∧
    (a ∉ l → l.countP (fun e => if e = a then true else f e) = l.countP f) := by
  have hout : ∀ t : List α, a ∉ t →
      t.countP (fun e => if e = a then true else f e) = t.countP f := by
    intro t ht
    refine List.countP_congr ?_
    intro y hy
    have : y ≠ a := fun h => ht (h ▸ hy)
    simp [this]
  refine ⟨?_, hout l⟩
  induction l with
  | nil => simp
  | cons x t ih =>
    have hx : x ∉ t := (List.nodup_cons.1 hn).1
    have ih := ih (List.nodup_cons.1 hn).2
    intro hmem
    by_cases e : x = a
    · subst e
      rw [List.countP_cons, List.countP_cons, hout t hx]
      simp [ha]
    · have hin : a ∈ t := by
        rcases List.mem_cons.1 hmem with h | h
        · exact absurd h.symm e
        · exact h
      rw [List.countP_cons, List.countP_cons, ih hin]
      simp only [e, if_false]
      omega

theorem nodup_borders (row col : Int) : (borders row col).Nodup := by
  simp [borders]

/-- Drawing an undrawn edge raises the fill count of the squares it borders by one and leaves
the other fill counts alone. -/
theorem fill_mark {game : Board σ} (hw : WellFormed game) {m : Move}
    (hv : valid_edge game.size m) (hd : drawn game m = false) (row col : Int) :
    fill (mark game m true) row col = fill game row col + if m ∈ borders row col then 1 else 0 := by
  have hfun : drawn (mark game m true) = fun e => if e = m then true else drawn game e := by
    funext e; exact drawn_mark hw hv true e
  unfold fill
  rw [hfun]
  obtain ⟨h1, h2⟩ := countP_update (nodup_borders row col) (drawn game) m hd
  by_cases hm : m ∈ borders row col
  · rw [if_pos hm, h1 hm]
  · rw [if_neg hm, h2 hm]; rfl

theorem fill_le_three {game : Board σ} {m : Move} (hd : drawn game m = false) {row col : Int}
    (hb : m ∈ borders row col) : fill game row col ≤ 3 := by
  have h1 := List.countP_le_length (drawn game) (l := borders row col)
  have h4 : (borders row col).length = 4 := rfl
  by_contra hcon
  have : (borders row col).countP (drawn game) = (borders row col).length := by
    unfold fill at hcon; omega
  rw [List.countP_eq_length] at this
  rw [this m hb] at hd
  exact absurd hd (by decide)

theorem mem_squares (size : Int) (row col : Int) :
    (row, col) ∈ squares size ↔ valid_cell size row col := by
  simp only [squares, List.mem_flatMap, List.mem_map, List.mem_range, Prod.mk.injEq, valid_cell]
  constructor
  · rintro ⟨a, ha, b, hb, rfl, rfl⟩
    omega
  · rintro ⟨h1, h2, h3, h4⟩
    exact ⟨row.toNat, by omega, col.toNat, by omega, by omega, by omega⟩

theorem nodup_squares (size : Int) : (squares size).Nodup := by
  unfold squares
  rw [List.nodup_flatMap]
  refine ⟨?_, ?_⟩
  · intro row _
    refine (List.nodup_range _).map ?_
    intro a b h
    simpa using h
  · refine (List.nodup_range _).pairwise_of_forall_ne ?_
    intro a _ b _ hab
    simp only [Function.onFun, List.disjoint_left, List.mem_map]
    rintro x ⟨c, _, rfl⟩ ⟨d, _, h⟩
    simp only [Prod.mk.injEq] at h
    exact hab (by omega)

theorem read_hidden_ok {game : Board Owners} (hc : Consistent game) {row col : Int}
    (hv : valid_cell game.size row col) :
    read game.hidden row col = .ok (owner game row col) := by
  obtain ⟨h1, h2, h3, h4⟩ := hv
  obtain ⟨x, hx⟩ := read_ok hc.2.1 hc.2.2.1 h1 (by omega) h3 (by omega)
  simp [owner, hx]

theorem shape_assign (gm : Board Owners) (o : Option Char) {n k : Nat} :
    ∀ (sqs : List (Int × Int)) (hid : Owners),
      hid.length = n → (∀ cells ∈ hid, cells.length = k) →
      (assign_squares gm o sqs hid).length = n ∧
        ∀ cells ∈ assign_squares gm o sqs hid, cells.length = k
  | [], hid, hl, hc => ⟨hl, hc⟩
  | sq :: rest, hid, hl, hc => by
    simp only [assign_squares]
    cases filled_edges gm sq.1 sq.2 with
    | error e => exact shape_assign gm o rest hid hl hc
    | ok x =>
      simp only
      split
      · obtain ⟨a, b⟩ := shape_write sq.1 sq.2 o hl hc
        exact shape_assign gm o rest _ a b
      · exact shape_assign gm o rest hid hl hc

theorem std_add_move_eq (game : Board Owners) (m : Move) (p : Char) :
    std_ops.add_move game m.1 m.2.1 m.2.2 p =
      { mark game m true with
        hidden := assign_squares (mark game m true) (some p)
          (get_neighbours game m.1 m.2.1 m.2.2) game.hidden } := by
  show std_add_move game m.1 m.2.1 m.2.2 p = _
  unfold std_add_move
  simp only [hidden_mark, get_neighbours_size (size_mark game m true)]

theorem std_remove_move_eq (game : Board Owners) (m : Move) :
    std_ops.remove_move game m.1 m.2.1 m.2.2 =
      { mark game m false with
        hidden := assign_squares game none (get_neighbours game m.1 m.2.1 m.2.2) game.hidden } :=
  rfl

/-- The owner of a square after `add_move`: the mover if the move completed the square, the
previous owner otherwise. -/
theorem owner_add {game : Board Owners} (hc : Consistent game) {m : Move}
    (hm : m ∈ undrawn_edges game) (p : Char) {row col : Int}
    (hv : valid_cell game.size row col) :
    owner (std_ops.add_move game m.1 m.2.1 m.2.2 p) row col =
      if m ∈ borders row col ∧ fill game row col = 3 then some p else owner game row col := by
  obtain ⟨hval, hd⟩ := (mem_undrawn_edges game m).1 hm
  have hw1 := wellFormed_mark hc.1 m true
  have hN : ∀ sq ∈ get_neighbours game m.1 m.2.1 m.2.2,
      valid_cell (mark game m true).size sq.1 sq.2 := by
    intro sq hsq
    rw [size_mark]
    exact neighbours_valid game hval sq hsq
  rw [std_add_move_eq]
  unfold owner
  simp only
  rw [read_assign hw1 (some p) _ _ row col hN, read_hidden_ok hc hv, fill_mark hc.1 hval hd]
  have hmem : (row, col) ∈ get_neighbours game m.1 m.2.1 m.2.2 ↔ m ∈ borders row col := by
    rw [mem_get_neighbours game hval row col]
    exact ⟨fun h => h.2, fun h => ⟨hv, h⟩⟩
  by_cases hb : m ∈ borders row col
  · have : fill game row col + 1 = 4 ↔ fill game row col = 3 := by omega
    simp only [hmem, hb, true_and, if_true, this]
    by_cases h3 : fill game row col = 3 <;> simp [h3]
  · simp [hmem, hb]

theorem std_add_consistent {game : Board Owners} (hc : Consistent game) {m : Move}
    (hm : m ∈ undrawn_edges game) (p : Char) :
    Consistent (std_ops.add_move game m.1 m.2.1 m.2.2 p) := by
  obtain ⟨hval, hd⟩ := (mem_undrawn_edges game m).1 hm
  have hown : ∀ row col, valid_cell game.size row col →
      owner (std_ops.add_move game m.1 m.2.1 m.2.2 p) row col =
      if m ∈ borders row col ∧ fill game row col = 3 then some p else owner game row col :=
    fun row col hv => owner_add hc hm p hv
  rw [std_add_move_eq] at hown ⊢
  obtain ⟨s1, s2⟩ := shape_assign (mark game m true) (some p)
    (get_neighbours game m.1 m.2.1 m.2.2) game.hidden hc.2.1 hc.2.2.1
  refine ⟨wellFormed_mark hc.1 m true, ?_, ?_, ?_⟩
  · simpa using s1
  · simpa using s2
  · rintro ⟨row, col⟩ hsq hfill
    have hsq2 : (row, col) ∈ squares game.size := by simpa using hsq
    have hv := (mem_squares _ _ _).1 hsq2
    have hfill2 : fill (mark game m true) row col < 4 := hfill
    rw [fill_mark hc.1 hval hd] at hfill2
    rw [hown row col hv]
    have h3 : ¬ (m ∈ borders row col ∧ fill game row col = 3) := by
      rintro ⟨hb, h3⟩
      rw [if_pos hb] at hfill2
      omega
    rw [if_neg h3]
    refine hc.2.2.2 (row, col) hsq2 ?_
    show fill game row col < 4
    omega

theorem length_assign (gm : Board Owners) (o : Option Char) :
    ∀ (sqs : List (Int × Int)) (hid : Owners), (assign_squares gm o sqs hid).length = hid.length
  | [], hid => rfl
  | sq :: rest, hid => by
    simp only [assign_squares]
    cases filled_edges gm sq.1 sq.2 with
    | error e => exact length_assign gm o rest hid
    | ok x =>
      simp only
      split
      · rw [length_assign gm o rest, length_write]
      · exact length_assign gm o rest hid

theorem board_ext {a b : Board σ} (h1 : a.size = b.size)
    (h2 : a.horizontal_dashes = b.horizontal_dashes)
    (h3 : a.vertical_dashes = b.vertical_dashes) (h4 : a.hidden = b.hidden) : a = b := by
  cases a; cases b; simp_all

theorem mark_hidden (game : Board σ) (x : σ) (m : Move) (v : Bool) :
    mark { game with hidden := x } m v = { mark game m v with hidden := x } := by
  unfold mark; split <;> rfl

/-- For the board implementation, `remove_move` exactly reverses `add_move`. -/
theorem std_remove_add {game : Board Owners} (hc : Consistent game) {m : Move}
    (hm : m ∈ undrawn_edges game) (p : Char) :
    std_ops.remove_move (std_ops.add_move game m.1 m.2.1 m.2.2 p) m.1 m.2.1 m.2.2 = game := by
  obtain ⟨hval, hd⟩ := (mem_undrawn_edges game m).1 hm
  have hcn := std_add_consistent hc hm p
  rw [std_remove_move_eq]
  rw [std_add_move_eq] at hcn ⊢
  have hw1 := wellFormed_mark hc.1 m true
  have hN : ∀ sq ∈ get_neighbours game m.1 m.2.1 m.2.2,
      valid_cell (mark game m true).size sq.1 sq.2 := by
    intro sq hsq
    rw [size_mark]
    exact neighbours_valid game hval sq hsq
  have hedges := mark_restore hc.1 hval hd
  rw [mark_hidden, hedges]
  refine board_ext rfl rfl rfl ?_
  simp only
  have hsz : ∀ X : Owners,
      get_neighbours ({ mark game m true with hidden := X } : Board Owners) m.1 m.2.1 m.2.2 =
        get_neighbours game m.1 m.2.1 m.2.2 :=
    fun X => get_neighbours_size (by simp) _ _ _
  rw [hsz]
  refine grid_ext (by rw [length_assign, length_assign]) ?_
  intro r c
  rw [read_assign hcn.1 none _ _ r c hN, read_assign hw1 (some p) _ _ r c hN]
  have hfill : fill ({ mark game m true with
        hidden := assign_squares (mark game m true) (some p)
          (get_neighbours game m.1 m.2.1 m.2.2) game.hidden } : Board Owners) r c =
      fill (mark game m true) r c := rfl
  rw [hfill]
  by_cases hcond : (r, c) ∈ get_neighbours game m.1 m.2.1 m.2.2 ∧ fill (mark game m true) r c = 4
  · simp only [hcond, and_self, if_true]
    have hv : valid_cell game.size r c := neighbours_valid game hval (r, c) hcond.1
    have hb : m ∈ borders r c := ((mem_get_neighbours game hval r c).1 hcond.1).2
    have h3 := fill_le_three hd hb
    have hnone : owner game r c = none :=
      hc.2.2.2 (r, c) ((mem_squares _ _ _).2 hv) (by show fill game r c < 4; omega)
    rw [read_hidden_ok hc hv, hnone]
  · simp only [hcond, if_false]

@[simp] theorem size_std_add (game : Board Owners) (m : Move) (p : Char) :
    (std_ops.add_move game m.1 m.2.1 m.2.2 p).size = game.size := by
  rw [std_add_move_eq]; simp

/-- The board implementation honours the reversal contract on the positions of the game. -/
theorem std_reversible (n : Nat) : Reversible std_ops (std_inv n) where
  well_formed := fun _ h => h.1.1
  add_keeps := fun g m p h hm => ⟨std_add_consistent h.1 hm p, by rw [size_std_add]; exact h.2⟩
  remove_add := fun _ _ p h hm => std_remove_add h.1 hm p

theorem exists_false_of_all {grid : List (List Bool)}
    (h : grid.all (fun cells => cells.all id) = false) :
    ∃ (i j : Nat), read grid i j = .ok false := by
  simp only [List.all_eq_false, List.all_eq_true, id_eq, not_forall, Bool.not_eq_true,
    exists_prop] at h
  obtain ⟨cells, hcells, x, hx, hxf⟩ := h
  obtain ⟨i, hi, rfl⟩ := List.getElem_of_mem hcells
  obtain ⟨j, hj, rfl⟩ := List.getElem_of_mem hx
  refine ⟨i, j, ?_⟩
  simp [read, List.getElem?_eq_getElem hi, List.getElem?_eq_getElem hj, hxf]

theorem read_in_range {grid : List (List α)} {rows cols : Nat} {row col : Int} {x : α}
    (hlen : grid.length = rows) (hcells : ∀ cells ∈ grid, cells.length = cols)
    (h : read grid row col = .ok x) : 0 ≤ row ∧ row < rows ∧ 0 ≤ col ∧ col < cols := by
  unfold read at h
  split at h
  · rename_i h0
    split at h
    · cases h
    · rename_i cells hc
      split at h
      · cases h
      · rename_i y hy
        have h1 : row.toNat < grid.length := by
          by_contra hh
          rw [List.getElem?_eq_none_iff.2 (not_lt.1 hh)] at hc
          cases hc
        have hmem : cells ∈ grid := List.getElem?_mem hc
        have h2 : col.toNat < cells.length := by
          by_contra hh
          rw [List.getElem?_eq_none_iff.2 (not_lt.1 hh)] at hy
          cases hy
        rw [hcells cells hmem] at h2
        omega
  · cases h

/-- For the board implementation, a position that is not finished has a legal move. -/
theorem std_playable (n : Nat) : Playable std_ops (std_inv n) := by
  intro g hinv hfin
  obtain ⟨h0, hh, hhc, hv, hvc⟩ := hinv.1.1
  have hfin2 : (g.horizontal_dashes.all (fun cells => cells.all id) &&
      g.vertical_dashes.all (fun cells => cells.all id)) = false := hfin
  rw [Bool.and_eq_false_iff] at hfin2
  rcases hfin2 with h | h
  · obtain ⟨i, j, hr⟩ := exists_false_of_all h
    have hrange := read_in_range hh hhc hr
    have hval : valid_edge g.size ((i : Int), (j : Int), false) := by
      simp only [valid_edge, Bool.false_eq_true, if_false]; omega
    have hd : drawn g ((i : Int), (j : Int), false) = false := by
      simp [drawn, hr]
    exact List.ne_nil_of_mem ((mem_undrawn_edges g _).2 ⟨hval, hd⟩)
  · obtain ⟨i, j, hr⟩ := exists_false_of_all h
    have hrange := read_in_range hv hvc hr
    have hval : valid_edge g.size ((i : Int), (j : Int), true) := by
      simp only [valid_edge, if_true]; omega
    have hd : drawn g ((i : Int), (j : Int), true) = false := by
      simp [drawn, hr]
    exact List.ne_nil_of_mem ((mem_undrawn_edges g _).2 ⟨hval, hd⟩)

theorem length_squares (size : Int) : (squares size).length = size.toNat * size.toNat := by
  simp [squares, List.length_flatMap, Function.comp_def, List.map_const', List.sum_const_nat]

theorem std_score_range (game : Board Owners) (p : Char) :
    0 ≤ std_get_score game p ∧ std_get_score game p ≤ game.size.toNat * game.size.toNat := by
  unfold std_get_score
  have := List.countP_le_length (fun square => owner game square.1 square.2 == some p)
    (l := squares game.size)
  rw [length_squares] at this
  constructor
  · exact Int.natCast_nonneg _
  · exact_mod_cast this

/-- On boards of at most 31 x 31 squares the score differential stays within the sentinels. -/
theorem std_bounded (a b : Char) : Bounded std_ops (std_inv 31) a b := by
  intro g hinv
  have h0 := hinv.1.1.1
  have hn : g.size ≤ 31 := by exact_mod_cast hinv.2
  have ha := std_score_range g a
  have hb := std_score_range g b
  have hsq : (g.size.toNat : Int) * g.size.toNat ≤ 961 := by
    have : g.size.toNat ≤ 31 := by omega
    have := Nat.mul_le_mul this this
    exact_mod_cast this
  show -1000 < std_get_score g a - std_get_score g b ∧
    std_get_score g a - std_get_score g b < 1000
  constructor <;> omega

theorem countP_succ_le {l : List α} (f g : α → Bool) (himp : ∀ x ∈ l, f x = true → g x = true)
    {s : α} (hs : s ∈ l) (hf : f s = false) (hg : g s = true) :
    l.countP f + 1 ≤ l.countP g := by
  induction l with
  | nil => simp at hs
  | cons x t ih =>
    have hmono : ∀ u : List α, (∀ y ∈ u, f y = true → g y = true) →
        u.countP f ≤ u.countP g := by
      intro u hu
      induction u with
      | nil => simp
      | cons y u ihu =>
        have := ihu (fun z hz => hu z (List.mem_cons_of_mem _ hz))
        have hy := hu y (List.mem_cons_self _ _)
        rw [List.countP_cons, List.countP_cons]
        cases hfy : f y
        · simp only [Bool.false_eq_true, if_false]; split <;> omega
        · simp only [hy hfy, if_true]; omega
    have htail := hmono t (fun y hy => himp y (List.mem_cons_of_mem _ hy))
    rw [List.countP_cons, List.countP_cons]
    rcases List.mem_cons.1 hs with rfl | hin
    · simp only [hf, hg, Bool.false_eq_true, if_false, if_true]; omega
    · have := ih (fun y hy => himp y (List.mem_cons_of_mem _ hy)) hin
      have hx := himp x (List.mem_cons_self _ _)
      cases hfx : f x
      · simp only [Bool.false_eq_true, if_false]; split <;> omega
      · simp only [hx hfx, if_true]; omega

/-- The board implementation scores as the contract says. -/
theorem std_scoring (n : Nat) : Scoring std_ops (std_inv n) := by
  intro g m p hinv hm
  have hc := hinv.1
  obtain ⟨hval, hd⟩ := (mem_undrawn_edges g m).1 hm
  have hown : ∀ sq ∈ squares g.size,
      owner (std_ops.add_move g m.1 m.2.1 m.2.2 p) sq.1 sq.2 =
      if m ∈ borders sq.1 sq.2 ∧ fill g sq.1 sq.2 = 3 then some p else owner g sq.1 sq.2 :=
    fun sq hsq => owner_add hc hm p ((mem_squares _ _ _).1 hsq)
  have hnone : ∀ sq ∈ squares g.size, fill g sq.1 sq.2 = 3 → owner g sq.1 sq.2 = none :=
    fun sq hsq h3 => hc.2.2.2 sq hsq (by omega)
  refine ⟨?_, ?_⟩
  · rintro ⟨row, col, hv, hb, h3⟩
    show std_get_score g p + 1 ≤ std_get_score (std_ops.add_move g m.1 m.2.1 m.2.2 p) p
    unfold std_get_score
    rw [size_std_add]
    have hsq : (row, col) ∈ squares g.size := (mem_squares _ _ _).2 hv
    have := countP_succ_le (l := squares g.size)
      (fun square => owner g square.1 square.2 == some p)
      (fun square => owner (std_ops.add_move g m.1 m.2.1 m.2.2 p) square.1 square.2 == some p)
      (by
        intro sq hsq hf
        simp only [hown sq hsq]
        split
        · simp
        · exact hf)
      hsq (by simp [hnone (row, col) hsq h3])
      (by simp [hown (row, col) hsq, hb, h3])
    exact_mod_cast this
  · intro q hq
    show std_get_score (std_ops.add_move g m.1 m.2.1 m.2.2 p) q = std_get_score g q
    unfold std_get_score
    rw [size_std_add]
    congr 1
    refine List.countP_congr ?_
    intro sq hsq
    rw [hown sq hsq]
    split
    · rename_i hcond
      have : ¬ p = q := fun h => hq h.symm
      simp [hnone sq hsq hcond.2, this]
    · rfl

/-- Witness of C4: the board implementation satisfies the reversal contract, the sample 2 x 2
position is one of its positions, and a depth-2 search from it hands the same board back. -/
theorem minimax_restores_board_witness :
    Reversible std_ops (std_inv 31) ∧ std_inv 31 two_boxes_board ∧
    ∃ result rng2, minimax std_ops 3 two_boxes_board 2 (-1000) 1000 true 'A' 'B' [3, 1, 4] =
      .ok (result, two_boxes_board, rng2) :=
  ⟨std_reversible 31, by decide,
    (minimax_restores_board std_ops (std_inv 31) (std_reversible 31) two_boxes_board (by decide)
      3 2 (-1000) 1000 true 'A' 'B' [3, 1, 4]).2 (by decide) (by decide)⟩

/-! ## The search: scores within the sentinels, legal moves -/

theorem not_leaf {ops : BoardOps σ} {game : Board σ} {depth : Int}
    (h : ¬ (depth = 0 ∨ ops.finished game = true)) :
    depth ≠ 0 ∧ ops.finished game = false := by
  refine ⟨fun e => h (Or.inl e), ?_⟩
  cases hfin : ops.finished game
  · rfl
  · exact absurd (Or.inr hfin) h

/-- Whatever the window, the score returned by `minimax` lies strictly between the sentinels,
and below a leaf the returned move is a legal move of the position. -/
theorem minimax_range {ops : BoardOps σ} {Inv : Board σ → Prop} (hrev : Reversible ops Inv)
    (hplay : Playable ops Inv) {max_agent min_agent : Char}
    (hbound : Bounded ops Inv max_agent min_agent) :
    ∀ (fuel : Nat) (game : Board σ) (depth alpha beta : Int) (maximize : Bool) (rng : Rng)
      (out : Outcome σ), Inv game →
      minimax ops fuel game depth alpha beta maximize max_agent min_agent rng = .ok out →
      (-1000 < out.1.score ∧ out.1.score < 1000) ∧
      (depth ≠ 0 → ops.finished game = false → out.1.move ∈ undrawn_edges game)
  | 0, _, _, _, _, _, _, _, _, h => by simp [minimax] at h
  | fuel + 1, game, depth, alpha, beta, maximize, rng, out, hinv, h => by
    by_cases hleaf : depth = 0 ∨ ops.finished game = true
    · rw [minimax_leaf_eq ops fuel game depth alpha beta maximize max_agent min_agent rng hleaf]
        at h
      cases h
      refine ⟨hbound game hinv, ?_⟩
      intro hd hf
      rcases hleaf with h1 | h1
      · exact absurd h1 hd
      · rw [hf] at h1; cases h1
    · obtain ⟨hd, hf⟩ := not_leaf hleaf
      rw [minimax_node ops fuel game depth alpha beta maximize max_agent min_agent rng hd hf] at h
      obtain ⟨moves, rng2, hc, hp⟩ := allowed_moves_perm (hrev.well_formed game hinv) rng
      rw [hc] at h
      have hsub : ∀ m ∈ moves, m ∈ undrawn_edges game := fun m hm => hp.mem_iff.1 hm
      have hne : moves ≠ [] := by
        intro e
        rw [e] at hp
        exact hplay game hinv hf hp.symm.eq_nil
      have key : (-1000 < out.1.score ∧ out.1.score < 1000) ∧ out.1.move ∈ undrawn_edges game := by
        cases maximize
        · simp only [Bool.false_eq_true, if_false] at h
          refine (min_loop_rule ops min_agent alpha _ game (undrawn_edges game)
            (fun rest mm _ => (rest ≠ [] ∧ mm.score = 1000) ∨
              ((-1000 < mm.score ∧ mm.score < 1000) ∧ mm.move ∈ undrawn_edges game))
            (fun mm => (-1000 < mm.score ∧ mm.score < 1000) ∧ mm.move ∈ undrawn_edges game)
            (fun _ _ e => -1000 < e ∧ e < 1000)
            (fun m hm => hrev.remove_add game m min_agent hinv hm)
            (fun m rest mm b r res hm _ hr =>
              ⟨minimax_frame hrev max_agent min_agent fuel _ _ _ _ _ _ res
                (hrev.add_keeps game m min_agent hinv hm) hr,
               (minimax_range hrev hplay hbound fuel _ _ _ _ _ _ res
                (hrev.add_keeps game m min_agent hinv hm) hr).1⟩)
            ?_ ?_ ?_ moves (0, 0, false, 1000) beta rng2 out hsub (Or.inl ⟨hne, rfl⟩) h).1
          · intro m rest mm b e hm hP hS _
            rcases hP with ⟨_, h1⟩ | ⟨h1, h2⟩
            · have : e < mm.2.2.2 := by
                have : mm.2.2.2 = 1000 := h1
                omega
              rw [if_pos this]
              exact ⟨hS, hm⟩
            · split
              · exact ⟨hS, hm⟩
              · exact ⟨h1, h2⟩
          · intro m rest mm b e hm hP hS _
            right
            rcases hP with ⟨_, h1⟩ | ⟨h1, h2⟩
            · have : e < mm.2.2.2 := by
                have : mm.2.2.2 = 1000 := h1
                omega
              rw [if_pos this]
              exact ⟨hS, hm⟩
            · split
              · exact ⟨hS, hm⟩
              · exact ⟨h1, h2⟩
          · intro mm b hP
            rcases hP with ⟨h1, _⟩ | h1
            · exact absurd rfl h1
            · exact h1
        · simp only [if_true] at h
          refine (max_loop_rule ops max_agent beta _ game (undrawn_edges game)
            (fun rest mm _ => (rest ≠ [] ∧ mm.score = -1000) ∨
              ((-1000 < mm.score ∧ mm.score < 1000) ∧ mm.move ∈ undrawn_edges game))
            (fun mm => (-1000 < mm.score ∧ mm.score < 1000) ∧ mm.move ∈ undrawn_edges game)
            (fun _ _ e => -1000 < e ∧ e < 1000)
            (fun m hm => hrev.remove_add game m max_agent hinv hm)
            (fun m rest mm a r res hm _ hr =>
              ⟨minimax_frame hrev max_agent min_agent fuel _ _ _ _ _ _ res
                (hrev.add_keeps game m max_agent hinv hm) hr,
               (minimax_range hrev hplay hbound fuel _ _ _ _ _ _ res
                (hrev.add_keeps game m max_agent hinv hm) hr).1⟩)
            ?_ ?_ ?_ moves (0, 0, false, -1000) alpha rng2 out hsub (Or.inl ⟨hne, rfl⟩) h).1
          · intro m rest mm a e hm hP hS _
            rcases hP with ⟨_, h1⟩ | ⟨h1, h2⟩
            · have : e > mm.2.2.2 := by
                have : mm.2.2.2 = -1000 := h1
                omega
              rw [if_pos this]
              exact ⟨hS, hm⟩
            · split
              · exact ⟨hS, hm⟩
              · exact ⟨h1, h2⟩
          · intro m rest mm a e hm hP hS _
            right
            rcases hP with ⟨_, h1⟩ | ⟨h1, h2⟩
            · have : e > mm.2.2.2 := by
                have : mm.2.2.2 = -1000 := h1
                omega
              rw [if_pos this]
              exact ⟨hS, hm⟩
            · split
              · exact ⟨hS, hm⟩
              · exact ⟨h1, h2⟩
          · intro mm a hP
            rcases hP with ⟨h1, _⟩ | h1
            · exact absurd rfl h1
            · exact h1
      exact ⟨key.1, fun _ _ => key.2⟩

/-- C5 (amended): on a position that is not finished and whose score differentials lie
strictly between the sentinels -1000 and 1000, for every depth above 0, every window and
either maximizing flag, `minimax` returns a move that is a valid edge of the board, undrawn,
and a member of the candidates `allowed_moves` lists for the position; in particular it is the
placeholder (0, 0, horizontal) only when that edge is undrawn. -/
theorem minimax_returns_legal_move (ops : BoardOps σ) (Inv : Board σ → Prop)
    (hrev : Reversible ops Inv) (hplay : Playable ops Inv) (max_agent min_agent : Char)
    (hbound : Bounded ops Inv max_agent min_agent) (game : Board σ) (hinv : Inv game)
    (fuel : Nat) (depth : Int) (hd : 0 < depth) (hfuel : depth < fuel)
    (hfin : ops.finished game = false) (alpha beta : Int) (maximize : Bool) (rng : Rng) :
    ∃ result rng2,
      minimax ops fuel game depth alpha beta maximize max_agent min_agent rng =
        .ok (result, game, rng2) ∧
      valid_edge game.size result.move ∧ drawn game result.move = false ∧
      (∀ rng3, ∃ moves rng4, allowed_moves game rng3 = .ok (moves, rng4) ∧ result.move ∈ moves) ∧
      (result.move = (0, 0, false) → drawn game (0, 0, false) = false) := by
  obtain ⟨⟨result, after, rng2⟩, h⟩ := minimax_total hrev max_agent min_agent fuel game depth
    alpha beta maximize rng hinv (le_of_lt hd) hfuel
  have hframe := minimax_frame hrev max_agent min_agent fuel game depth alpha beta maximize rng
    _ hinv h
  simp only at hframe
  subst hframe
  have hlegal := (minimax_range hrev hplay hbound fuel after depth alpha beta maximize rng _
    hinv h).2 (ne_of_gt hd) hfin
  simp only at hlegal
  obtain ⟨hv, hdr⟩ := (mem_undrawn_edges after result.move).1 hlegal
  refine ⟨result, rng2, h, hv, hdr, ?_, ?_⟩
  · intro rng3
    obtain ⟨moves, rng4, hc, hp⟩ := allowed_moves_perm (hrev.well_formed after hinv) rng3
    exact ⟨moves, rng4, hc, hp.mem_iff.2 hlegal⟩
  · intro e
    rw [← e]
    exact hdr

/-- Witness of C5: depth 2 at the sample 2 x 2 position with the board implementation. -/
theorem minimax_returns_legal_move_witness :
    std_inv 31 two_boxes_board ∧ std_ops.finished two_boxes_board = false ∧
    ∃ result rng2,
      minimax std_ops 3 two_boxes_board 2 (-1000) 1000 true 'A' 'B' [3, 1, 4] =
        .ok (result, two_boxes_board, rng2) ∧
      valid_edge two_boxes_board.size result.move ∧ drawn two_boxes_board result.move = false := by
  refine ⟨by decide, by decide, ?_⟩
  obtain ⟨result, rng2, h, hv, hdr, _⟩ :=
    minimax_returns_legal_move std_ops (std_inv 31) (std_reversible 31) (std_playable 31)
      'A' 'B' (std_bounded 'A' 'B') two_boxes_board (by decide) 3 2 (by decide) (by decide)
      (by decide) (-1000) 1000 true [3, 1, 4]
  exact ⟨result, rng2, h, hv, hdr⟩

/-! ## The search against plain minimax -/

theorem foldl_max_spec (c : Move → Int) :
    ∀ (l : List Move) (init : Int),
      init ≤ l.foldl (fun best m => max best (c m)) init ∧
      (∀ m ∈ l, c m ≤ l.foldl (fun best m => max best (c m)) init) ∧
      (l.foldl (fun best m => max best (c m)) init = init ∨
        ∃ m ∈ l, l.foldl (fun best m => max best (c m)) init = c m)
  | [], init => by simp
  | x :: t, init => by
    obtain ⟨h1, h2, h3⟩ := foldl_max_spec c t (max init (c x))
    simp only [List.foldl_cons, List.mem_cons, forall_eq_or_imp, exists_eq_or_imp]
    refine ⟨by omega, ⟨by omega, h2⟩, ?_⟩
    rcases h3 with h3 | ⟨m, hm, h3⟩
    · rcases le_total init (c x) with h | h
      · right; left; rw [h3]; exact max_eq_right h
      · left; rw [h3]; exact max_eq_left h
    · right; right; exact ⟨m, hm, h3⟩

theorem foldl_min_spec (c : Move → Int) :
    ∀ (l : List Move) (init : Int),
      l.foldl (fun best m => min best (c m)) init ≤ init ∧
      (∀ m ∈ l, l.foldl (fun best m => min best (c m)) init ≤ c m) ∧
      (l.foldl (fun best m => min best (c m)) init = init ∨
        ∃ m ∈ l, l.foldl (fun best m => min best (c m)) init = c m)
  | [], init => by simp
  | x :: t, init => by
    obtain ⟨h1, h2, h3⟩ := foldl_min_spec c t (min init (c x))
    simp only [List.foldl_cons, List.mem_cons, forall_eq_or_imp, exists_eq_or_imp]
    refine ⟨by omega, ⟨by omega, h2⟩, ?_⟩
    rcases h3 with h3 | ⟨m, hm, h3⟩
    · rcases le_total init (c x) with h | h
      · left; rw [h3]; exact min_eq_left h
      · right; left; rw [h3]; exact min_eq_right h
    · right; right; exact ⟨m, hm, h3⟩

theorem plain_leaf (ops : BoardOps σ) (max_agent min_agent : Char) (depth : Nat)
    (game : Board σ) (maximize : Bool) (h : depth = 0 ∨ ops.finished game = true) :
    plain_minimax ops max_agent min_agent depth game maximize =
      minimax_heuristic ops game max_agent min_agent := by
  cases depth with
  | zero => rfl
  | succ d =>
    rcases h with h | h
    · cases h
    · simp [plain_minimax, h]

theorem plain_node_max (ops : BoardOps σ) (max_agent min_agent : Char) (depth : Nat)
    (game : Board σ) (h : ops.finished game = false) :
    plain_minimax ops max_agent min_agent (depth + 1) game true =
      (undrawn_edges game).foldl (fun best m =>
        max best (plain_minimax ops max_agent min_agent depth (play ops game m max_agent)
          (keeps_turn ops game m max_agent))) (-1000) := by
  simp [plain_minimax, h]

theorem plain_node_min (ops : BoardOps σ) (max_agent min_agent : Char) (depth : Nat)
    (game : Board σ) (h : ops.finished game = false) :
    plain_minimax ops max_agent min_agent (depth + 1) game false =
      (undrawn_edges game).foldl (fun best m =>
        min best (plain_minimax ops max_agent min_agent depth (play ops game m min_agent)
          (!keeps_turn ops game m min_agent))) 1000 := by
  simp [plain_minimax, h]

/-- The value of plain minimax is the heuristic value of some position of the game. -/
theorem plain_attained {ops : BoardOps σ} {Inv : Board σ → Prop} (hrev : Reversible ops Inv)
    (hplay : Playable ops Inv) {max_agent min_agent : Char}
    (hbound : Bounded ops Inv max_agent min_agent) :
    ∀ (depth : Nat) (game : Board σ) (maximize : Bool), Inv game →
      ∃ g, Inv g ∧ plain_minimax ops max_agent min_agent depth game maximize =
        minimax_heuristic ops g max_agent min_agent
  | 0, game, _, hinv => ⟨game, hinv, rfl⟩
  | d + 1, game, maximize, hinv => by
    cases hf : ops.finished game
    · obtain ⟨m0, hm0⟩ := List.exists_mem_of_ne_nil _ (hplay game hinv hf)
      cases maximize
      · rw [plain_node_min ops max_agent min_agent d game hf]
        obtain ⟨h1, h2, h3⟩ := foldl_min_spec (fun m => plain_minimax ops max_agent min_agent d
          (play ops game m min_agent) (!keeps_turn ops game m min_agent)) (undrawn_edges game) 1000
        rcases h3 with h3 | ⟨m, hm, h3⟩
        · exfalso
          obtain ⟨g, hg, he⟩ := plain_attained hrev hplay hbound d (play ops game m0 min_agent)
            (!keeps_turn ops game m0 min_agent) (hrev.add_keeps game m0 min_agent hinv hm0)
          have := h2 m0 hm0
          have hb := hbound g hg
          simp only at this
          omega
        · rw [h3]
          exact plain_attained hrev hplay hbound d _ _ (hrev.add_keeps game m min_agent hinv hm)
      · rw [plain_node_max ops max_agent min_agent d game hf]
        obtain ⟨h1, h2, h3⟩ := foldl_max_spec (fun m => plain_minimax ops max_agent min_agent d
          (play ops game m max_agent) (keeps_turn ops game m max_agent)) (undrawn_edges game)
          (-1000)
        rcases h3 with h3 | ⟨m, hm, h3⟩
        · exfalso
          obtain ⟨g, hg, he⟩ := plain_attained hrev hplay hbound d (play ops game m0 max_agent)
            (keeps_turn ops game m0 max_agent) (hrev.add_keeps game m0 max_agent hinv hm0)
          have := h2 m0 hm0
          have hb := hbound g hg
          simp only at this
          omega
        · rw [h3]
          exact plain_attained hrev hplay hbound d _ _ (hrev.add_keeps game m max_agent hinv hm)
    · exact ⟨game, hinv, plain_leaf ops max_agent min_agent (d + 1) game maximize (Or.inr hf)⟩

theorem failSoft_refl (alpha beta v : Int) : FailSoft alpha beta v v :=
  ⟨fun _ => le_refl v, fun _ _ => rfl, fun _ => le_refl v⟩

/-- Fail-soft correctness of the pruned search: with a window `alpha < beta` that leaves room
above the sentinel -1000 and below the sentinel 1000, the returned score is exact when it lies
inside the window, and bounds the value of plain minimax from the correct side otherwise. -/
theorem minimax_fail_soft {ops : BoardOps σ} {Inv : Board σ → Prop} (hrev : Reversible ops Inv)
    (hplay : Playable ops Inv) {max_agent min_agent : Char}
    (hbound : Bounded ops Inv max_agent min_agent) :
    ∀ (fuel : Nat) (game : Board σ) (depth alpha beta : Int) (maximize : Bool) (rng : Rng)
      (out : Outcome σ), Inv game → 0 ≤ depth → alpha < beta → alpha < 1000 → -1000 < beta →
      minimax ops fuel game depth alpha beta maximize max_agent min_agent rng = .ok out →
      FailSoft alpha beta out.1.score
        (plain_minimax ops max_agent min_agent depth.toNat game maximize)
  | 0, _, _, _, _, _, _, _, _, _, _, _, _, h => by simp [minimax] at h
  | fuel + 1, game, depth, alpha, beta, maximize, rng, out, hinv, h0, hab, ha, hb, h => by
    by_cases hleaf : depth = 0 ∨ ops.finished game = true
    · rw [minimax_leaf_eq ops fuel game depth alpha beta maximize max_agent min_agent rng hleaf]
        at h
      cases h
      have hl : depth.toNat = 0 ∨ ops.finished game = true := by
        rcases hleaf with h1 | h1
        · left; omega
        · right; exact h1
      rw [plain_leaf ops max_agent min_agent depth.toNat game maximize hl]
      exact failSoft_refl _ _ _
    · obtain ⟨hd, hf⟩ := not_leaf hleaf
      rw [minimax_node ops fuel game depth alpha beta maximize max_agent min_agent rng hd hf] at h
      obtain ⟨moves, rng2, hc, hp⟩ := allowed_moves_perm (hrev.well_formed game hinv) rng
      rw [hc] at h
      have hsub : ∀ m ∈ moves, m ∈ undrawn_edges game := fun m hm => hp.mem_iff.1 hm
      have hdep : depth.toNat = (depth - 1).toNat + 1 := by omega
      have h0' : 0 ≤ depth - 1 := by omega
      rw [hdep]
      cases maximize
      · simp only [Bool.false_eq_true, if_false] at h
        rw [plain_node_min ops max_agent min_agent _ game hf]
        obtain ⟨hM0, hMlb, hMatt0⟩ := foldl_min_spec (fun m =>
          plain_minimax ops max_agent min_agent (depth - 1).toNat (play ops game m min_agent)
            (!keeps_turn ops game m min_agent)) (undrawn_edges game) 1000
        generalize (undrawn_edges game).foldl (fun best m =>
          min best (plain_minimax ops max_agent min_agent (depth - 1).toNat
            (play ops game m min_agent) (!keeps_turn ops game m min_agent))) 1000 = M
          at hM0 hMlb hMatt0 ⊢
        have hMatt : M = 1000 ∨ attained M (undrawn_edges game) (fun m =>
            plain_minimax ops max_agent min_agent (depth - 1).toNat (play ops game m min_agent)
              (!keeps_turn ops game m min_agent)) := hMatt0
        clear hMatt0
        refine (min_loop_rule ops min_agent alpha _ game (undrawn_edges game)
          (fun rest mm b => alpha < b ∧ alpha < mm.2.2.2 ∧ -1000 < mm.2.2.2 ∧ b ≤ beta ∧
            (beta ≤ b ∨ mm.2.2.2 ≤ b) ∧
            (mm.2.2.2 ≤ M ∨ attained M rest (fun m => plain_minimax ops max_agent min_agent
              (depth - 1).toNat (play ops game m min_agent) (!keeps_turn ops game m min_agent))) ∧
            (mm.2.2.2 < beta → M ≤ mm.2.2.2))
          (fun mm => FailSoft alpha beta mm.2.2.2 M)
          (fun m b e => FailSoft alpha b e (plain_minimax ops max_agent min_agent
              (depth - 1).toNat (play ops game m min_agent) (!keeps_turn ops game m min_agent)) ∧
            -1000 < e ∧ e < 1000)
          (fun m hm => hrev.remove_add game m min_agent hinv hm)
          ?_ ?_ ?_ ?_ moves (0, 0, false, 1000) beta rng2 out hsub ?_ h).1
        · intro m rest mm b r res hm hP hr
          have hi := hrev.add_keeps game m min_agent hinv hm
          obtain ⟨p1, p2, p3, p4, p5, p6, p7⟩ := hP
          exact ⟨minimax_frame hrev max_agent min_agent fuel _ _ _ _ _ _ res hi hr,
            minimax_fail_soft hrev hplay hbound fuel _ _ _ _ _ _ res hi h0' p1 ha (by omega) hr,
            (minimax_range hrev hplay hbound fuel _ _ _ _ _ _ res hi hr).1⟩
        · intro m rest mm b e hm hP hS hcut
          obtain ⟨p1, p2, p3, p4, p5, p6, p7⟩ := hP
          obtain ⟨⟨s1, s2, s3⟩, s4, s5⟩ := hS
          have hlb := hMlb m hm
          simp only at hlb
          have he : e ≤ alpha := by
            rcases min_le_iff.1 hcut with h1 | h1
            · omega
            · exact h1
          have hlt : e < mm.2.2.2 := by omega
          rw [if_pos hlt]
          refine ⟨fun _ => ?_, fun h1 _ => ?_, fun h1 => ?_⟩
          · have := s1 he
            show M ≤ e
            omega
          · exfalso
            have : alpha < e := h1
            omega
          · exfalso
            have : beta ≤ e := h1
            omega
        · intro m rest mm b e hm hP hS hcut
          obtain ⟨p1, p2, p3, p4, p5, p6, p7⟩ := hP
          obtain ⟨⟨s1, s2, s3⟩, s4, s5⟩ := hS
          have hlb := hMlb m hm
          simp only at hlb
          have hae : alpha < e := (lt_min_iff.1 (not_le.1 hcut)).2
          clear hcut
          have hge : e ≤ plain_minimax ops max_agent min_agent (depth - 1).toNat
              (play ops game m min_agent) (!keeps_turn ops game m min_agent) := by
            rcases lt_or_ge e b with h1 | h1
            · exact le_of_eq (s2 hae h1)
            · exact s3 h1
          have hmin : min b e = b ∨ min b e = e := by
            rcases le_total b e with h1 | h1
            · exact Or.inl (min_eq_left h1)
            · exact Or.inr (min_eq_right h1)
          have hmin1 : min b e ≤ b := min_le_left _ _
          have hmin2 : min b e ≤ e := min_le_right _ _
          generalize min b e = b2 at hmin hmin1 hmin2 ⊢
          by_cases hlt : e < mm.2.2.2
          · rw [if_pos hlt]
            refine ⟨by omega, hae, s4, by omega, (by first | omega | (dsimp only; omega)), ?_, ?_⟩
            · rcases p6 with h6 | ⟨m2, hm2, h6⟩
              · left; show e ≤ M; omega
              · rcases List.mem_cons.1 hm2 with rfl | hin
                · left; show e ≤ M; simp only at h6; omega
                · exact Or.inr ⟨m2, hin, h6⟩
            · intro h1
              have h1' : e < beta := h1
              have : e < b := by omega
              have := s2 hae this
              show M ≤ e
              omega
          · rw [if_neg hlt]
            refine ⟨by omega, p2, p3, by omega, by omega, ?_, p7⟩
            rcases p6 with h6 | ⟨m2, hm2, h6⟩
            · exact Or.inl h6
            · rcases List.mem_cons.1 hm2 with rfl | hin
              · left; simp only at h6; omega
              · exact Or.inr ⟨m2, hin, h6⟩
        · intro mm b hP
          obtain ⟨p1, p2, p3, p4, p5, p6, p7⟩ := hP
          have p6' : mm.2.2.2 ≤ M := by
            rcases p6 with h6 | ⟨m2, hm2, _⟩
            · exact h6
            · cases hm2
          refine ⟨fun h1 => ?_, fun _ h2 => ?_, fun h1 => ?_⟩
          · exfalso; omega
          · have := p7 h2; omega
          · exact p6'
        · refine ⟨hab, ha, (by first | omega | (dsimp only; omega)), le_refl _, Or.inl (le_refl _), ?_, fun _ => hM0⟩
          rcases hMatt with h1 | ⟨m, hm, h1⟩
          · left; show (1000 : Int) ≤ M; omega
          · exact Or.inr ⟨m, hp.mem_iff.2 hm, h1⟩
      · simp only [if_true] at h
        rw [plain_node_max ops max_agent min_agent _ game hf]
        obtain ⟨hM0, hMub, hMatt0⟩ := foldl_max_spec (fun m =>
          plain_minimax ops max_agent min_agent (depth - 1).toNat (play ops game m max_agent)
            (keeps_turn ops game m max_agent)) (undrawn_edges game) (-1000)
        generalize (undrawn_edges game).foldl (fun best m =>
          max best (plain_minimax ops max_agent min_agent (depth - 1).toNat
            (play ops game m max_agent) (keeps_turn ops game m max_agent))) (-1000) = M
          at hM0 hMub hMatt0 ⊢
        have hMatt : M = -1000 ∨ attained M (undrawn_edges game) (fun m =>
            plain_minimax ops max_agent min_agent (depth - 1).toNat (play ops game m max_agent)
              (keeps_turn ops game m max_agent)) := hMatt0
        clear hMatt0
        refine (max_loop_rule ops max_agent beta _ game (undrawn_edges game)
          (fun rest mm a => a < beta ∧ mm.2.2.2 < beta ∧ mm.2.2.2 < 1000 ∧ alpha ≤ a ∧
            (a ≤ alpha ∨ a ≤ mm.2.2.2) ∧
            (M ≤ mm.2.2.2 ∨ attained M rest (fun m => plain_minimax ops max_agent min_agent
              (depth - 1).toNat (play ops game m max_agent) (keeps_turn ops game m max_agent))) ∧
            (alpha < mm.2.2.2 → mm.2.2.2 ≤ M))
          (fun mm => FailSoft alpha beta mm.2.2.2 M)
          (fun m a e => FailSoft a beta e (plain_minimax ops max_agent min_agent
              (depth - 1).toNat (play ops game m max_agent) (keeps_turn ops game m max_agent)) ∧
            -1000 < e ∧ e < 1000)
          (fun m hm => hrev.remove_add game m max_agent hinv hm)
          ?_ ?_ ?_ ?_ moves (0, 0, false, -1000) alpha rng2 out hsub ?_ h).1
        · intro m rest mm a r res hm hP hr
          have hi := hrev.add_keeps game m max_agent hinv hm
          obtain ⟨p1, p2, p3, p4, p5, p6, p7⟩ := hP
          exact ⟨minimax_frame hrev max_agent min_agent fuel _ _ _ _ _ _ res hi hr,
            minimax_fail_soft hrev hplay hbound fuel _ _ _ _ _ _ res hi h0' p1 (by omega) hb hr,
            (minimax_range hrev hplay hbound fuel _ _ _ _ _ _ res hi hr).1⟩
        · intro m rest mm a e hm hP hS hcut
          obtain ⟨p1, p2, p3, p4, p5, p6, p7⟩ := hP
          obtain ⟨⟨s1, s2, s3⟩, s4, s5⟩ := hS
          have hub := hMub m hm
          simp only at hub
          have he : beta ≤ e := by
            rcases le_max_iff.1 hcut with h1 | h1
            · omega
            · exact h1
          have hgt : e > mm.2.2.2 := by omega
          rw [if_pos hgt]
          refine ⟨fun h1 => ?_, fun _ h1 => ?_, fun _ => ?_⟩
          · exfalso
            have : e ≤ alpha := h1
            omega
          · exfalso
            have : e < beta := h1
            omega
          · have := s3 he
            show e ≤ M
            omega
        · intro m rest mm a e hm hP hS hcut
          obtain ⟨p1, p2, p3, p4, p5, p6, p7⟩ := hP
          obtain ⟨⟨s1, s2, s3⟩, s4, s5⟩ := hS
          have hub := hMub m hm
          simp only at hub
          have heb : e < beta := (max_lt_iff.1 (not_le.1 hcut)).2
          clear hcut
          have hle : plain_minimax ops max_agent min_agent (depth - 1).toNat
              (play ops game m max_agent) (keeps_turn ops game m max_agent) ≤ e := by
            rcases lt_or_ge a e with h1 | h1
            · exact le_of_eq (s2 h1 heb).symm
            · exact s1 h1
          have hmax : max a e = a ∨ max a e = e := by
            rcases le_total a e with h1 | h1
            · exact Or.inr (max_eq_right h1)
            · exact Or.inl (max_eq_left h1)
          have hmax1 : a ≤ max a e := le_max_left _ _
          have hmax2 : e ≤ max a e := le_max_right _ _
          generalize max a e = a2 at hmax hmax1 hmax2 ⊢
          by_cases hgt : e > mm.2.2.2
          · rw [if_pos hgt]
            refine ⟨by omega, heb, s5, by omega, (by first | omega | (dsimp only; omega)), ?_, ?_⟩
            · rcases p6 with h6 | ⟨m2, hm2, h6⟩
              · left; show M ≤ e; omega
              · rcases List.mem_cons.1 hm2 with rfl | hin
                · left; show M ≤ e; simp only at h6; omega
                · exact Or.inr ⟨m2, hin, h6⟩
            · intro h1
              have h1' : alpha < e := h1
              have : a < e := by omega
              have := s2 this heb
              show e ≤ M
              omega
          · rw [if_neg hgt]
            refine ⟨by omega, p2, p3, by omega, by omega, ?_, p7⟩
            rcases p6 with h6 | ⟨m2, hm2, h6⟩
            · exact Or.inl h6
            · rcases List.mem_cons.1 hm2 with rfl | hin
              · left; simp only at h6; omega
              · exact Or.inr ⟨m2, hin, h6⟩
        · intro mm a hP
          obtain ⟨p1, p2, p3, p4, p5, p6, p7⟩ := hP
          have p6' : M ≤ mm.2.2.2 := by
            rcases p6 with h6 | ⟨m2, hm2, _⟩
            · exact h6
            · cases hm2
          refine ⟨fun _ => p6', fun h1 _ => ?_, fun h1 => ?_⟩
          · have := p7 h1; omega
          · exfalso; omega
        · refine ⟨hab, hb, (by first | omega | (dsimp only; omega)), le_refl _, Or.inl (le_refl _), ?_, fun _ => hM0⟩
          rcases hMatt with h1 | ⟨m, hm, h1⟩
          · left; show M ≤ (-1000 : Int); omega
          · exact Or.inr ⟨m, hp.mem_iff.2 hm, h1⟩

/-- With a full window the pruned search returns the value of plain minimax. -/
theorem minimax_exact {ops : BoardOps σ} {Inv : Board σ → Prop} (hrev : Reversible ops Inv)
    (hplay : Playable ops Inv) {max_agent min_agent : Char}
    (hbound : Bounded ops Inv max_agent min_agent) {game : Board σ} (hinv : Inv game)
    {fuel : Nat} {depth : Int} (h0 : 0 ≤ depth) (hfuel : depth < fuel) {alpha beta : Int}
    (hfull : ∀ g, Inv g → alpha < minimax_heuristic ops g max_agent min_agent ∧
      minimax_heuristic ops g max_agent min_agent < beta)
    (maximize : Bool) (rng : Rng) :
    ∃ result rng2,
      minimax ops fuel game depth alpha beta maximize max_agent min_agent rng =
        .ok (result, game, rng2) ∧
      result.score = plain_minimax ops max_agent min_agent depth.toNat game maximize := by
  obtain ⟨⟨result, after, rng2⟩, h⟩ := minimax_total hrev max_agent min_agent fuel game depth
    alpha beta maximize rng hinv h0 hfuel
  have hframe := minimax_frame hrev max_agent min_agent fuel game depth alpha beta maximize rng
    _ hinv h
  simp only at hframe
  subst hframe
  obtain ⟨g, hg, hatt⟩ := plain_attained hrev hplay hbound depth.toNat after maximize hinv
  have hwin := hfull after hinv
  have hrange := hbound after hinv
  have hg1 := hfull g hg
  obtain ⟨f1, f2, f3⟩ := minimax_fail_soft hrev hplay hbound fuel after depth alpha beta
    maximize rng _ hinv h0 (by omega) (by omega) (by omega) h
  simp only at f1 f2 f3
  refine ⟨result, rng2, h, ?_⟩
  rw [hatt] at f1 f2 f3 ⊢
  rcases le_or_lt result.score alpha with h1 | h1
  · have := f1 h1; omega
  · rcases lt_or_le result.score beta with h2 | h2
    · exact f2 h1 h2
    · have := f3 h2; omega

/-! ## Claims about the search -/

/-- C3: on positions whose score differentials lie strictly between -1000 and 1000, for every
depth of at least 0, either maximizing flag and a full window (`alpha` below and `beta` above
every score differential, such as -1000 and 1000), the score returned by `minimax` equals the
value of plain minimax without pruning, whatever the state of the random engine, that is
whatever the order in which the candidates are examined at each node. -/
theorem minimax_full_window (ops : BoardOps σ) (Inv : Board σ → Prop)
    (hrev : Reversible ops Inv) (hplay : Playable ops Inv) (max_agent min_agent : Char)
    (hbound : Bounded ops Inv max_agent min_agent) (game : Board σ) (hinv : Inv game)
    (fuel : Nat) (depth : Int) (h0 : 0 ≤ depth) (hfuel : depth < fuel) (alpha beta : Int)
    (hfull : ∀ g, Inv g → alpha < minimax_heuristic ops g max_agent min_agent ∧
      minimax_heuristic ops g max_agent min_agent < beta)
    (maximize : Bool) :
    ∀ rng : Rng, ∃ result rng2,
      minimax ops fuel game depth alpha beta maximize max_agent min_agent rng =
        .ok (result, game, rng2) ∧
      result.score = plain_minimax ops max_agent min_agent depth.toNat game maximize :=
  fun rng => minimax_exact hrev hplay hbound hinv h0 hfuel hfull maximize rng

set_option maxRecDepth 100000 in
/-- Witness of C3: the empty 2 x 2 board at depth 2 with the window (-1000, 1000); plain
minimax gives 0 there. -/
theorem minimax_full_window_witness :
    std_inv 31 (empty_board 2) ∧
    plain_minimax std_ops 'A' 'B' 2 (empty_board 2) true = 0 ∧
    ∃ result rng2,
      minimax std_ops 3 (empty_board 2) 2 (-1000) 1000 true 'A' 'B' [5, 3, 8, 1] =
        .ok (result, empty_board 2, rng2) ∧
      result.score = plain_minimax std_ops 'A' 'B' (2 : Int).toNat (empty_board 2) true :=
  ⟨by decide, by decide,
    minimax_full_window std_ops (std_inv 31) (std_reversible 31) (std_playable 31) 'A' 'B'
      (std_bounded 'A' 'B') (empty_board 2) (by decide) 3 2 (by decide) (by decide) (-1000) 1000
      (fun g hg => std_bounded 'A' 'B' g hg) true [5, 3, 8, 1]⟩

theorem Terminal.playable {ops : BoardOps σ} {Inv : Board σ → Prop} (h : Terminal ops Inv) :
    Playable ops Inv := by
  intro g hg hf hnil
  rw [(h g hg).2 hnil] at hf
  cases hf

theorem read_of_all {grid : List (List Bool)}
    (h : grid.all (fun cells => cells.all id) = true) {row col : Int} {x : Bool}
    (hr : read grid row col = .ok x) : x = true := by
  simp only [List.all_eq_true, id_eq] at h
  unfold read at hr
  split at hr
  · split at hr
    · cases hr
    · rename_i cells hc
      split at hr
      · cases hr
      · rename_i y hy
        cases hr
        exact h cells (List.getElem?_mem hc) _ (List.getElem?_mem hy)
  · cases hr

/-- The board implementation reports a position as finished exactly when no legal edge
remains. -/
theorem std_terminal (n : Nat) : Terminal std_ops (std_inv n) := by
  intro g hinv
  constructor
  · intro hfin
    have hfin2 : (g.horizontal_dashes.all (fun cells => cells.all id) &&
        g.vertical_dashes.all (fun cells => cells.all id)) = true := hfin
    rw [Bool.and_eq_true] at hfin2
    rw [List.eq_nil_iff_forall_not_mem]
    intro m hm
    obtain ⟨hv, hd⟩ := (mem_undrawn_edges g m).1 hm
    have hr := read_edge_ok hinv.1.1 hv
    rw [hd] at hr
    split at hr
    · exact absurd (read_of_all hfin2.2 hr) (by decide)
    · exact absurd (read_of_all hfin2.1 hr) (by decide)
  · intro hnil
    by_contra hf
    have hf2 : std_ops.finished g = false := by
      cases h : std_ops.finished g
      · rfl
      · exact absurd h hf
    exact std_playable n g hinv hf2 hnil

theorem keeps_turn_of_completes {ops : BoardOps σ} {Inv : Board σ → Prop}
    (hscore : Scoring ops Inv) {game : Board σ} (hinv : Inv game) {m : Move}
    (hm : m ∈ undrawn_edges game) (h3 : touches game m 3) (p : Char) :
    keeps_turn ops game m p = true := by
  have := (hscore game m p hinv hm).1 h3
  simp only [keeps_turn, play, decide_eq_true_eq]
  omega

theorem plain_max_ge (ops : BoardOps σ) (max_agent min_agent : Char) (depth : Nat)
    {game : Board σ} (hf : ops.finished game = false) {m : Move} (hm : m ∈ undrawn_edges game) :
    plain_minimax ops max_agent min_agent depth (play ops game m max_agent)
        (keeps_turn ops game m max_agent) ≤
      plain_minimax ops max_agent min_agent (depth + 1) game true := by
  rw [plain_node_max ops max_agent min_agent depth game hf]
  exact (foldl_max_spec (fun m => plain_minimax ops max_agent min_agent depth
    (play ops game m max_agent) (keeps_turn ops game m max_agent)) (undrawn_edges game)
    (-1000)).2.1 m hm

theorem plain_min_le (ops : BoardOps σ) (max_agent min_agent : Char) (depth : Nat)
    {game : Board σ} (hf : ops.finished game = false) {m : Move} (hm : m ∈ undrawn_edges game) :
    plain_minimax ops max_agent min_agent (depth + 1) game false ≤
      plain_minimax ops max_agent min_agent depth (play ops game m min_agent)
        (!keeps_turn ops game m min_agent) := by
  rw [plain_node_min ops max_agent min_agent depth game hf]
  exact (foldl_min_spec (fun m => plain_minimax ops max_agent min_agent depth
    (play ops game m min_agent) (!keeps_turn ops game m min_agent)) (undrawn_edges game)
    1000).2.1 m hm

/-- C7: the player who completes a square keeps the turn and the depth still drops by one.
When an undrawn edge `e1` borders a square with three drawn edges, the position after drawing
it is not finished, and there an undrawn edge `e2` borders a square with three drawn edges,
then the recursive call after `e1` is made with the same maximizing flag, and `minimax` at
depth 2 with a full window returns at least the heuristic value of the board plus 2 when
maximizing, and at most that value minus 2 when minimizing. -/
theorem extra_turn_gains_two (ops : BoardOps σ) (Inv : Board σ → Prop)
    (hrev : Reversible ops Inv) (hterm : Terminal ops Inv) (hscore : Scoring ops Inv)
    (max_agent min_agent : Char) (hne : max_agent ≠ min_agent)
    (hbound : Bounded ops Inv max_agent min_agent) (game : Board σ) (hinv : Inv game)
    (fuel : Nat) (hfuel : 2 < fuel) (alpha beta : Int)
    (hfull : ∀ g, Inv g → alpha < minimax_heuristic ops g max_agent min_agent ∧
      minimax_heuristic ops g max_agent min_agent < beta)
    (rng : Rng) :
    (∀ e1 e2, e1 ∈ undrawn_edges game → touches game e1 3 →
      ops.finished (play ops game e1 max_agent) = false →
      e2 ∈ undrawn_edges (play ops game e1 max_agent) →
      touches (play ops game e1 max_agent) e2 3 →
      keeps_turn ops game e1 max_agent = true ∧
      ∃ result rng2,
        minimax ops fuel game 2 alpha beta true max_agent min_agent rng =
          .ok (result, game, rng2) ∧
        minimax_heuristic ops game max_agent min_agent + 2 ≤ result.score) ∧
    (∀ e1 e2, e1 ∈ undrawn_edges game → touches game e1 3 →
      ops.finished (play ops game e1 min_agent) = false →
      e2 ∈ undrawn_edges (play ops game e1 min_agent) →
      touches (play ops game e1 min_agent) e2 3 →
      (!keeps_turn ops game e1 min_agent) = false ∧
      ∃ result rng2,
        minimax ops fuel game 2 alpha beta false max_agent min_agent rng =
          .ok (result, game, rng2) ∧
        result.score ≤ minimax_heuristic ops game max_agent min_agent - 2) := by
  have hplay := hterm.playable
  have hfin : ∀ e, e ∈ undrawn_edges game → ops.finished game = false := by
    intro e he
    cases h : ops.finished game
    · rfl
    · rw [(hterm game hinv).1 h] at he
      cases he
  have hfuel' : ((2 : Int)) < (fuel : Int) := by exact_mod_cast hfuel
  constructor
  · intro e1 e2 h1 t1 hf1 h2 t2
    have hk := keeps_turn_of_completes hscore hinv h1 t1 max_agent
    refine ⟨hk, ?_⟩
    obtain ⟨result, rng2, h, hs⟩ := minimax_exact hrev hplay hbound hinv (by decide) hfuel'
      hfull true rng
    refine ⟨result, rng2, h, ?_⟩
    have hs2 : result.score = plain_minimax ops max_agent min_agent (1 + 1) game true := hs
    have hi1 := hrev.add_keeps game e1 max_agent hinv h1
    have a1 := plain_max_ge ops max_agent min_agent 1 (hfin e1 h1) h1
    rw [hk] at a1
    have a2 : minimax_heuristic ops (play ops (play ops game e1 max_agent) e2 max_agent)
        max_agent min_agent ≤
        plain_minimax ops max_agent min_agent 1 (play ops game e1 max_agent) true :=
      plain_max_ge ops max_agent min_agent 0 hf1 h2
    have s1 := hscore game e1 max_agent hinv h1
    have s2 := hscore (play ops game e1 max_agent) e2 max_agent hi1 h2
    have s1a := s1.1 t1
    have s1b := s1.2 min_agent (Ne.symm hne)
    have s2a := s2.1 t2
    have s2b := s2.2 min_agent (Ne.symm hne)
    simp only [minimax_heuristic, play] at a1 a2 hs2 s1a s1b s2a s2b ⊢
    omega
  · intro e1 e2 h1 t1 hf1 h2 t2
    have hk := keeps_turn_of_completes hscore hinv h1 t1 min_agent
    refine ⟨by simp [hk], ?_⟩
    obtain ⟨result, rng2, h, hs⟩ := minimax_exact hrev hplay hbound hinv (by decide) hfuel'
      hfull false rng
    refine ⟨result, rng2, h, ?_⟩
    have hs2 : result.score = plain_minimax ops max_agent min_agent (1 + 1) game false := hs
    have hi1 := hrev.add_keeps game e1 min_agent hinv h1
    have a1 := plain_min_le ops max_agent min_agent 1 (hfin e1 h1) h1
    rw [hk] at a1
    have a2 : plain_minimax ops max_agent min_agent 1 (play ops game e1 min_agent) false ≤
        minimax_heuristic ops (play ops (play ops game e1 min_agent) e2 min_agent)
          max_agent min_agent :=
      plain_min_le ops max_agent min_agent 0 hf1 h2
    simp only [Bool.not_true] at a1
    have s1 := hscore game e1 min_agent hinv h1
    have s2 := hscore (play ops game e1 min_agent) e2 min_agent hi1 h2
    have s1a := s1.1 t1
    have s1b := s1.2 max_agent hne
    have s2a := s2.1 t2
    have s2b := s2.2 max_agent hne
    simp only [minimax_heuristic, play] at a1 a2 hs2 s1a s1b s2a s2b ⊢
    omega

set_option maxRecDepth 100000 in
/-- Witness of C7: the sample 2 x 2 position with scores 0/0; the maximizer takes the square
(0, 0) with h(0, 0), keeps the turn, takes (1, 1) with h(2, 1), and the search returns 2. -/
theorem extra_turn_gains_two_witness :
    std_inv 31 two_boxes_board ∧ 'A' ≠ 'B' ∧
    touches two_boxes_board (0, 0, false) 3 ∧
    touches (play std_ops two_boxes_board (0, 0, false) 'A') (2, 1, false) 3 ∧
    (minimax std_ops 3 two_boxes_board 2 (-1000) 1000 true 'A' 'B' [3, 1, 4]).toOption.map
      (fun out => out.1.score) = some 2 ∧
    ∃ result rng2,
      minimax std_ops 3 two_boxes_board 2 (-1000) 1000 true 'A' 'B' [3, 1, 4] =
        .ok (result, two_boxes_board, rng2) ∧
      minimax_heuristic std_ops two_boxes_board 'A' 'B' + 2 ≤ result.score :=
  ⟨by decide, by decide, ⟨0, 0, by decide, by decide, by decide⟩,
    ⟨1, 1, by decide, by decide, by decide⟩, by decide,
    ((extra_turn_gains_two std_ops (std_inv 31) (std_reversible 31) (std_terminal 31)
      (std_scoring 31) 'A' 'B' (by decide) (std_bounded 'A' 'B') two_boxes_board (by decide) 3
      (by decide) (-1000) 1000 (fun g hg => std_bounded 'A' 'B' g hg) [3, 1, 4]).1
      (0, 0, false) (2, 1, false) (by decide) ⟨0, 0, by decide, by decide, by decide⟩
      (by decide) (by decide) ⟨1, 1, by decide, by decide, by decide⟩).2⟩

/-- At depth 1 the maximizing search returns a legal move together with the heuristic value
of the position that move leads to. -/
theorem depth_one_link {ops : BoardOps σ} {Inv : Board σ → Prop} (hrev : Reversible ops Inv)
    (hplay : Playable ops Inv) {max_agent min_agent : Char}
    (hbound : Bounded ops Inv max_agent min_agent) {game : Board σ} (hinv : Inv game)
    (hf : ops.finished game = false) (fuel : Nat) (alpha beta : Int) (rng : Rng)
    (out : Outcome σ)
    (h : minimax ops (fuel + 2) game 1 alpha beta true max_agent min_agent rng = .ok out) :
    out.1.move ∈ undrawn_edges game ∧
    out.1.score = minimax_heuristic ops (play ops game out.1.move max_agent)
      max_agent min_agent := by
  rw [minimax_node ops (fuel + 1) game 1 alpha beta true max_agent min_agent rng (by decide) hf]
    at h
  obtain ⟨moves, rng2, hc, hp⟩ := allowed_moves_perm (hrev.well_formed game hinv) rng
  rw [hc] at h
  simp only [if_true] at h
  have hsub : ∀ m ∈ moves, m ∈ undrawn_edges game := fun m hm => hp.mem_iff.1 hm
  have hne : moves ≠ [] := by
    intro e
    rw [e] at hp
    exact hplay game hinv hf hp.symm.eq_nil
  refine (max_loop_rule ops max_agent beta _ game (undrawn_edges game)
    (fun rest mm _ => (rest ≠ [] ∧ mm.score = -1000) ∨
      (mm.move ∈ undrawn_edges game ∧
        mm.score = minimax_heuristic ops (play ops game mm.move max_agent) max_agent min_agent))
    (fun mm => mm.move ∈ undrawn_edges game ∧
        mm.score = minimax_heuristic ops (play ops game mm.move max_agent) max_agent min_agent)
    (fun m _ e => e = minimax_heuristic ops (play ops game m max_agent) max_agent min_agent ∧
      -1000 < e)
    (fun m hm => hrev.remove_add game m max_agent hinv hm)
    ?_ ?_ ?_ ?_ moves (0, 0, false, -1000) alpha rng2 out hsub (Or.inl ⟨hne, rfl⟩) h).1
  · intro m rest mm a r res hm _ hr
    have hl := minimax_leaf_eq ops fuel (play ops game m max_agent) (1 - 1) a beta
      (keeps_turn ops game m max_agent) max_agent min_agent r (Or.inl (by decide))
    simp only at hr
    rw [hl] at hr
    cases hr
    exact ⟨rfl, rfl, (hbound _ (hrev.add_keeps game m max_agent hinv hm)).1⟩
  · intro m rest mm a e hm hP hS _
    rcases hP with ⟨_, h1⟩ | h1
    · have : e > mm.2.2.2 := by
        have : mm.2.2.2 = -1000 := h1
        omega
      rw [if_pos this]
      exact ⟨hm, hS.1⟩
    · split
      · exact ⟨hm, hS.1⟩
      · exact h1
  · intro m rest mm a e hm hP hS _
    right
    rcases hP with ⟨_, h1⟩ | h1
    · have : e > mm.2.2.2 := by
        have : mm.2.2.2 = -1000 := h1
        omega
      rw [if_pos this]
      exact ⟨hm, hS.1⟩
    · split
      · exact ⟨hm, hS.1⟩
      · exact h1
  · intro mm a hP
    rcases hP with ⟨h1, _⟩ | h1
    · exact absurd rfl h1
    · exact h1

/-- C8: on a position that is not finished, `minimax` at depth 1 with `maximize = true` and a
full window returns a legal move `m` and a score equal to the heuristic value of the position
reached by playing `m` for `max_agent`, and no legal move leads to a position with a larger
heuristic value. -/
theorem minimax_depth_one (ops : BoardOps σ) (Inv : Board σ → Prop)
    (hrev : Reversible ops Inv) (hplay : Playable ops Inv) (max_agent min_agent : Char)
    (hbound : Bounded ops Inv max_agent min_agent) (game : Board σ) (hinv : Inv game)
    (hf : ops.finished game = false) (fuel : Nat) (alpha beta : Int)
    (hfull : ∀ g, Inv g → alpha < minimax_heuristic ops g max_agent min_agent ∧
      minimax_heuristic ops g max_agent min_agent < beta)
    (rng : Rng) :
    ∃ result rng2,
      minimax ops (fuel + 2) game 1 alpha beta true max_agent min_agent rng =
        .ok (result, game, rng2) ∧
      (valid_edge game.size result.move ∧ drawn game result.move = false) ∧
      result.score =
        minimax_heuristic ops (play ops game result.move max_agent) max_agent min_agent ∧
      ∀ m, valid_edge game.size m → drawn game m = false →
        minimax_heuristic ops (play ops game m max_agent) max_agent min_agent ≤ result.score := by
  obtain ⟨result, rng2, h, hs⟩ := minimax_exact hrev hplay hbound hinv (by decide)
    (show (1 : Int) < ((fuel + 2 : Nat) : Int) by push_cast; omega) hfull true rng
  obtain ⟨l1, l2⟩ := depth_one_link hrev hplay hbound hinv hf fuel alpha beta rng _ h
  refine ⟨result, rng2, h, (mem_undrawn_edges game _).1 l1, l2, ?_⟩
  intro m hv hd
  have hm : m ∈ undrawn_edges game := (mem_undrawn_edges game m).2 ⟨hv, hd⟩
  have := plain_max_ge ops max_agent min_agent 0 hf hm
  rw [hs]
  exact this

set_option maxRecDepth 100000 in
/-- Witness of C8: on the empty 2 x 2 board with agents A and B all 12 edges are undrawn and
lie in the neutral class, and whatever the state of the random engine the depth-1 search
returns one of them with score 0. -/
theorem minimax_depth_one_witness :
    std_inv 31 (empty_board 2) ∧ std_ops.finished (empty_board 2) = false ∧
    (undrawn_edges (empty_board 2)).length = 12 ∧
    bucket (empty_board 2) 1 = undrawn_edges (empty_board 2) ∧
    ∀ rng : Rng, ∃ result rng2,
      minimax std_ops 2 (empty_board 2) 1 (-1000) 1000 true 'A' 'B' rng =
        .ok (result, empty_board 2, rng2) ∧
      result.move ∈ undrawn_edges (empty_board 2) ∧ result.score = 0 := by
  refine ⟨by decide, by decide, by decide, by decide, ?_⟩
  intro rng
  obtain ⟨result, rng2, h, hl, hs, _⟩ :=
    minimax_depth_one std_ops (std_inv 31) (std_reversible 31) (std_playable 31) 'A' 'B'
      (std_bounded 'A' 'B') (empty_board 2) (by decide) (by decide) 0 (-1000) 1000
      (fun g hg => std_bounded 'A' 'B' g hg) rng
  have hmem : result.move ∈ undrawn_edges (empty_board 2) := (mem_undrawn_edges _ _).2 hl
  refine ⟨result, rng2, h, hmem, ?_⟩
  have hall : ∀ m ∈ undrawn_edges (empty_board 2),
      minimax_heuristic std_ops (play std_ops (empty_board 2) m 'A') 'A' 'B' = 0 := by
    decide
  rw [hs]
  exact hall _ hmem

/-! ## A position outside the sentinels -/

theorem read_replicate (r c : Nat) (x : α) {row col : Int}
    (h1 : 0 ≤ row) (h2 : row < r) (h3 : 0 ≤ col) (h4 : col < c) :
    read (List.replicate r (List.replicate c x)) row col = .ok x := by
  have hr : row.toNat < r := by omega
  have hc : col.toNat < c := by omega
  simp [read, h1, h3, List.getElem?_replicate, hr, hc]

theorem wellFormed_full (n : Nat) (p : Char) : WellFormed (full_board n p) := by
  refine ⟨by simp [full_board], by simp [full_board], ?_, by simp [full_board], ?_⟩
  · intro cells hcells
    simp only [full_board] at hcells
    rw [List.eq_of_mem_replicate hcells]
    simp [full_board]
  · intro cells hcells
    simp only [full_board] at hcells
    rw [List.eq_of_mem_replicate hcells]
    simp [full_board]

theorem drawn_full (n : Nat) (p : Char) {m : Move} (hv : valid_edge (n : Int) m) :
    drawn (full_board n p) m = true := by
  obtain ⟨row, col, vertical⟩ := m
  cases vertical
  · simp only [valid_edge, Bool.false_eq_true, if_false] at hv
    simp only [drawn, full_board, Bool.false_eq_true, if_false]
    rw [read_replicate (n + 1) n true hv.1 (by push_cast; omega) hv.2.2.1 hv.2.2.2]
  · simp only [valid_edge, if_true] at hv
    simp only [drawn, full_board, if_true]
    rw [read_replicate n (n + 1) true hv.1 hv.2.1 hv.2.2.1 (by push_cast; omega)]

theorem wellFormed_late : WellFormed late_board :=
  wellFormed_mark (wellFormed_full 32 'B') (32, 31, false) false

theorem drawn_late {m : Move} (hv : valid_edge 32 m) :
    drawn late_board m = if m = (32, 31, false) then false else true := by
  have h := @drawn_mark Owners (full_board 32 'B') (wellFormed_full 32 'B') (32, 31, false)
    (by decide) false m
  have e : drawn late_board m = drawn (mark (full_board 32 'B') (32, 31, false) false) m := rfl
  rw [e, h, drawn_full 32 'B' hv]

theorem owner_late {row col : Int} (hv : valid_cell 32 row col) :
    owner late_board row col = if row = 31 ∧ col = 31 then none else some 'B' := by
  obtain ⟨h1, h2, h3, h4⟩ := hv
  have e : late_board.hidden = write (List.replicate 32 (List.replicate 32 (some 'B'))) 31 31 none :=
    rfl
  unfold owner
  rw [e, read_write, read_replicate 32 32 (some 'B') (by decide) (by decide) (by decide)
    (by decide)]
  by_cases hc : row = 31 ∧ col = 31
  · simp [hc]
  · rw [if_neg hc, if_neg hc, read_replicate 32 32 (some 'B') h1 h2 h3 h4]

theorem consistent_late : Consistent late_board := by
  have hshape := @shape_write (Option Char) (List.replicate 32 (List.replicate 32 (some 'B')))
    32 32 31 31 none (by simp) (fun cells h => by rw [List.eq_of_mem_replicate h]; simp)
  refine ⟨wellFormed_late, hshape.1, hshape.2, ?_⟩
  · rintro ⟨row, col⟩ hsq hfill
    have hv : valid_cell 32 row col := (mem_squares _ _ _).1 hsq
    have hex : ∃ b ∈ borders row col, drawn late_board b = false := by
      by_contra hcon
      have hall : ∀ b ∈ borders row col, drawn late_board b = true := by
        intro b hb
        cases hd : drawn late_board b
        · exact absurd ⟨b, hb, hd⟩ hcon
        · rfl
      have : (borders row col).countP (drawn late_board) = (borders row col).length :=
        List.countP_eq_length.2 hall
      have h4 : (borders row col).length = 4 := rfl
      have hf : fill late_board row col < 4 := hfill
      unfold fill at hf
      omega
    obtain ⟨b, hb, hd⟩ := hex
    rw [drawn_late (valid_edge_of_border hv hb)] at hd
    have hbe : b = (32, 31, false) := by
      by_contra hne
      rw [if_neg hne] at hd
      cases hd
    subst hbe
    have hrc : row = 31 ∧ col = 31 := by
      obtain ⟨h1, h2, h3, h4⟩ := hv
      simp only [borders, List.mem_cons, Prod.mk.injEq, List.mem_nil_iff, or_false,
        Bool.false_eq_true, and_false, false_or, and_true] at hb
      omega
    show owner late_board row col = none
    rw [owner_late hv, if_pos hrc]

theorem finished_late : std_ops.finished late_board = false := by
  cases h : std_ops.finished late_board
  · rfl
  · exfalso
    have h2 : (late_board.horizontal_dashes.all (fun cells => cells.all id) &&
        late_board.vertical_dashes.all (fun cells => cells.all id)) = true := h
    rw [Bool.and_eq_true] at h2
    have hr := read_edge_ok wellFormed_late (m := (32, 31, false)) (by decide)
    rw [drawn_late (by decide)] at hr
    simp only [Bool.false_eq_true, if_false, if_true] at hr
    exact absurd (read_of_all h2.1 hr) (by decide)

theorem countP_all_but_one {l : List α} (hn : l.Nodup) (p : α → Bool) (a : α)
    (h : ∀ x ∈ l, x ≠ a → p x = true) : l.length ≤ l.countP p + 1 := by
  induction l with
  | nil => simp
  | cons x t ih =>
    have hx : x ∉ t := (List.nodup_cons.1 hn).1
    rw [List.countP_cons, List.length_cons]
    by_cases e : x = a
    · subst e
      have hall : ∀ y ∈ t, p y = true := fun y hy =>
        h y (List.mem_cons_of_mem _ hy) (fun e => hx (e ▸ hy))
      have : t.countP p = t.length := List.countP_eq_length.2 hall
      omega
    · have := ih (List.nodup_cons.1 hn).2 (fun y hy => h y (List.mem_cons_of_mem _ hy))
      rw [h x (List.mem_cons_self _ _) e]
      simp only [if_true]
      omega

theorem countP_disjoint_le (l : List α) (p q : α → Bool)
    (h : ∀ x ∈ l, ¬ (p x = true ∧ q x = true)) : l.countP p + l.countP q ≤ l.length := by
  induction l with
  | nil => simp
  | cons x t ih =>
    have := ih (fun y hy => h y (List.mem_cons_of_mem _ hy))
    have hx := h x (List.mem_cons_self _ _)
    rw [List.countP_cons, List.countP_cons, List.length_cons]
    cases hp : p x <;> cases hq : q x <;> simp_all <;> omega

/-- The scores of two different players add up to at most the number of squares. -/
theorem std_score_sum (game : Board Owners) {a b : Char} (hab : a ≠ b) :
    std_get_score game a + std_get_score game b ≤ game.size.toNat * game.size.toNat := by
  unfold std_get_score
  have := countP_disjoint_le (squares game.size)
    (fun square => owner game square.1 square.2 == some a)
    (fun square => owner game square.1 square.2 == some b)
    (by
      intro sq _ hcon
      simp only [beq_iff_eq] at hcon
      rw [hcon.1] at hcon
      exact hab (Option.some.inj hcon.2))
  rw [length_squares] at this
  exact_mod_cast this

theorem score_late : 1023 ≤ std_get_score late_board 'B' := by
  unfold std_get_score
  have := countP_all_but_one (nodup_squares late_board.size)
    (fun square => owner late_board square.1 square.2 == some 'B') (31, 31)
    (by
      rintro ⟨row, col⟩ hsq hne
      have hv : valid_cell 32 row col := (mem_squares _ _ _).1 hsq
      have hrc : ¬ (row = 31 ∧ col = 31) := by
        rintro ⟨rfl, rfl⟩
        exact hne rfl
      simp [owner_late hv, hrc])
  rw [length_squares] at this
  have hs : late_board.size.toNat * late_board.size.toNat = 1024 := rfl
  rw [hs] at this
  have h2 : (1023 : Int) = ((1023 : Nat) : Int) := rfl
  rw [h2]
  exact_mod_cast (by omega : 1023 ≤ List.countP
    (fun square => owner late_board square.1 square.2 == some 'B') (squares late_board.size))

/-- When every legal move leads to a position whose heuristic value is not above the sentinel
-1000, the maximizing search at depth 1 returns its initial tuple. -/
theorem sentinel_of_low_scores {ops : BoardOps σ} {Inv : Board σ → Prop}
    (hrev : Reversible ops Inv) {max_agent min_agent : Char} {game : Board σ} (hinv : Inv game)
    (hf : ops.finished game = false)
    (hlow : ∀ m ∈ undrawn_edges game,
      minimax_heuristic ops (play ops game m max_agent) max_agent min_agent ≤ -1000)
    (fuel : Nat) (alpha beta : Int) (rng : Rng) (out : Outcome σ)
    (h : minimax ops (fuel + 2) game 1 alpha beta true max_agent min_agent rng = .ok out) :
    out.1 = (0, 0, false, -1000) := by
  rw [minimax_node ops (fuel + 1) game 1 alpha beta true max_agent min_agent rng (by decide) hf]
    at h
  obtain ⟨moves, rng2, hc, hp⟩ := allowed_moves_perm (hrev.well_formed game hinv) rng
  rw [hc] at h
  simp only [if_true] at h
  have hsub : ∀ m ∈ moves, m ∈ undrawn_edges game := fun m hm => hp.mem_iff.1 hm
  refine (max_loop_rule ops max_agent beta _ game (undrawn_edges game)
    (fun _ mm _ => mm = (0, 0, false, -1000))
    (fun mm => mm = (0, 0, false, -1000))
    (fun _ _ e => e ≤ -1000)
    (fun m hm => hrev.remove_add game m max_agent hinv hm)
    ?_ ?_ ?_ ?_ moves (0, 0, false, -1000) alpha rng2 out hsub rfl h).1
  · intro m rest mm a r res hm _ hr
    have hl := minimax_leaf_eq ops fuel (play ops game m max_agent) (1 - 1) a beta
      (keeps_turn ops game m max_agent) max_agent min_agent r (Or.inl (by decide))
    simp only at hr
    rw [hl] at hr
    cases hr
    exact ⟨rfl, hlow m hm⟩
  · intro m rest mm a e hm hP hS _
    subst hP
    rw [if_neg (by show ¬ e > -1000; omega)]
  · intro m rest mm a e hm hP hS _
    subst hP
    rw [if_neg (by show ¬ e > -1000; omega)]
  · intro mm a hP
    exact hP

/-- Counterexample to C5 as stated: `late_board` is a position of the game on a 32 x 32 board
that is not finished; its only undrawn edge is h(32, 31), and player B has at least 1023
squares.  Every legal move leads to a heuristic value of at most 1 - 1023, which is not above
the sentinel -1000, so the depth-1 maximizing search with the window (-1000, 1000) returns the
placeholder (0, 0, horizontal) with score -1000; that edge is drawn, so the returned move is
not a legal candidate. -/
theorem minimax_returns_placeholder :
    std_inv 32 late_board ∧ std_ops.finished late_board = false ∧
    (∃ rng2, minimax std_ops 2 late_board 1 (-1000) 1000 true 'A' 'B' [] =
      .ok ((0, 0, false, -1000), late_board, rng2)) ∧
    valid_edge late_board.size (0, 0, false) ∧ drawn late_board (0, 0, false) = true := by
  have hinv : std_inv 32 late_board := ⟨consistent_late, by decide⟩
  refine ⟨hinv, finished_late, ?_, by decide, ?_⟩
  · obtain ⟨⟨result, after, rng2⟩, h⟩ := minimax_total (std_reversible 32) 'A' 'B' 2 late_board 1
      (-1000) 1000 true [] hinv (by decide) (by decide)
    have hframe := minimax_frame (std_reversible 32) 'A' 'B' 2 late_board 1 (-1000) 1000 true []
      _ hinv h
    have hres := sentinel_of_low_scores (std_reversible 32) hinv finished_late
      (by
        intro m hm
        have hs := (std_scoring 32 late_board m 'A' hinv hm).2 'B' (by decide)
        have hsum := @std_score_sum (play std_ops late_board m 'A') 'A' 'B' (by decide)
        have hsize : (play std_ops late_board m 'A').size = 32 := by
          show (std_ops.add_move late_board m.1 m.2.1 m.2.2 'A').size = 32
          rw [size_std_add]
          rfl
        rw [hsize] at hsum
        have hsum2 : std_get_score (play std_ops late_board m 'A') 'A' +
            std_get_score (play std_ops late_board m 'A') 'B' ≤ 1024 := hsum
        have hb := score_late
        show std_get_score (play std_ops late_board m 'A') 'A' -
          std_get_score (play std_ops late_board m 'A') 'B' ≤ -1000
        have hs2 : std_get_score (play std_ops late_board m 'A') 'B' =
            std_get_score late_board 'B' := hs
        omega)
      0 (-1000) 1000 [] _ h
    simp only at hframe hres
    subst hframe hres
    exact ⟨rng2, h⟩
  · rw [drawn_late (by decide)]
    decide

/-! ## The position evaluator -/

/-- C11: `minimax_heuristic` returns exactly `get_score(max_agent) - get_score(min_agent)`;
swapping the two agents negates the result; the result is positive exactly when `max_agent` has
strictly more boxes than `min_agent`; it depends on the board only through the two scores; with
box counts that fit an `int` the difference fits an `int` too; and the board is left as it was:
the leaf call of `minimax`, which evaluates the heuristic, hands back the board and the random
engine it received. -/
theorem minimax_heuristic_spec (ops : BoardOps σ) (game : Board σ) (max_agent min_agent : Char) :
    minimax_heuristic ops game max_agent min_agent =
      ops.get_score game max_agent - ops.get_score game min_agent ∧
    minimax_heuristic ops game min_agent max_agent =
      - minimax_heuristic ops game max_agent min_agent ∧
    (0 < minimax_heuristic ops game max_agent min_agent ↔
      ops.get_score game min_agent < ops.get_score game max_agent) ∧
    (∀ other : Board σ, ops.get_score other max_agent = ops.get_score game max_agent →
      ops.get_score other min_agent = ops.get_score game min_agent →
      minimax_heuristic ops other max_agent min_agent =
        minimax_heuristic ops game max_agent min_agent) ∧
    (0 ≤ ops.get_score game max_agent → ops.get_score game max_agent < 2 ^ 31 →
      0 ≤ ops.get_score game min_agent → ops.get_score game min_agent < 2 ^ 31 →
      -(2 ^ 31) < minimax_heuristic ops game max_agent min_agent ∧
        minimax_heuristic ops game max_agent min_agent < 2 ^ 31) ∧
    (∀ (fuel : Nat) (alpha beta : Int) (maximize : Bool) (rng : Rng),
      minimax ops (fuel + 1) game 0 alpha beta maximize max_agent min_agent rng =
        .ok ((0, 0, false, minimax_heuristic ops game max_agent min_agent), game, rng)) := by
  refine ⟨rfl, ?_, ?_, ?_, ?_, ?_⟩
  · simp only [minimax_heuristic]; omega
  · simp only [minimax_heuristic]; omega
  · intro other h1 h2
    simp only [minimax_heuristic, h1, h2]
  · intro h1 h2 h3 h4
    simp only [minimax_heuristic]
    constructor <;> omega
  · intro fuel alpha beta maximize rng
    exact minimax_leaf_eq ops fuel game 0 alpha beta maximize max_agent min_agent rng (Or.inl rfl)

/-- Witness of C11: at the sample 2 x 2 position no square is attributed, so the heuristic is 0
for the agents A and B in either order. -/
theorem minimax_heuristic_spec_witness :
    minimax_heuristic std_ops two_boxes_board 'A' 'B' = 0 ∧
    minimax_heuristic std_ops two_boxes_board 'B' 'A' =
      - minimax_heuristic std_ops two_boxes_board 'A' 'B' :=
  ⟨by decide, (minimax_heuristic_spec std_ops two_boxes_board 'A' 'B').2.1⟩

/-! ## Completing moves in the candidate order -/

/-- The candidates are legal moves listed by increasing priority class. -/
theorem allowed_moves_by_priority {game : Board σ} (hw : WellFormed game) (rng : Rng) :
    ∃ moves rng2, allowed_moves game rng = .ok (moves, rng2) ∧
      (∀ m ∈ moves, valid_edge game.size m ∧ drawn game m = false) ∧
      ∀ (i j : Nat) (hi : i < moves.length) (hj : j < moves.length),
        priority game moves[i] < priority game moves[j] → i < j := by
  obtain ⟨l3, l01, l2, rng2, h, p3, p01, p2⟩ := allowed_moves_ok hw rng
  refine ⟨_, rng2, h, ?_, ?_⟩
  · intro m hm
    simp only [List.mem_append] at hm
    rcases hm with (hm | hm) | hm
    · exact ((mem_bucket game 0 m).1 (p3.mem_iff.1 hm)).1
    · exact ((mem_bucket game 1 m).1 (p01.mem_iff.1 hm)).1
    · exact ((mem_bucket game 2 m).1 (p2.mem_iff.1 hm)).1
  have h3 : ∀ m ∈ l3, priority game m = 0 :=
    fun m hm => ((mem_bucket game 0 m).1 (p3.mem_iff.1 hm)).2
  have h01 : ∀ m ∈ l01, priority game m = 1 :=
    fun m hm => ((mem_bucket game 1 m).1 (p01.mem_iff.1 hm)).2
  have h2 : ∀ m ∈ l2, priority game m = 2 :=
    fun m hm => ((mem_bucket game 2 m).1 (p2.mem_iff.1 hm)).2
  have hpw : (l3 ++ l01 ++ l2).Pairwise (fun a b => priority game a ≤ priority game b) := by
    rw [List.pairwise_append, List.pairwise_append]
    refine ⟨⟨?_, ?_, ?_⟩, ?_, ?_⟩
    · exact List.pairwise_of_forall_mem_list (fun a ha b hb => by rw [h3 a ha, h3 b hb])
    · exact List.pairwise_of_forall_mem_list (fun a ha b hb => by rw [h01 a ha, h01 b hb])
    · intro a ha b hb; rw [h3 a ha, h01 b hb]; omega
    · exact List.pairwise_of_forall_mem_list (fun a ha b hb => by rw [h2 a ha, h2 b hb])
    · intro a ha b hb
      rw [h2 b hb]
      exact priority_le_two game a
  rw [List.pairwise_iff_getElem] at hpw
  intro i j hi hj hlt
  by_contra hij
  rcases Nat.lt_or_ge j i with hji | hji
  · have := hpw j i hj hi hji
    omega
  · have : i = j := by omega
    subst this
    omega

/-- Priority class 0 is the class of the edges bordering a square with three drawn edges and
none with two. -/
theorem priority_zero_iff (game : Board σ) {m : Move} (hv : valid_edge game.size m) :
    priority game m = 0 ↔ touches game m 3 ∧ ¬ touches game m 2 := by
  rw [← near_iff_touches game hv 2, ← near_iff_touches game hv 3]
  unfold priority
  cases near game m 2 <;> cases near game m 3 <;> simp

/-- C12 (amended): on a well-formed board and for every state of the random engine, in the
sequence returned by `allowed_moves` every candidate whose drawing would complete a box (it
borders a square with three drawn edges) and that borders no square with two drawn edges comes
before every candidate whose drawing would complete no box. -/
theorem allowed_moves_completing_first (game : Board σ) (rng : Rng) (hw : WellFormed game) :
    ∃ moves rng2, allowed_moves game rng = .ok (moves, rng2) ∧
      ∀ (i j : Nat) (hi : i < moves.length) (hj : j < moves.length),
        (touches game moves[i] 3 ∧ ¬ touches game moves[i] 2) → ¬ touches game moves[j] 3 →
          i < j := by
  obtain ⟨moves, rng2, h, hlegal, hord⟩ := allowed_moves_by_priority hw rng
  refine ⟨moves, rng2, h, ?_⟩
  intro i j hi hj hc hn
  have pi := (priority_zero_iff game (hlegal _ (List.getElem_mem hi)).1).2 hc
  have pj : priority game moves[j] ≠ 0 :=
    fun e => hn ((priority_zero_iff game (hlegal _ (List.getElem_mem hj)).1).1 e).1
  exact hord i j hi hj (by omega)

/-- Witness of C12: the statement at the sample 2 x 2 position, where h(0,0) and h(2,1) complete
a square and border no square with two drawn edges. -/
theorem allowed_moves_completing_first_witness :
    WellFormed two_boxes_board ∧
    ∃ moves rng2, allowed_moves two_boxes_board [2, 7, 1, 8] = .ok (moves, rng2) ∧
      ∀ (i j : Nat) (hi : i < moves.length) (hj : j < moves.length),
        (touches two_boxes_board moves[i] 3 ∧ ¬ touches two_boxes_board moves[i] 2) →
          ¬ touches two_boxes_board moves[j] 3 → i < j :=
  ⟨by decide, allowed_moves_completing_first two_boxes_board [2, 7, 1, 8] (by decide)⟩

/-- Counterexample to C12 as stated: at the position `mixed_board` the undrawn edge v(0,1)
borders the square (0,0), which has three drawn edges, so drawing it completes a box; it also
borders the square (0,1) with two drawn edges, so it is classified `edges_2` and is the last
candidate, after h(2,0), whose drawing completes no box. -/
theorem allowed_moves_completing_last :
    WellFormed mixed_board ∧
    ∃ moves rng2, allowed_moves mixed_board [] = .ok (moves, rng2) ∧
      ∃ (i j : Nat) (hi : i < moves.length) (hj : j < moves.length),
        touches mixed_board moves[i] 3 ∧ ¬ touches mixed_board moves[j] 3 ∧ j < i := by
  refine ⟨by decide, ?_⟩
  have h : allowed_moves mixed_board [] = .ok
      ([(2, 0, false), (2, 1, false), (1, 0, true), (1, 1, true), (1, 2, true), (1, 1, false),
        (0, 1, true)], []) := by
    rfl
  refine ⟨_, _, h, 6, 0, by decide, by decide, ?_, ?_, by decide⟩
  · exact ⟨0, 0, by decide, by decide, by decide⟩
  · intro ht
    have hn := (near_iff_touches mixed_board
      (show valid_edge mixed_board.size (2, 0, false) by decide) 3).2 ht
    revert hn
    decide

/-! ## What the three vectors hold -/

/-- The three vectors filled by the scan are the three priority classes of the legal moves. -/
theorem scan_buckets {game : Board σ} (hw : WellFormed game) :
    scan game (scan_order game.size) ⟨[], [], []⟩ =
      .ok ⟨bucket game 0, bucket game 1, bucket game 2⟩ := by
  rw [scan_ok hw (scan_order game.size) ⟨[], [], []⟩
    (fun m hm => (mem_scan_order game.size m).1 hm)]
  simp only [List.nil_append, filter_pick_eq_bucket]

/-- C13: on a well-formed board the scan of `allowed_moves` puts every undrawn edge `e` into one
of its three vectors; each square bordering `e` has at most three drawn edges; if `e` is in
`edges_3`, drawing `e` gives some bordering square four drawn edges and leaves no bordering
square with exactly three; if `e` is in `edges_2`, after drawing `e` some bordering square has
exactly three drawn edges; if `e` is in `edges_0_1`, every bordering square had none or one
drawn edge and has at most two after `e` is drawn. -/
theorem buckets_meaning (game : Board σ) (hw : WellFormed game) :
    ∃ b, scan game (scan_order game.size) ⟨[], [], []⟩ = .ok b ∧
      ∀ e, valid_edge game.size e → drawn game e = false →
        (e ∈ b.edges_3 ∨ e ∈ b.edges_0_1 ∨ e ∈ b.edges_2) ∧
        (∀ row col, valid_cell game.size row col → e ∈ borders row col →
          fill game row col ≤ 3) ∧
        (e ∈ b.edges_3 →
          (∃ row col, valid_cell game.size row col ∧ e ∈ borders row col ∧
            fill (mark game e true) row col = 4) ∧
          ∀ row col, valid_cell game.size row col → e ∈ borders row col →
            fill (mark game e true) row col ≠ 3) ∧
        (e ∈ b.edges_2 →
          ∃ row col, valid_cell game.size row col ∧ e ∈ borders row col ∧
            fill (mark game e true) row col = 3) ∧
        (e ∈ b.edges_0_1 →
          ∀ row col, valid_cell game.size row col → e ∈ borders row col →
            (fill game row col = 0 ∨ fill game row col = 1) ∧
              fill (mark game e true) row col ≤ 2) := by
  refine ⟨_, scan_buckets hw, ?_⟩
  intro e hv hd
  have hafter : ∀ row col, e ∈ borders row col →
      fill (mark game e true) row col = fill game row col + 1 := by
    intro row col hb
    rw [fill_mark hw hv hd row col, if_pos hb]
  have hle : ∀ row col, e ∈ borders row col → fill game row col ≤ 3 :=
    fun row col hb => fill_le_three hd hb
  have h2 := near_iff_touches game hv 2
  have h3 := near_iff_touches game hv 3
  simp only [mem_bucket]
  refine ⟨?_, fun row col _ hb => hle row col hb, ?_, ?_, ?_⟩
  · have := priority_le_two game e
    have hcases : priority game e = 0 ∨ priority game e = 1 ∨ priority game e = 2 := by omega
    rcases hcases with h | h | h
    · exact Or.inl ⟨⟨hv, hd⟩, h⟩
    · exact Or.inr (Or.inl ⟨⟨hv, hd⟩, h⟩)
    · exact Or.inr (Or.inr ⟨⟨hv, hd⟩, h⟩)
  · rintro ⟨_, hp⟩
    have hn2 : near game e 2 = false := by
      unfold priority at hp
      cases h : near game e 2
      · rfl
      · rw [h] at hp; simp at hp
    have hn3 : near game e 3 = true := by
      unfold priority at hp
      rw [hn2] at hp
      cases h : near game e 3
      · rw [h] at hp; simp at hp
      · rfl
    obtain ⟨row, col, hc, hb, hf⟩ := h3.1 hn3
    refine ⟨⟨row, col, hc, hb, by rw [hafter row col hb, hf]⟩, ?_⟩
    intro r c hc2 hb2 hf2
    rw [hafter r c hb2] at hf2
    have : touches game e 2 := ⟨r, c, hc2, hb2, by omega⟩
    rw [← h2, hn2] at this
    cases this
  · rintro ⟨_, hp⟩
    have hn2 : near game e 2 = true := by
      unfold priority at hp
      cases h : near game e 2
      · rw [h] at hp
        simp only [Bool.false_eq_true, if_false] at hp
        split at hp <;> omega
      · rfl
    obtain ⟨row, col, hc, hb, hf⟩ := h2.1 hn2
    exact ⟨row, col, hc, hb, by rw [hafter row col hb, hf]⟩
  · rintro ⟨_, hp⟩ row col hc hb
    have hn2 : near game e 2 = false := by
      unfold priority at hp
      cases h : near game e 2
      · rfl
      · rw [h] at hp; simp at hp
    have hn3 : near game e 3 = false := by
      unfold priority at hp
      rw [hn2] at hp
      cases h : near game e 3
      · rfl
      · rw [h] at hp; simp at hp
    have hne2 : fill game row col ≠ 2 := by
      intro hf
      have : touches game e 2 := ⟨row, col, hc, hb, hf⟩
      rw [← h2, hn2] at this
      cases this
    have hne3 : fill game row col ≠ 3 := by
      intro hf
      have : touches game e 3 := ⟨row, col, hc, hb, hf⟩
      rw [← h3, hn3] at this
      cases this
    have := hle row col hb
    rw [hafter row col hb]
    omega

/-- Witness of C13: the statement at the position `mixed_board`, which has undrawn edges of all
three kinds around its squares with three, two, one and no drawn edges. -/
theorem buckets_meaning_witness :
    WellFormed mixed_board ∧
    ∃ b, scan mixed_board (scan_order mixed_board.size) ⟨[], [], []⟩ = .ok b ∧
      b.edges_2 = [(1, 1, false), (0, 1, true)] ∧
      ∃ row col, valid_cell mixed_board.size row col ∧ (0, 1, true) ∈ borders row col ∧
        fill (mark mixed_board (0, 1, true) true) row col = 3 := by
  refine ⟨by decide, ?_⟩
  obtain ⟨b, hb, hall⟩ := buckets_meaning mixed_board (by decide)
  have hscan : scan mixed_board (scan_order mixed_board.size) ⟨[], [], []⟩ = .ok
      ⟨[], [(2, 0, false), (2, 1, false), (1, 0, true), (1, 1, true), (1, 2, true)],
        [(1, 1, false), (0, 1, true)]⟩ := by
    rfl
  have hbe : b = ⟨[], [(2, 0, false), (2, 1, false), (1, 0, true), (1, 1, true), (1, 2, true)],
      [(1, 1, false), (0, 1, true)]⟩ := by
    rw [hscan] at hb
    cases hb
    rfl
  refine ⟨b, hb, by rw [hbe], ?_⟩
  exact (hall (0, 1, true) (by decide) (by decide)).2.2.2.1 (by rw [hbe]; decide)

/-! ## The candidates a node examines: the maximizing loop -/

/-- One iteration of the list of examined scores of the maximizing loop. -/
theorem max_evals_cons (ops : BoardOps σ) (max_agent : Char) (beta : Int)
    (recur : Board σ → Int → Int → Bool → Rng → Except Fault (Outcome σ))
    (m : Move) (rest : List Move) (game : Board σ) (alpha : Int) (rng : Rng) :
    max_evals ops max_agent beta recur (m :: rest) game alpha rng =
      match recur (play ops game m max_agent) alpha beta (keeps_turn ops game m max_agent) rng with
      | .error _ => []
      | .ok out =>
        if beta ≤ max alpha out.1.2.2.2 then [out.1.2.2.2]
        else out.1.2.2.2 :: max_evals ops max_agent beta recur rest
          (ops.remove_move out.2.1 m.1 m.2.1 m.2.2) (max alpha out.1.2.2.2) out.2.2 := by
  obtain ⟨row, col, vertical⟩ := m
  simp only [max_evals, play, keeps_turn]
  by_cases h : ops.get_score game max_agent <
      ops.get_score (ops.add_move game row col vertical max_agent) max_agent
  · simp only [h, if_true, decide_True]
    cases recur (ops.add_move game row col vertical max_agent) alpha beta true rng <;> rfl
  · simp only [h, if_false, decide_False]
    cases recur (ops.add_move game row col vertical max_agent) alpha beta false rng <;> rfl

/-- What the maximizing loop returns, in terms of the scores it examined: the returned score is
at least every examined score, and the returned tuple is either the initial one, no examined
score being above its score, or the first examined candidate with the returned score, which
is above the initial score. -/
theorem max_loop_examined (ops : BoardOps σ) (max_agent : Char) (beta : Int)
    (recur : Board σ → Int → Int → Bool → Rng → Except Fault (Outcome σ)) :
    ∀ (moves : List Move) (max_move : Scored) (game : Board σ) (alpha : Int) (rng : Rng)
      (out : Outcome σ),
      max_loop ops max_agent beta recur moves max_move game alpha rng = .ok out →
      (∀ e ∈ max_evals ops max_agent beta recur moves game alpha rng, e ≤ out.1.2.2.2) ∧
      ((out.1 = max_move ∧
          ∀ e ∈ max_evals ops max_agent beta recur moves game alpha rng, e ≤ max_move.2.2.2) ∨
        ∃ (i : Nat) (m : Move), moves[i]? = some m ∧
          (max_evals ops max_agent beta recur moves game alpha rng)[i]? = some out.1.2.2.2 ∧
          out.1 = (m.1, m.2.1, m.2.2, out.1.2.2.2) ∧ max_move.2.2.2 < out.1.2.2.2 ∧
          ∀ (j : Nat) (e : Int), j < i →
            (max_evals ops max_agent beta recur moves game alpha rng)[j]? = some e →
            e < out.1.2.2.2)
  | [], max_move, game, alpha, rng, out, h => by
    simp only [max_loop, pure, Except.pure, Except.ok.injEq] at h
    subst h
    simp [max_evals]
  | m :: rest, max_move, game, alpha, rng, out, h => by
    rw [max_loop_cons] at h
    rw [max_evals_cons]
    cases hr : recur (play ops game m max_agent) alpha beta (keeps_turn ops game m max_agent) rng with
    | error e => rw [hr] at h; cases h
    | ok res =>
      rw [hr] at h
      simp only at h ⊢
      by_cases hc : beta ≤ max alpha res.1.2.2.2
      · simp only [hc, if_true, Except.ok.injEq] at h ⊢
        subst h
        by_cases hgt : res.1.2.2.2 > max_move.2.2.2
        · rw [if_pos hgt]
          exact ⟨by simp, Or.inr ⟨0, m, by simp, by simp, rfl, hgt,
            fun j e hj => absurd hj (Nat.not_lt_zero j)⟩⟩
        · simp only [hgt, if_false, List.mem_singleton, forall_eq]
          have hle : res.1.2.2.2 ≤ max_move.2.2.2 := not_lt.1 hgt
          exact ⟨hle, Or.inl ⟨trivial, hle⟩⟩
      · simp only [hc, if_false] at h ⊢
        obtain ⟨ih1, ih2⟩ := max_loop_examined ops max_agent beta recur rest _ _ _ _ out h
        generalize max_evals ops max_agent beta recur rest
          (ops.remove_move res.2.1 m.1 m.2.1 m.2.2) (max alpha res.1.2.2.2) res.2.2 = evals
          at ih1 ih2 ⊢
        generalize res.1.2.2.2 = e at ih1 ih2 ⊢
        have hstep : ∀ (i : Nat) (m2 : Move), rest[i]? = some m2 →
            evals[i]? = some out.1.2.2.2 → out.1 = (m2.1, m2.2.1, m2.2.2, out.1.2.2.2) →
            max_move.2.2.2 < out.1.2.2.2 → e < out.1.2.2.2 →
            (∀ (j : Nat) (x : Int), j < i → evals[j]? = some x → x < out.1.2.2.2) →
            ∃ (i : Nat) (m0 : Move), (m :: rest)[i]? = some m0 ∧
              (e :: evals)[i]? = some out.1.2.2.2 ∧
              out.1 = (m0.1, m0.2.1, m0.2.2, out.1.2.2.2) ∧ max_move.2.2.2 < out.1.2.2.2 ∧
              ∀ (j : Nat) (x : Int), j < i → (e :: evals)[j]? = some x → x < out.1.2.2.2 := by
          intro i m2 hm2 he2 hout hlt hlt2 hbefore
          refine ⟨i + 1, m2, by simpa using hm2, by simpa using he2, hout, hlt, ?_⟩
          intro j x hj hx
          cases j with
          | zero =>
            simp only [List.getElem?_cons_zero, Option.some.injEq] at hx
            rw [← hx]; exact hlt2
          | succ j =>
            simp only [List.getElem?_cons_succ] at hx
            exact hbefore j x (by omega) hx
        by_cases hgt : e > max_move.2.2.2
        · simp only [hgt, if_true] at ih2
          rcases ih2 with ⟨heq, hall⟩ | ⟨i, m2, hm2, he2, hout, hlt, hbefore⟩
          · have hv : out.1.2.2.2 = e := by rw [heq]
            refine ⟨?_, Or.inr ⟨0, m, by simp, by simp [hv], by rw [hv]; exact heq, by rw [hv]; exact hgt,
              fun j x hj => absurd hj (Nat.not_lt_zero j)⟩⟩
            intro x hx
            rcases List.mem_cons.1 hx with hx | hx
            · rw [hx, hv]
            · exact ih1 x hx
          · have hlt2 : e < out.1.2.2.2 := hlt
            refine ⟨?_, Or.inr (hstep i m2 hm2 he2 hout (lt_trans hgt hlt2) hlt2 hbefore)⟩
            intro x hx
            rcases List.mem_cons.1 hx with hx | hx
            · rw [hx]; exact le_of_lt hlt2
            · exact ih1 x hx
        · simp only [hgt, if_false] at ih2
          have hle : e ≤ max_move.2.2.2 := not_lt.1 hgt
          rcases ih2 with ⟨heq, hall⟩ | ⟨i, m2, hm2, he2, hout, hlt, hbefore⟩
          · have hv : out.1.2.2.2 = max_move.2.2.2 := by rw [heq]
            refine ⟨?_, Or.inl ⟨heq, ?_⟩⟩
            · intro x hx
              rcases List.mem_cons.1 hx with hx | hx
              · rw [hx, hv]; exact hle
              · exact ih1 x hx
            · intro x hx
              rcases List.mem_cons.1 hx with hx | hx
              · rw [hx]; exact hle
              · exact hall x hx
          · have hlt2 : e < out.1.2.2.2 := lt_of_le_of_lt hle hlt
            refine ⟨?_, Or.inr (hstep i m2 hm2 he2 hout hlt hlt2 hbefore)⟩
            intro x hx
            rcases List.mem_cons.1 hx with hx | hx
            · rw [hx]; exact le_of_lt hlt2
            · exact ih1 x hx
/-- Where the maximizing loop stops: the examined candidates are a prefix of the candidates;
before the last examined candidate `beta <= alpha` did not hold; the loop leaves candidates
unexamined only when `beta <= alpha` holds after the last examined one, and then the result
is that of the loop over the examined candidates followed by any other candidates. -/
theorem max_loop_stops (ops : BoardOps σ) (max_agent : Char) (beta : Int)
    (recur : Board σ → Int → Int → Bool → Rng → Except Fault (Outcome σ)) :
    ∀ (moves : List Move) (max_move : Scored) (game : Board σ) (alpha : Int) (rng : Rng)
      (out : Outcome σ),
      max_loop ops max_agent beta recur moves max_move game alpha rng = .ok out →
      (max_evals ops max_agent beta recur moves game alpha rng).length ≤ moves.length ∧
      (moves ≠ [] → max_evals ops max_agent beta recur moves game alpha rng ≠ []) ∧
      (∀ k : Nat, k + 1 < (max_evals ops max_agent beta recur moves game alpha rng).length →
        ¬ beta ≤ ((max_evals ops max_agent beta recur moves game alpha rng).take
          (k + 1)).foldl max alpha) ∧
      ((max_evals ops max_agent beta recur moves game alpha rng).length < moves.length →
        beta ≤ (max_evals ops max_agent beta recur moves game alpha rng).foldl max alpha) ∧
      (max_evals ops max_agent beta recur moves game alpha rng ≠ [] →
        beta ≤ (max_evals ops max_agent beta recur moves game alpha rng).foldl max alpha →
        ∀ post : List Move, max_loop ops max_agent beta recur
          (moves.take (max_evals ops max_agent beta recur moves game alpha rng).length ++ post)
          max_move game alpha rng = .ok out) ∧
      max_loop ops max_agent beta recur
        (moves.take (max_evals ops max_agent beta recur moves game alpha rng).length)
        max_move game alpha rng = .ok out
  | [], max_move, game, alpha, rng, out, h => by
    simp only [max_evals, List.length_nil, le_refl, ne_eq, not_true_eq_false, false_implies,
      List.take_nil, true_and, Nat.not_lt_zero, lt_self_iff_false, implies_true,
      List.nil_append]
    exact h
  | m :: rest, max_move, game, alpha, rng, out, h => by
    have h0 := h
    rw [max_loop_cons] at h
    rw [max_evals_cons]
    cases hr : recur (play ops game m max_agent) alpha beta (keeps_turn ops game m max_agent) rng with
    | error e => rw [hr] at h; cases h
    | ok res =>
      rw [hr] at h
      simp only at h ⊢
      by_cases hc : beta ≤ max alpha res.1.2.2.2
      · simp only [hc, if_true] at h ⊢
        have hone : ∀ post : List Move, max_loop ops max_agent beta recur (m :: post) max_move
            game alpha rng = .ok out := by
          intro post
          rw [max_loop_cons, hr]
          simp only [hc, if_true]
          exact h
        refine ⟨by simp, by simp, fun k hk => ?_, fun _ => by simpa using hc,
          fun _ _ post => by simpa using hone post, by simpa using hone []⟩
        simp at hk
      · simp only [hc, if_false] at h ⊢
        obtain ⟨ih1, ih2, ih3, ih4, ih5, ih6⟩ :=
          max_loop_stops ops max_agent beta recur rest _ _ _ _ out h
        generalize max_evals ops max_agent beta recur rest
          (ops.remove_move res.2.1 m.1 m.2.1 m.2.2) (max alpha res.1.2.2.2) res.2.2 = evals
          at ih1 ih2 ih3 ih4 ih5 ih6 ⊢
        have hmore : ∀ tail : List Move,
            max_loop ops max_agent beta recur tail
              (if res.1.2.2.2 > max_move.2.2.2 then (m.1, m.2.1, m.2.2, res.1.2.2.2)
                else max_move)
              (ops.remove_move res.2.1 m.1 m.2.1 m.2.2) (max alpha res.1.2.2.2) res.2.2 =
              .ok out →
            max_loop ops max_agent beta recur (m :: tail) max_move game alpha rng = .ok out := by
          intro tail ht
          rw [max_loop_cons, hr]
          simp only [hc, if_false]
          exact ht
        refine ⟨by simpa using ih1, by simp, ?_, ?_, ?_, ?_⟩
        · intro k hk
          cases k with
          | zero => simpa using hc
          | succ k =>
            simp only [List.length_cons, Nat.add_lt_add_iff_right] at hk
            simpa [List.take_succ_cons] using ih3 k hk
        · intro hlt
          simp only [List.length_cons, Nat.add_lt_add_iff_right] at hlt
          simpa using ih4 hlt
        · intro _ hb post
          simp only [List.foldl_cons] at hb
          have hne : evals ≠ [] := by
            intro he
            rw [he] at hb
            exact hc hb
          simpa using hmore _ (ih5 hne hb post)
        · simpa using hmore _ ih6
/-! ## The candidates a node examines: the minimizing loop -/

/-- One iteration of the list of examined scores of the minimizing loop. -/
theorem min_evals_cons (ops : BoardOps σ) (min_agent : Char) (alpha : Int)
    (recur : Board σ → Int → Int → Bool → Rng → Except Fault (Outcome σ))
    (m : Move) (rest : List Move) (game : Board σ) (beta : Int) (rng : Rng) :
    min_evals ops min_agent alpha recur (m :: rest) game beta rng =
      match recur (play ops game m min_agent) alpha beta (!keeps_turn ops game m min_agent) rng with
      | .error _ => []
      | .ok out =>
        if min beta out.1.2.2.2 ≤ alpha then [out.1.2.2.2]
        else out.1.2.2.2 :: min_evals ops min_agent alpha recur rest
          (ops.remove_move out.2.1 m.1 m.2.1 m.2.2) (min beta out.1.2.2.2) out.2.2 := by
  obtain ⟨row, col, vertical⟩ := m
  simp only [min_evals, play, keeps_turn]
  by_cases h : ops.get_score game min_agent <
      ops.get_score (ops.add_move game row col vertical min_agent) min_agent
  · simp only [h, if_true, decide_True, Bool.not_true]
    cases recur (ops.add_move game row col vertical min_agent) alpha beta false rng <;> rfl
  · simp only [h, if_false, decide_False, Bool.not_false]
    cases recur (ops.add_move game row col vertical min_agent) alpha beta true rng <;> rfl

/-- What the minimizing loop returns, in terms of the scores it examined: the returned score is
at most every examined score, and the returned tuple is either the initial one, no examined
score being below its score, or the first examined candidate with the returned score, which
is below the initial score. -/
theorem min_loop_examined (ops : BoardOps σ) (min_agent : Char) (alpha : Int)
    (recur : Board σ → Int → Int → Bool → Rng → Except Fault (Outcome σ)) :
    ∀ (moves : List Move) (min_move : Scored) (game : Board σ) (beta : Int) (rng : Rng)
      (out : Outcome σ),
      min_loop ops min_agent alpha recur moves min_move game beta rng = .ok out →
      (∀ e ∈ min_evals ops min_agent alpha recur moves game beta rng, out.1.2.2.2 ≤ e) ∧
      ((out.1 = min_move ∧
          ∀ e ∈ min_evals ops min_agent alpha recur moves game beta rng, min_move.2.2.2 ≤ e) ∨
        ∃ (i : Nat) (m : Move), moves[i]? = some m ∧
          (min_evals ops min_agent alpha recur moves game beta rng)[i]? = some out.1.2.2.2 ∧
          out.1 = (m.1, m.2.1, m.2.2, out.1.2.2.2) ∧ out.1.2.2.2 < min_move.2.2.2 ∧
          ∀ (j : Nat) (e : Int), j < i →
            (min_evals ops min_agent alpha recur moves game beta rng)[j]? = some e →
            out.1.2.2.2 < e)
  | [], min_move, game, beta, rng, out, h => by
    simp only [min_loop, pure, Except.pure, Except.ok.injEq] at h
    subst h
    simp [min_evals]
  | m :: rest, min_move, game, beta, rng, out, h => by
    rw [min_loop_cons] at h
    rw [min_evals_cons]
    cases hr : recur (play ops game m min_agent) alpha beta (!keeps_turn ops game m min_agent)
        rng with
    | error e => rw [hr] at h; cases h
    | ok res =>
      rw [hr] at h
      simp only at h ⊢
      by_cases hc : min beta res.1.2.2.2 ≤ alpha
      · simp only [hc, if_true, Except.ok.injEq] at h ⊢
        subst h
        by_cases hgt : res.1.2.2.2 < min_move.2.2.2
        · rw [if_pos hgt]
          exact ⟨by simp, Or.inr ⟨0, m, by simp, by simp, rfl, hgt,
            fun j e hj => absurd hj (Nat.not_lt_zero j)⟩⟩
        · simp only [hgt, if_false, List.mem_singleton, forall_eq]
          have hle : min_move.2.2.2 ≤ res.1.2.2.2 := not_lt.1 hgt
          exact ⟨hle, Or.inl ⟨trivial, hle⟩⟩
      · simp only [hc, if_false] at h ⊢
        obtain ⟨ih1, ih2⟩ := min_loop_examined ops min_agent alpha recur rest _ _ _ _ out h
        generalize min_evals ops min_agent alpha recur rest
          (ops.remove_move res.2.1 m.1 m.2.1 m.2.2) (min beta res.1.2.2.2) res.2.2 = evals
          at ih1 ih2 ⊢
        generalize res.1.2.2.2 = e at ih1 ih2 ⊢
        have hstep : ∀ (i : Nat) (m2 : Move), rest[i]? = some m2 →
            evals[i]? = some out.1.2.2.2 → out.1 = (m2.1, m2.2.1, m2.2.2, out.1.2.2.2) →
            out.1.2.2.2 < min_move.2.2.2 → out.1.2.2.2 < e →
            (∀ (j : Nat) (x : Int), j < i → evals[j]? = some x → out.1.2.2.2 < x) →
            ∃ (i : Nat) (m0 : Move), (m :: rest)[i]? = some m0 ∧
              (e :: evals)[i]? = some out.1.2.2.2 ∧
              out.1 = (m0.1, m0.2.1, m0.2.2, out.1.2.2.2) ∧ out.1.2.2.2 < min_move.2.2.2 ∧
              ∀ (j : Nat) (x : Int), j < i → (e :: evals)[j]? = some x → out.1.2.2.2 < x := by
          intro i m2 hm2 he2 hout hlt hlt2 hbefore
          refine ⟨i + 1, m2, by simpa using hm2, by simpa using he2, hout, hlt, ?_⟩
          intro j x hj hx
          cases j with
          | zero =>
            simp only [List.getElem?_cons_zero, Option.some.injEq] at hx
            rw [← hx]; exact hlt2
          | succ j =>
            simp only [List.getElem?_cons_succ] at hx
            exact hbefore j x (by omega) hx
        by_cases hgt : e < min_move.2.2.2
        · simp only [hgt, if_true] at ih2
          rcases ih2 with ⟨heq, hall⟩ | ⟨i, m2, hm2, he2, hout, hlt, hbefore⟩
          · have hv : out.1.2.2.2 = e := by rw [heq]
            refine ⟨?_, Or.inr ⟨0, m, by simp, by simp [hv], by rw [hv]; exact heq,
              by rw [hv]; exact hgt, fun j x hj => absurd hj (Nat.not_lt_zero j)⟩⟩
            intro x hx
            rcases List.mem_cons.1 hx with hx | hx
            · rw [hx, hv]
            · exact ih1 x hx
          · have hlt2 : out.1.2.2.2 < e := hlt
            refine ⟨?_, Or.inr (hstep i m2 hm2 he2 hout (lt_trans hlt2 hgt) hlt2 hbefore)⟩
            intro x hx
            rcases List.mem_cons.1 hx with hx | hx
            · rw [hx]; exact le_of_lt hlt2
            · exact ih1 x hx
        · simp only [hgt, if_false] at ih2
          have hle : min_move.2.2.2 ≤ e := not_lt.1 hgt
          rcases ih2 with ⟨heq, hall⟩ | ⟨i, m2, hm2, he2, hout, hlt, hbefore⟩
          · have hv : out.1.2.2.2 = min_move.2.2.2 := by rw [heq]
            refine ⟨?_, Or.inl ⟨heq, ?_⟩⟩
            · intro x hx
              rcases List.mem_cons.1 hx with hx | hx
              · rw [hx, hv]; exact hle
              · exact ih1 x hx
            · intro x hx
              rcases List.mem_cons.1 hx with hx | hx
              · rw [hx]; exact hle
              · exact hall x hx
          · have hlt2 : out.1.2.2.2 < e := lt_of_lt_of_le hlt hle
            refine ⟨?_, Or.inr (hstep i m2 hm2 he2 hout hlt hlt2 hbefore)⟩
            intro x hx
            rcases List.mem_cons.1 hx with hx | hx
            · rw [hx]; exact le_of_lt hlt2
            · exact ih1 x hx
/-- Where the minimizing loop stops: the examined candidates are a prefix of the candidates;
before the last examined candidate `beta <= alpha` did not hold; the loop leaves candidates
unexamined only when `beta <= alpha` holds after the last examined one, and then the result
is that of the loop over the examined candidates followed by any other candidates. -/
theorem min_loop_stops (ops : BoardOps σ) (min_agent : Char) (alpha : Int)
    (recur : Board σ → Int → Int → Bool → Rng → Except Fault (Outcome σ)) :
    ∀ (moves : List Move) (min_move : Scored) (game : Board σ) (beta : Int) (rng : Rng)
      (out : Outcome σ),
      min_loop ops min_agent alpha recur moves min_move game beta rng = .ok out →
      (min_evals ops min_agent alpha recur moves game beta rng).length ≤ moves.length ∧
      (moves ≠ [] → min_evals ops min_agent alpha recur moves game beta rng ≠ []) ∧
      (∀ k : Nat, k + 1 < (min_evals ops min_agent alpha recur moves game beta rng).length →
        ¬ ((min_evals ops min_agent alpha recur moves game beta rng).take
          (k + 1)).foldl min beta ≤ alpha) ∧
      ((min_evals ops min_agent alpha recur moves game beta rng).length < moves.length →
        (min_evals ops min_agent alpha recur moves game beta rng).foldl min beta ≤ alpha) ∧
      (min_evals ops min_agent alpha recur moves game beta rng ≠ [] →
        (min_evals ops min_agent alpha recur moves game beta rng).foldl min beta ≤ alpha →
        ∀ post : List Move, min_loop ops min_agent alpha recur
          (moves.take (min_evals ops min_agent alpha recur moves game beta rng).length ++ post)
          min_move game beta rng = .ok out) ∧
      min_loop ops min_agent alpha recur
        (moves.take (min_evals ops min_agent alpha recur moves game beta rng).length)
        min_move game beta rng = .ok out
  | [], min_move, game, beta, rng, out, h => by
    simp only [min_evals, List.length_nil, le_refl, ne_eq, not_true_eq_false, false_implies,
      List.take_nil, true_and, Nat.not_lt_zero, lt_self_iff_false, implies_true,
      List.nil_append]
    exact h
  | m :: rest, min_move, game, beta, rng, out, h => by
    have h0 := h
    rw [min_loop_cons] at h
    rw [min_evals_cons]
    cases hr : recur (play ops game m min_agent) alpha beta (!keeps_turn ops game m min_agent)
        rng with
    | error e => rw [hr] at h; cases h
    | ok res =>
      rw [hr] at h
      simp only at h ⊢
      by_cases hc : min beta res.1.2.2.2 ≤ alpha
      · simp only [hc, if_true] at h ⊢
        have hone : ∀ post : List Move, min_loop ops min_agent alpha recur (m :: post) min_move
            game beta rng = .ok out := by
          intro post
          rw [min_loop_cons, hr]
          simp only [hc, if_true]
          exact h
        refine ⟨by simp, by simp, fun k hk => ?_, fun _ => by simpa using hc,
          fun _ _ post => by simpa using hone post, by simpa using hone []⟩
        simp at hk
      · simp only [hc, if_false] at h ⊢
        obtain ⟨ih1, ih2, ih3, ih4, ih5, ih6⟩ :=
          min_loop_stops ops min_agent alpha recur rest _ _ _ _ out h
        generalize min_evals ops min_agent alpha recur rest
          (ops.remove_move res.2.1 m.1 m.2.1 m.2.2) (min beta res.1.2.2.2) res.2.2 = evals
          at ih1 ih2 ih3 ih4 ih5 ih6 ⊢
        have hmore : ∀ tail : List Move,
            min_loop ops min_agent alpha recur tail
              (if res.1.2.2.2 < min_move.2.2.2 then (m.1, m.2.1, m.2.2, res.1.2.2.2)
                else min_move)
              (ops.remove_move res.2.1 m.1 m.2.1 m.2.2) (min beta res.1.2.2.2) res.2.2 =
              .ok out →
            min_loop ops min_agent alpha recur (m :: tail) min_move game beta rng = .ok out := by
          intro tail ht
          rw [min_loop_cons, hr]
          simp only [hc, if_false]
          exact ht
        refine ⟨by simpa using ih1, by simp, ?_, ?_, ?_, ?_⟩
        · intro k hk
          cases k with
          | zero => simpa using hc
          | succ k =>
            simp only [List.length_cons, Nat.add_lt_add_iff_right] at hk
            simpa [List.take_succ_cons] using ih3 k hk
        · intro hlt
          simp only [List.length_cons, Nat.add_lt_add_iff_right] at hlt
          simpa using ih4 hlt
        · intro _ hb post
          simp only [List.foldl_cons] at hb
          have hne : evals ≠ [] := by
            intro he
            rw [he] at hb
            exact hc hb
          simpa using hmore _ (ih5 hne hb post)
        · simpa using hmore _ ih6

/-! ## The candidates a node examines: `minimax` -/

/-- Below a leaf the maximizing call enumerates the candidates, runs its loop over them from
the initial tuple, and returns what the loop returns. -/
theorem minimax_max_node {ops : BoardOps σ} {Inv : Board σ → Prop} (hrev : Reversible ops Inv)
    (max_agent min_agent : Char) {game : Board σ} (hinv : Inv game) (fuel : Nat) {depth : Int}
    (hd : 0 < depth) (hfuel : depth ≤ fuel) (hfin : ops.finished game = false)
    (alpha beta : Int) (rng : Rng) :
    ∃ moves rng2 result rng3, allowed_moves game rng = .ok (moves, rng2) ∧
      moves.Perm (undrawn_edges game) ∧
      minimax ops (fuel + 1) game depth alpha beta true max_agent min_agent rng =
        .ok (result, game, rng3) ∧
      max_loop ops max_agent beta
        (fun g a b mx r => minimax ops fuel g (depth - 1) a b mx max_agent min_agent r)
        moves (0, 0, false, -1000) game alpha rng2 = .ok (result, game, rng3) := by
  obtain ⟨moves, rng2, hc, hp⟩ := allowed_moves_perm (hrev.well_formed game hinv) rng
  obtain ⟨out, h⟩ := minimax_total hrev max_agent min_agent (fuel + 1) game depth alpha beta true
    rng hinv (le_of_lt hd) (by push_cast; omega)
  have hframe := minimax_frame hrev max_agent min_agent (fuel + 1) game depth alpha beta true rng
    out hinv h
  obtain ⟨result, g, rng3⟩ := out
  simp only at hframe
  subst hframe
  refine ⟨moves, rng2, result, rng3, hc, hp, h, ?_⟩
  rw [minimax_node ops fuel g depth alpha beta true max_agent min_agent rng (ne_of_gt hd) hfin,
    hc] at h
  exact h

/-- Below a leaf the minimizing call enumerates the candidates, runs its loop over them from
the initial tuple, and returns what the loop returns. -/
theorem minimax_min_node {ops : BoardOps σ} {Inv : Board σ → Prop} (hrev : Reversible ops Inv)
    (max_agent min_agent : Char) {game : Board σ} (hinv : Inv game) (fuel : Nat) {depth : Int}
    (hd : 0 < depth) (hfuel : depth ≤ fuel) (hfin : ops.finished game = false)
    (alpha beta : Int) (rng : Rng) :
    ∃ moves rng2 result rng3, allowed_moves game rng = .ok (moves, rng2) ∧
      moves.Perm (undrawn_edges game) ∧
      minimax ops (fuel + 1) game depth alpha beta false max_agent min_agent rng =
        .ok (result, game, rng3) ∧
      min_loop ops min_agent alpha
        (fun g a b mx r => minimax ops fuel g (depth - 1) a b mx max_agent min_agent r)
        moves (0, 0, false, 1000) game beta rng2 = .ok (result, game, rng3) := by
  obtain ⟨moves, rng2, hc, hp⟩ := allowed_moves_perm (hrev.well_formed game hinv) rng
  obtain ⟨out, h⟩ := minimax_total hrev max_agent min_agent (fuel + 1) game depth alpha beta false
    rng hinv (le_of_lt hd) (by push_cast; omega)
  have hframe := minimax_frame hrev max_agent min_agent (fuel + 1) game depth alpha beta false rng
    out hinv h
  obtain ⟨result, g, rng3⟩ := out
  simp only at hframe
  subst hframe
  refine ⟨moves, rng2, result, rng3, hc, hp, h, ?_⟩
  rw [minimax_node ops fuel g depth alpha beta false max_agent min_agent rng (ne_of_gt hd) hfin,
    hc] at h
  exact h

/-- C14: on a position that is not finished and whose score differentials lie strictly between
the sentinels, with a depth above 0: the maximizing call returns a score that is the largest
of the scores of the candidates it examined, and its move is the first examined candidate, in
the order of `allowed_moves`, with that score (every candidate examined before it has a
strictly smaller score, so a later candidate with an equal score did not replace it); the
minimizing call returns the smallest examined score and the first examined candidate with
it. -/
theorem minimax_keeps_earliest (ops : BoardOps σ) (Inv : Board σ → Prop)
    (hrev : Reversible ops Inv) (hplay : Playable ops Inv) (max_agent min_agent : Char)
    (hbound : Bounded ops Inv max_agent min_agent) (game : Board σ) (hinv : Inv game)
    (fuel : Nat) (depth : Int) (hd : 0 < depth) (hfuel : depth ≤ fuel)
    (hfin : ops.finished game = false) (alpha beta : Int) (rng : Rng) :
    ∃ moves rng2, allowed_moves game rng = .ok (moves, rng2) ∧
      (∃ result rng3 evals,
        minimax ops (fuel + 1) game depth alpha beta true max_agent min_agent rng =
          .ok (result, game, rng3) ∧
        evals = max_evals ops max_agent beta
          (fun g a b mx r => minimax ops fuel g (depth - 1) a b mx max_agent min_agent r)
          moves game alpha rng2 ∧
        evals.length ≤ moves.length ∧
        (∀ e ∈ evals, e ≤ result.score) ∧
        ∃ i : Nat, moves[i]? = some result.move ∧ evals[i]? = some result.score ∧
          ∀ (j : Nat) (e : Int), j < i → evals[j]? = some e → e < result.score) ∧
      (∃ result rng3 evals,
        minimax ops (fuel + 1) game depth alpha beta false max_agent min_agent rng =
          .ok (result, game, rng3) ∧
        evals = min_evals ops min_agent alpha
          (fun g a b mx r => minimax ops fuel g (depth - 1) a b mx max_agent min_agent r)
          moves game beta rng2 ∧
        evals.length ≤ moves.length ∧
        (∀ e ∈ evals, result.score ≤ e) ∧
        ∃ i : Nat, moves[i]? = some result.move ∧ evals[i]? = some result.score ∧
          ∀ (j : Nat) (e : Int), j < i → evals[j]? = some e → result.score < e) := by
  obtain ⟨moves, rng2, result, rng3, hc, _, h, hloop⟩ :=
    minimax_max_node hrev max_agent min_agent hinv fuel hd hfuel hfin alpha beta rng
  obtain ⟨moves2, rng4, result2, rng5, hc2, _, h2, hloop2⟩ :=
    minimax_min_node hrev max_agent min_agent hinv fuel hd hfuel hfin alpha beta rng
  rw [hc] at hc2
  cases hc2
  refine ⟨moves, rng2, hc, ⟨result, rng3, _, h, rfl, ?_⟩, ⟨result2, rng5, _, h2, rfl, ?_⟩⟩
  · have hr := (minimax_range hrev hplay hbound (fuel + 1) game depth alpha beta true rng _ hinv
      h).1
    obtain ⟨hall, halt⟩ := max_loop_examined ops max_agent beta _ moves _ game alpha rng2 _ hloop
    refine ⟨(max_loop_stops ops max_agent beta _ moves _ game alpha rng2 _ hloop).1, hall, ?_⟩
    rcases halt with ⟨heq, _⟩ | ⟨i, m, hm, he, hout, _, hbefore⟩
    · exfalso
      simp only [Scored.score] at hr heq
      rw [heq] at hr
      dsimp only at hr
      omega
    · refine ⟨i, ?_, he, hbefore⟩
      rw [hm]
      simp only at hout
      rw [hout]
      rfl
  · have hr := (minimax_range hrev hplay hbound (fuel + 1) game depth alpha beta false rng _ hinv
      h2).1
    obtain ⟨hall, halt⟩ := min_loop_examined ops min_agent alpha _ moves _ game beta rng2 _ hloop2
    refine ⟨(min_loop_stops ops min_agent alpha _ moves _ game beta rng2 _ hloop2).1, hall, ?_⟩
    rcases halt with ⟨heq, _⟩ | ⟨i, m, hm, he, hout, _, hbefore⟩
    · exfalso
      simp only [Scored.score] at hr heq
      rw [heq] at hr
      dsimp only at hr
      omega
    · refine ⟨i, ?_, he, hbefore⟩
      rw [hm]
      simp only at hout
      rw [hout]
      rfl

/-- Witness of C14: the sample 2 x 2 position at depth 2 with the window (-1000, 1000).  The
candidates h(2,1) and h(0,0) both evaluate to 2 and the other four to -1; the search returns
h(2,1), the earlier of the two. -/
theorem minimax_keeps_earliest_witness :
    std_inv 31 two_boxes_board ∧ std_ops.finished two_boxes_board = false ∧
    (allowed_moves two_boxes_board [5, 3, 8, 1]).toOption.map (fun r => (r.1,
      max_evals std_ops 'A' 1000
        (fun g a b mx r => minimax std_ops 2 g (2 - 1) a b mx 'A' 'B' r)
        r.1 two_boxes_board (-1000) r.2)) =
      some ([(2, 1, false), (0, 0, false), (0, 1, false), (0, 2, true), (2, 0, false),
        (1, 0, true)], [2, 2, -1, -1, -1, -1]) ∧
    (minimax std_ops 3 two_boxes_board 2 (-1000) 1000 true 'A' 'B' [5, 3, 8, 1]).toOption.map
      (fun out => out.1) = some (2, 1, false, 2) ∧
    ∃ moves rng2, allowed_moves two_boxes_board [5, 3, 8, 1] = .ok (moves, rng2) ∧
      ∃ result rng3 evals,
        minimax std_ops 3 two_boxes_board 2 (-1000) 1000 true 'A' 'B' [5, 3, 8, 1] =
          .ok (result, two_boxes_board, rng3) ∧
        evals = max_evals std_ops 'A' 1000
          (fun g a b mx r => minimax std_ops 2 g (2 - 1) a b mx 'A' 'B' r)
          moves two_boxes_board (-1000) rng2 ∧
        evals.length ≤ moves.length ∧
        (∀ e ∈ evals, e ≤ result.score) ∧
        ∃ i : Nat, moves[i]? = some result.move ∧ evals[i]? = some result.score ∧
          ∀ (j : Nat) (e : Int), j < i → evals[j]? = some e → e < result.score := by
  refine ⟨by decide, by decide, by decide, by decide, ?_⟩
  obtain ⟨moves, rng2, h, hmax, _⟩ :=
    minimax_keeps_earliest std_ops (std_inv 31) (std_reversible 31) (std_playable 31) 'A' 'B'
      (std_bounded 'A' 'B') two_boxes_board (by decide) 2 2 (by decide) (by decide) (by decide)
      (-1000) 1000 [5, 3, 8, 1]
  exact ⟨moves, rng2, h, hmax⟩

/-! ## The run of the loops, candidate by candidate -/

/-- The tuple the maximizing loop returns is the initial tuple updated, in order and with the
strict comparison, by the examined candidates and their scores. -/
theorem max_loop_fold (ops : BoardOps σ) (max_agent : Char) (beta : Int)
    (recur : Board σ → Int → Int → Bool → Rng → Except Fault (Outcome σ)) :
    ∀ (moves : List Move) (max_move : Scored) (game : Board σ) (alpha : Int) (rng : Rng)
      (out : Outcome σ),
      max_loop ops max_agent beta recur moves max_move game alpha rng = .ok out →
      out.1 = ((moves.take (max_evals ops max_agent beta recur moves game alpha rng).length).zip
        (max_evals ops max_agent beta recur moves game alpha rng)).foldl
        (fun (best : Scored) (p : Move × Int) =>
          if p.2 > best.2.2.2 then (p.1.1, p.1.2.1, p.1.2.2, p.2) else best) max_move
  | [], max_move, game, alpha, rng, out, h => by
    simp only [max_loop, pure, Except.pure, Except.ok.injEq] at h
    subst h
    simp [max_evals]
  | m :: rest, max_move, game, alpha, rng, out, h => by
    rw [max_loop_cons] at h
    rw [max_evals_cons]
    cases hr : recur (play ops game m max_agent) alpha beta (keeps_turn ops game m max_agent) rng with
    | error e => rw [hr] at h; cases h
    | ok res =>
      rw [hr] at h
      simp only at h ⊢
      by_cases hc : beta ≤ max alpha res.1.2.2.2
      · simp only [hc, if_true, Except.ok.injEq] at h ⊢
        subst h
        simp
      · simp only [hc, if_false] at h ⊢
        have ih := max_loop_fold ops max_agent beta recur rest _ _ _ _ out h
        rw [ih]
        simp

/-- The tuple the minimizing loop returns is the initial tuple updated, in order and with the
strict comparison, by the examined candidates and their scores. -/
theorem min_loop_fold (ops : BoardOps σ) (min_agent : Char) (alpha : Int)
    (recur : Board σ → Int → Int → Bool → Rng → Except Fault (Outcome σ)) :
    ∀ (moves : List Move) (min_move : Scored) (game : Board σ) (beta : Int) (rng : Rng)
      (out : Outcome σ),
      min_loop ops min_agent alpha recur moves min_move game beta rng = .ok out →
      out.1 = ((moves.take (min_evals ops min_agent alpha recur moves game beta rng).length).zip
        (min_evals ops min_agent alpha recur moves game beta rng)).foldl
        (fun (best : Scored) (p : Move × Int) =>
          if p.2 < best.2.2.2 then (p.1.1, p.1.2.1, p.1.2.2, p.2) else best) min_move
  | [], min_move, game, beta, rng, out, h => by
    simp only [min_loop, pure, Except.pure, Except.ok.injEq] at h
    subst h
    simp [min_evals]
  | m :: rest, min_move, game, beta, rng, out, h => by
    rw [min_loop_cons] at h
    rw [min_evals_cons]
    cases hr : recur (play ops game m min_agent) alpha beta (!keeps_turn ops game m min_agent)
        rng with
    | error e => rw [hr] at h; cases h
    | ok res =>
      rw [hr] at h
      simp only at h ⊢
      by_cases hc : min beta res.1.2.2.2 ≤ alpha
      · simp only [hc, if_true, Except.ok.injEq] at h ⊢
        subst h
        simp
      · simp only [hc, if_false] at h ⊢
        have ih := min_loop_fold ops min_agent alpha recur rest _ _ _ _ out h
        rw [ih]
        simp

/-- The maximizing loop reaches every examined candidate: its run over all candidates is its
run from candidate `k` on, in the state left by the candidates before it, and the recursive
call it makes there returns the `k`-th examined score. -/
theorem max_loop_reaches (ops : BoardOps σ) (max_agent : Char) (beta : Int)
    (recur : Board σ → Int → Int → Bool → Rng → Except Fault (Outcome σ))
    (game : Board σ) (all : List Move)
    (hundo : ∀ m ∈ all, ops.remove_move (play ops game m max_agent) m.1 m.2.1 m.2.2 = game)
    (hframe : ∀ m ∈ all, ∀ a mx r out,
      recur (play ops game m max_agent) a beta mx r = .ok out →
      out.2.1 = play ops game m max_agent) :
    ∀ (moves : List Move) (max_move : Scored) (alpha : Int) (rng : Rng) (k : Nat),
      (∀ m ∈ moves, m ∈ all) →
      k < (max_evals ops max_agent beta recur moves game alpha rng).length →
      ∃ (m : Move) (best : Scored) (rng1 : Rng) (res : Outcome σ),
        moves[k]? = some m ∧
        max_loop ops max_agent beta recur moves max_move game alpha rng =
          max_loop ops max_agent beta recur (m :: moves.drop (k + 1)) best game
            (((max_evals ops max_agent beta recur moves game alpha rng).take k).foldl max alpha)
            rng1 ∧
        recur (play ops game m max_agent)
          (((max_evals ops max_agent beta recur moves game alpha rng).take k).foldl max alpha)
          beta (keeps_turn ops game m max_agent) rng1 = .ok res ∧
        (max_evals ops max_agent beta recur moves game alpha rng)[k]? = some res.1.2.2.2
  | [], max_move, alpha, rng, k, _, hk => by
    simp [max_evals] at hk
  | m :: rest, max_move, alpha, rng, k, hsub, hk => by
    have hm := hsub m (List.mem_cons_self _ _)
    rw [max_evals_cons] at hk ⊢
    cases hr : recur (play ops game m max_agent) alpha beta (keeps_turn ops game m max_agent) rng with
    | error e => rw [hr] at hk; simp at hk
    | ok res =>
      rw [hr] at hk
      simp only at hk ⊢
      have hb := hframe m hm _ _ _ _ hr
      have hgame : ops.remove_move res.2.1 m.1 m.2.1 m.2.2 = game := by
        rw [hb]
        exact hundo m hm
      rw [hgame] at hk ⊢
      cases k with
      | zero =>
        refine ⟨m, max_move, rng, res, by simp, by simp, ?_, ?_⟩
        · simpa using hr
        · by_cases hc : beta ≤ max alpha res.1.2.2.2 <;> simp [hc]
      | succ k =>
        by_cases hc : beta ≤ max alpha res.1.2.2.2
        · simp [hc] at hk
        · simp only [hc, if_false, List.length_cons, Nat.add_lt_add_iff_right] at hk ⊢
          obtain ⟨m2, best, rng1, res2, h1, h2, h3, h4⟩ :=
            max_loop_reaches ops max_agent beta recur game all hundo hframe rest
              (if res.1.2.2.2 > max_move.2.2.2 then (m.1, m.2.1, m.2.2, res.1.2.2.2)
                else max_move)
              (max alpha res.1.2.2.2) res.2.2 k
              (fun x hx => hsub x (List.mem_cons_of_mem _ hx)) hk
          refine ⟨m2, best, rng1, res2, by simpa using h1, ?_, by simpa using h3,
            by simpa using h4⟩
          rw [max_loop_cons, hr]
          simp only [hc, if_false, hgame]
          simpa using h2

/-- The minimizing loop reaches every examined candidate; the counterpart of
`max_loop_reaches`. -/
theorem min_loop_reaches (ops : BoardOps σ) (min_agent : Char) (alpha : Int)
    (recur : Board σ → Int → Int → Bool → Rng → Except Fault (Outcome σ))
    (game : Board σ) (all : List Move)
    (hundo : ∀ m ∈ all, ops.remove_move (play ops game m min_agent) m.1 m.2.1 m.2.2 = game)
    (hframe : ∀ m ∈ all, ∀ b mx r out,
      recur (play ops game m min_agent) alpha b mx r = .ok out →
      out.2.1 = play ops game m min_agent) :
    ∀ (moves : List Move) (min_move : Scored) (beta : Int) (rng : Rng) (k : Nat),
      (∀ m ∈ moves, m ∈ all) →
      k < (min_evals ops min_agent alpha recur moves game beta rng).length →
      ∃ (m : Move) (best : Scored) (rng1 : Rng) (res : Outcome σ),
        moves[k]? = some m ∧
        min_loop ops min_agent alpha recur moves min_move game beta rng =
          min_loop ops min_agent alpha recur (m :: moves.drop (k + 1)) best game
            (((min_evals ops min_agent alpha recur moves game beta rng).take k).foldl min beta)
            rng1 ∧
        recur (play ops game m min_agent) alpha
          (((min_evals ops min_agent alpha recur moves game beta rng).take k).foldl min beta)
          (!keeps_turn ops game m min_agent) rng1 = .ok res ∧
        (min_evals ops min_agent alpha recur moves game beta rng)[k]? = some res.1.2.2.2
  | [], min_move, beta, rng, k, _, hk => by
    simp [min_evals] at hk
  | m :: rest, min_move, beta, rng, k, hsub, hk => by
    have hm := hsub m (List.mem_cons_self _ _)
    rw [min_evals_cons] at hk ⊢
    cases hr : recur (play ops game m min_agent) alpha beta (!keeps_turn ops game m min_agent)
        rng with
    | error e => rw [hr] at hk; simp at hk
    | ok res =>
      rw [hr] at hk
      simp only at hk ⊢
      have hb := hframe m hm _ _ _ _ hr
      have hgame : ops.remove_move res.2.1 m.1 m.2.1 m.2.2 = game := by
        rw [hb]
        exact hundo m hm
      rw [hgame] at hk ⊢
      cases k with
      | zero =>
        refine ⟨m, min_move, rng, res, by simp, by simp, ?_, ?_⟩
        · simpa using hr
        · by_cases hc : min beta res.1.2.2.2 ≤ alpha <;> simp [hc]
      | succ k =>
        by_cases hc : min beta res.1.2.2.2 ≤ alpha
        · simp [hc] at hk
        · simp only [hc, if_false, List.length_cons, Nat.add_lt_add_iff_right] at hk ⊢
          obtain ⟨m2, best, rng1, res2, h1, h2, h3, h4⟩ :=
            min_loop_reaches ops min_agent alpha recur game all hundo hframe rest
              (if res.1.2.2.2 < min_move.2.2.2 then (m.1, m.2.1, m.2.2, res.1.2.2.2)
                else min_move)
              (min beta res.1.2.2.2) res.2.2 k
              (fun x hx => hsub x (List.mem_cons_of_mem _ hx)) hk
          refine ⟨m2, best, rng1, res2, by simpa using h1, ?_, by simpa using h3,
            by simpa using h4⟩
          rw [min_loop_cons, hr]
          simp only [hc, if_false, hgame]
          simpa using h2

/-- A loop that leaves candidates unexamined only when the stopping condition holds of the
examined scores has examined every candidate when the condition held at none of them. -/
theorem all_examined {evals : List Int} {n : Nat} (stop : List Int → Prop)
    (hle : evals.length ≤ n) (hne : n ≠ 0 → evals ≠ []) (hshort : evals.length < n → stop evals)
    (hno : ∀ k : Nat, k < evals.length → ¬ stop (evals.take (k + 1))) : evals.length = n := by
  by_contra hneq
  have hlt := lt_of_le_of_ne hle hneq
  have hpos := List.length_pos.2 (hne (by omega))
  have hlast := hno (evals.length - 1) (by omega)
  rw [Nat.sub_add_cancel hpos, List.take_length] at hlast
  exact hlast (hshort hlt)

/-- C15: on a position that is not finished, with a depth above 0.  At the maximizing node the
candidates examined are a prefix of the candidates; `beta <= max(alpha, scores so far)` holds
after none of the examined candidates but possibly the last; candidates are left unexamined only
when it holds after the last examined one; when an examined candidate makes it hold, the call
returns what its loop returns over the examined candidates followed by any other candidates;
and when no examined candidate makes it hold, every candidate is examined.  The examined
candidates are those the loop of the call runs its body on: the returned tuple is the initial
tuple updated in order, with the strict comparison, by exactly the examined candidates and their
scores, and for every examined candidate the call is the run of its loop from that candidate
on, with `alpha` raised by the scores before it, where the recursive call on that candidate
returns its examined score.  The same holds at the minimizing node with
`min(beta, scores so far) <= alpha`. -/
theorem minimax_cutoff (ops : BoardOps σ) (Inv : Board σ → Prop) (hrev : Reversible ops Inv)
    (max_agent min_agent : Char) (game : Board σ) (hinv : Inv game)
    (fuel : Nat) (depth : Int) (hd : 0 < depth) (hfuel : depth ≤ fuel)
    (hfin : ops.finished game = false) (alpha beta : Int) (rng : Rng) :
    ∃ moves rng2, allowed_moves game rng = .ok (moves, rng2) ∧
      (∃ result rng3 evals,
        minimax ops (fuel + 1) game depth alpha beta true max_agent min_agent rng =
          .ok (result, game, rng3) ∧
        evals = max_evals ops max_agent beta
          (fun g a b mx r => minimax ops fuel g (depth - 1) a b mx max_agent min_agent r)
          moves game alpha rng2 ∧
        evals.length ≤ moves.length ∧
        (∀ k : Nat, k + 1 < evals.length → ¬ beta ≤ (evals.take (k + 1)).foldl max alpha) ∧
        (evals.length < moves.length → beta ≤ evals.foldl max alpha) ∧
        (evals ≠ [] → beta ≤ evals.foldl max alpha → ∀ post : List Move,
          max_loop ops max_agent beta
            (fun g a b mx r => minimax ops fuel g (depth - 1) a b mx max_agent min_agent r)
            (moves.take evals.length ++ post) (0, 0, false, -1000) game alpha rng2 =
            .ok (result, game, rng3)) ∧
        ((∀ k : Nat, k < evals.length → ¬ beta ≤ (evals.take (k + 1)).foldl max alpha) →
          evals.length = moves.length) ∧
        result = ((moves.take evals.length).zip evals).foldl
          (fun (best : Scored) (p : Move × Int) =>
            if p.2 > best.2.2.2 then (p.1.1, p.1.2.1, p.1.2.2, p.2) else best)
          (0, 0, false, -1000) ∧
        (∀ k : Nat, k < evals.length →
          ∃ (m : Move) (best : Scored) (rng4 : Rng) (res : Outcome σ),
            moves[k]? = some m ∧
            minimax ops (fuel + 1) game depth alpha beta true max_agent min_agent rng =
              max_loop ops max_agent beta
                (fun g a b mx r => minimax ops fuel g (depth - 1) a b mx max_agent min_agent r)
                (m :: moves.drop (k + 1)) best game ((evals.take k).foldl max alpha) rng4 ∧
            minimax ops fuel (play ops game m max_agent) (depth - 1)
              ((evals.take k).foldl max alpha) beta (keeps_turn ops game m max_agent)
              max_agent min_agent rng4 = .ok res ∧
            evals[k]? = some res.1.score)) ∧
      (∃ result rng3 evals,
        minimax ops (fuel + 1) game depth alpha beta false max_agent min_agent rng =
          .ok (result, game, rng3) ∧
        evals = min_evals ops min_agent alpha
          (fun g a b mx r => minimax ops fuel g (depth - 1) a b mx max_agent min_agent r)
          moves game beta rng2 ∧
        evals.length ≤ moves.length ∧
        (∀ k : Nat, k + 1 < evals.length → ¬ (evals.take (k + 1)).foldl min beta ≤ alpha) ∧
        (evals.length < moves.length → evals.foldl min beta ≤ alpha) ∧
        (evals ≠ [] → evals.foldl min beta ≤ alpha → ∀ post : List Move,
          min_loop ops min_agent alpha
            (fun g a b mx r => minimax ops fuel g (depth - 1) a b mx max_agent min_agent r)
            (moves.take evals.length ++ post) (0, 0, false, 1000) game beta rng2 =
            .ok (result, game, rng3)) ∧
        ((∀ k : Nat, k < evals.length → ¬ (evals.take (k + 1)).foldl min beta ≤ alpha) →
          evals.length = moves.length) ∧
        result = ((moves.take evals.length).zip evals).foldl
          (fun (best : Scored) (p : Move × Int) =>
            if p.2 < best.2.2.2 then (p.1.1, p.1.2.1, p.1.2.2, p.2) else best)
          (0, 0, false, 1000) ∧
        (∀ k : Nat, k < evals.length →
          ∃ (m : Move) (best : Scored) (rng4 : Rng) (res : Outcome σ),
            moves[k]? = some m ∧
            minimax ops (fuel + 1) game depth alpha beta false max_agent min_agent rng =
              min_loop ops min_agent alpha
                (fun g a b mx r => minimax ops fuel g (depth - 1) a b mx max_agent min_agent r)
                (m :: moves.drop (k + 1)) best game ((evals.take k).foldl min beta) rng4 ∧
            minimax ops fuel (play ops game m min_agent) (depth - 1) alpha
              ((evals.take k).foldl min beta) (!keeps_turn ops game m min_agent)
              max_agent min_agent rng4 = .ok res ∧
            evals[k]? = some res.1.score)) := by
  obtain ⟨moves, rng2, result, rng3, hc, hp, h, hloop⟩ :=
    minimax_max_node hrev max_agent min_agent hinv fuel hd hfuel hfin alpha beta rng
  obtain ⟨moves2, rng4, result2, rng5, hc2, _, h2, hloop2⟩ :=
    minimax_min_node hrev max_agent min_agent hinv fuel hd hfuel hfin alpha beta rng
  rw [hc] at hc2
  cases hc2
  have hlegal : ∀ m ∈ moves, m ∈ undrawn_edges game := fun m hm => hp.mem_iff.1 hm
  refine ⟨moves, rng2, hc, ⟨result, rng3, _, h, rfl, ?_⟩, ⟨result2, rng5, _, h2, rfl, ?_⟩⟩
  · obtain ⟨s1, s2, s3, s4, s5, _⟩ :=
      max_loop_stops ops max_agent beta _ moves _ game alpha rng2 _ hloop
    refine ⟨s1, s3, s4, s5, ?_, ?_, ?_⟩
    · intro hno
      exact all_examined (fun l => beta ≤ l.foldl max alpha) s1
        (fun hn => s2 (fun he => hn (by rw [he]; rfl))) s4 hno
    · exact max_loop_fold ops max_agent beta _ moves _ game alpha rng2 _ hloop
    · intro k hk
      obtain ⟨m, best, rng6, res, r1, r2, r3, r4⟩ :=
        max_loop_reaches ops max_agent beta
          (fun g a b mx r => minimax ops fuel g (depth - 1) a b mx max_agent min_agent r)
          game moves
          (fun m hm => hrev.remove_add game m max_agent hinv (hlegal m hm))
          (fun m hm a mx r out ho => minimax_frame hrev max_agent min_agent fuel _ (depth - 1)
            a beta mx r out (hrev.add_keeps game m max_agent hinv (hlegal m hm)) ho)
          moves (0, 0, false, -1000) alpha rng2 k (fun m hm => hm) hk
      refine ⟨m, best, rng6, res, r1, ?_, r3, r4⟩
      rw [h, ← hloop]
      exact r2
  · obtain ⟨s1, s2, s3, s4, s5, _⟩ :=
      min_loop_stops ops min_agent alpha _ moves _ game beta rng2 _ hloop2
    refine ⟨s1, s3, s4, s5, ?_, ?_, ?_⟩
    · intro hno
      exact all_examined (fun l => l.foldl min beta ≤ alpha) s1
        (fun hn => s2 (fun he => hn (by rw [he]; rfl))) s4 hno
    · exact min_loop_fold ops min_agent alpha _ moves _ game beta rng2 _ hloop2
    · intro k hk
      obtain ⟨m, best, rng6, res, r1, r2, r3, r4⟩ :=
        min_loop_reaches ops min_agent alpha
          (fun g a b mx r => minimax ops fuel g (depth - 1) a b mx max_agent min_agent r)
          game moves
          (fun m hm => hrev.remove_add game m min_agent hinv (hlegal m hm))
          (fun m hm b mx r out ho => minimax_frame hrev max_agent min_agent fuel _ (depth - 1)
            alpha b mx r out (hrev.add_keeps game m min_agent hinv (hlegal m hm)) ho)
          moves (0, 0, false, 1000) beta rng2 k (fun m hm => hm) hk
      refine ⟨m, best, rng6, res, r1, ?_, r3, r4⟩
      rw [h2, ← hloop2]
      exact r2

/-- Witness of C15: the sample 2 x 2 position at depth 2.  With the window (-1000, 1) the first
candidate h(2,1) of the maximizing node evaluates to 2, which is not below `beta`, so only it
is examined, and the search returns it; with the window (-1, 1000) the first candidate of the
minimizing node evaluates to -2, which is not above `alpha`, so only it is examined, and the
search returns it. -/
theorem minimax_cutoff_witness :
    std_inv 31 two_boxes_board ∧ std_ops.finished two_boxes_board = false ∧
    (allowed_moves two_boxes_board [5, 3, 8, 1]).toOption.map (fun r => (r.1,
      max_evals std_ops 'A' 1
        (fun g a b mx r => minimax std_ops 2 g (2 - 1) a b mx 'A' 'B' r)
        r.1 two_boxes_board (-1000) r.2)) =
      some ([(2, 1, false), (0, 0, false), (0, 1, false), (0, 2, true), (2, 0, false),
        (1, 0, true)], [2]) ∧
    (minimax std_ops 3 two_boxes_board 2 (-1000) 1 true 'A' 'B' [5, 3, 8, 1]).toOption.map
      (fun out => out.1) = some (2, 1, false, 2) ∧
    (allowed_moves two_boxes_board [5, 3, 8, 1]).toOption.map (fun r =>
      min_evals std_ops 'B' (-1)
        (fun g a b mx r => minimax std_ops 2 g (2 - 1) a b mx 'A' 'B' r)
        r.1 two_boxes_board 1000 r.2) = some [-2] ∧
    (minimax std_ops 3 two_boxes_board 2 (-1) 1000 false 'A' 'B' [5, 3, 8, 1]).toOption.map
      (fun out => out.1) = some (2, 1, false, -2) ∧
    ∃ moves rng2, allowed_moves two_boxes_board [5, 3, 8, 1] = .ok (moves, rng2) ∧
      ∃ result rng3 evals,
        minimax std_ops 3 two_boxes_board 2 (-1000) 1 true 'A' 'B' [5, 3, 8, 1] =
          .ok (result, two_boxes_board, rng3) ∧
        evals = max_evals std_ops 'A' 1
          (fun g a b mx r => minimax std_ops 2 g (2 - 1) a b mx 'A' 'B' r)
          moves two_boxes_board (-1000) rng2 ∧
        evals.length ≤ moves.length ∧
        (evals.length < moves.length → (1 : Int) ≤ evals.foldl max (-1000)) ∧
        result = ((moves.take evals.length).zip evals).foldl
          (fun (best : Scored) (p : Move × Int) =>
            if p.2 > best.2.2.2 then (p.1.1, p.1.2.1, p.1.2.2, p.2) else best)
          (0, 0, false, -1000) := by
  refine ⟨by decide, by decide, by decide, by decide, by decide, by decide, ?_⟩
  obtain ⟨moves, rng2, h, ⟨result, rng3, evals, hm, he, hl, _, hs, _, _, hfold, _⟩, _⟩ :=
    minimax_cutoff std_ops (std_inv 31) (std_reversible 31) 'A' 'B' two_boxes_board (by decide)
      2 2 (by decide) (by decide) (by decide) (-1000) 1 [5, 3, 8, 1]
  exact ⟨moves, rng2, h, result, rng3, evals, hm, he, hl, hs, hfold⟩

/-! ## Index safety of the enumerator -/

/-- A read that returns a value was made inside the storage. -/
theorem read_inside {grid : List (List α)} {row col : Int} {x : α}
    (h : read grid row col = .ok x) :
    0 ≤ row ∧ 0 ≤ col ∧ ∃ cells, grid[row.toNat]? = some cells ∧ row.toNat < grid.length ∧
      col.toNat < cells.length := by
  unfold read at h
  split at h
  · rename_i h0
    split at h
    · cases h
    · rename_i cells hc
      split at h
      · cases h
      · rename_i y hy
        refine ⟨h0.1, h0.2, cells, hc, ?_, ?_⟩
        · by_contra hh
          rw [List.getElem?_eq_none_iff.2 (not_lt.1 hh)] at hc
          cases hc
        · by_contra hh
          rw [List.getElem?_eq_none_iff.2 (not_lt.1 hh)] at hy
          cases hy
  · cases h

/-- On a well-formed board `filled_edges` returns exactly for the valid squares: its reads of
the rows `row` and `row + 1` and of the columns `col` and `col + 1` are inside the arrays
exactly then. -/
theorem filled_edges_returns_iff {game : Board σ} (hw : WellFormed game) (row col : Int) :
    (∃ n, filled_edges game row col = .ok n) ↔ valid_cell game.size row col := by
  constructor
  · rintro ⟨n, h⟩
    obtain ⟨h0, hh, hhc, hv, hvc⟩ := hw
    simp only [filled_edges, bind, Except.bind] at h
    cases e1 : read game.horizontal_dashes row col with
    | error e => rw [e1] at h; cases h
    | ok a =>
      cases e2 : read game.vertical_dashes row col with
      | error e => rw [e1, e2] at h; cases h
      | ok b =>
        have r1 := read_in_range hh hhc e1
        have r2 := read_in_range hv hvc e2
        unfold valid_cell
        omega
  · intro hc
    exact ⟨_, filled_edges_ok hw hc⟩

/-- C16: on a well-formed board of size N >= 0 (`horizontal_dashes` of shape (N+1) x N,
`vertical_dashes` of shape N x (N+1)) no array access of `allowed_moves` leaves the arrays, so
the call returns.  Every edge visited by the scan is a valid edge and the read of its state is
in range; every square that `get_neighbours` lists for it, which is what `filled_edges` is
called with, is a valid square with 0 <= row < N and 0 <= col < N, and the four reads of
`filled_edges` there, among them horizontal(row+1, col) and vertical(row, col+1), are in
range.  `filled_edges` returns only for valid squares, and a read returns only inside the
storage. -/
theorem allowed_moves_in_range (game : Board σ) (hw : WellFormed game) (rng : Rng) :
    (∃ moves rng2, allowed_moves game rng = .ok (moves, rng2)) ∧
    (∀ m ∈ scan_order game.size,
      valid_edge game.size m ∧
      (if m.2.2 then read game.vertical_dashes m.1 m.2.1
        else read game.horizontal_dashes m.1 m.2.1) = .ok (drawn game m) ∧
      (∀ b, ∃ b2, visit game b m = .ok b2) ∧
      ∀ square ∈ get_neighbours game m.1 m.2.1 m.2.2,
        (0 ≤ square.1 ∧ square.1 < game.size ∧ 0 ≤ square.2 ∧ square.2 < game.size) ∧
        (∃ x, read game.horizontal_dashes square.1 square.2 = .ok x) ∧
        (∃ x, read game.vertical_dashes square.1 square.2 = .ok x) ∧
        (∃ x, read game.horizontal_dashes (square.1 + 1) square.2 = .ok x) ∧
        (∃ x, read game.vertical_dashes square.1 (square.2 + 1) = .ok x) ∧
        ∃ n, filled_edges game square.1 square.2 = .ok n) ∧
    (∀ row col, (∃ n, filled_edges game row col = .ok n) ↔ valid_cell game.size row col) ∧
    (∀ (grid : List (List Bool)) (row col : Int) (x : Bool), read grid row col = .ok x →
      0 ≤ row ∧ 0 ≤ col ∧ ∃ cells, grid[row.toNat]? = some cells ∧ row.toNat < grid.length ∧
        col.toNat < cells.length) := by
  refine ⟨?_, ?_, fun row col => filled_edges_returns_iff hw row col,
    fun grid row col x h => read_inside h⟩
  · obtain ⟨moves, rng2, h, _⟩ := allowed_moves_perm hw rng
    exact ⟨moves, rng2, h⟩
  · intro m hm
    have hv := (mem_scan_order game.size m).1 hm
    refine ⟨hv, read_edge_ok hw hv, fun b => ⟨_, visit_ok hw b hv⟩, ?_⟩
    intro square hs
    have hc := neighbours_valid game hv square hs
    obtain ⟨c1, c2, c3, c4⟩ := hc
    refine ⟨⟨c1, c2, c3, c4⟩, ⟨_, read_h_ok hw _ _ (by simp [valid_edge]; omega)⟩,
      ⟨_, read_v_ok hw _ _ (by simp [valid_edge]; omega)⟩,
      ⟨_, read_h_ok hw _ _ (by simp [valid_edge]; omega)⟩,
      ⟨_, read_v_ok hw _ _ (by simp [valid_edge]; omega)⟩,
      ⟨_, filled_edges_ok hw ⟨c1, c2, c3, c4⟩⟩⟩

/-- Witness of C16: the sample 2 x 2 position is well formed and the enumerator returns on it,
while `filled_edges` at the square coordinates (2, 0), outside the board, leaves the array
`vertical_dashes`. -/
theorem allowed_moves_in_range_witness :
    WellFormed two_boxes_board ∧
    (∃ moves rng2, allowed_moves two_boxes_board [3, 1, 4] = .ok (moves, rng2)) ∧
    filled_edges two_boxes_board 2 0 = .error .out_of_range :=
  ⟨by decide, (allowed_moves_in_range two_boxes_board (by decide) [3, 1, 4]).1, by rfl⟩

/-! ## Termination and nesting -/

theorem bind_no_fuel_fault {x : Except Fault α} {f : α → Except Fault β}
    (hx : x ≠ .error .out_of_fuel) (hf : ∀ a, f a ≠ .error .out_of_fuel) :
    x.bind f ≠ .error .out_of_fuel := by
  cases x with
  | error e =>
    intro h
    simp only [Except.bind, Except.error.injEq] at h
    exact hx (by rw [h])
  | ok a => exact hf a

theorem read_no_fuel_fault (grid : List (List α)) (row col : Int) :
    read grid row col ≠ .error .out_of_fuel := by
  unfold read
  split
  · split
    · intro h; cases h
    · split
      · intro h; cases h
      · intro h; cases h
  · intro h; cases h

theorem filled_edges_no_fuel_fault (game : Board σ) (row col : Int) :
    filled_edges game row col ≠ .error .out_of_fuel := by
  simp only [filled_edges, bind, pure]
  refine bind_no_fuel_fault (read_no_fuel_fault _ _ _) fun a => ?_
  refine bind_no_fuel_fault (read_no_fuel_fault _ _ _) fun b => ?_
  refine bind_no_fuel_fault (read_no_fuel_fault _ _ _) fun c => ?_
  refine bind_no_fuel_fault (read_no_fuel_fault _ _ _) fun d => ?_
  intro h; cases h

theorem inspect_no_fuel_fault (game : Board σ) (m : Move) :
    ∀ (squares : List (Int × Int)) (st : List Move × Bool × Bool),
      inspect game m squares st ≠ .error .out_of_fuel
  | [], st => by
    simp only [inspect, pure, Except.pure]
    intro h; cases h
  | square :: rest, (edges_2, edge_2, edge_3) => by
    simp only [inspect, bind, pure]
    refine bind_no_fuel_fault (filled_edges_no_fuel_fault _ _ _) fun n => ?_
    split
    · intro h; cases h
    · refine bind_no_fuel_fault (filled_edges_no_fuel_fault _ _ _) fun n2 => ?_
      split
      · exact inspect_no_fuel_fault game m rest _
      · exact inspect_no_fuel_fault game m rest _

theorem visit_no_fuel_fault (game : Board σ) (b : Buckets) (m : Move) :
    visit game b m ≠ .error .out_of_fuel := by
  simp only [visit, bind, pure]
  have htail : ∀ filled : Bool,
      (if filled = true then Except.pure b
        else
          (inspect game m (get_neighbours game m.1 m.2.1 m.2.2) (b.edges_2, false, false)).bind
            fun r =>
              if (!r.2.1) = true then
                if r.2.2 = true then
                  Except.pure { b with edges_3 := b.edges_3 ++ [m], edges_2 := r.1 }
                else Except.pure { b with edges_0_1 := b.edges_0_1 ++ [m], edges_2 := r.1 }
              else Except.pure { b with edges_2 := r.1 }) ≠ .error .out_of_fuel := by
    intro filled
    split
    · intro h; cases h
    · refine bind_no_fuel_fault (inspect_no_fuel_fault _ _ _ _) fun r => ?_
      split <;> (try split) <;> (intro h; cases h)
  split
  · exact bind_no_fuel_fault (read_no_fuel_fault _ _ _) htail
  · exact bind_no_fuel_fault (read_no_fuel_fault _ _ _) htail

theorem scan_no_fuel_fault (game : Board σ) :
    ∀ (ms : List Move) (b : Buckets), scan game ms b ≠ .error .out_of_fuel
  | [], b => by
    simp only [scan, pure, Except.pure]
    intro h; cases h
  | m :: rest, b => by
    simp only [scan, bind]
    exact bind_no_fuel_fault (visit_no_fuel_fault _ _ _) fun b1 => scan_no_fuel_fault game rest b1

/-- The enumerator makes no nested call of the search: it never stops for lack of nesting
budget, whatever the board. -/
theorem allowed_moves_no_fuel_fault (game : Board σ) (rng : Rng) :
    allowed_moves game rng ≠ .error .out_of_fuel := by
  simp only [allowed_moves, bind, pure]
  refine bind_no_fuel_fault (scan_no_fuel_fault _ _ _) fun b => ?_
  intro h; cases h

theorem max_loop_no_fuel_fault (ops : BoardOps σ) (max_agent : Char) (beta : Int)
    (recur : Board σ → Int → Int → Bool → Rng → Except Fault (Outcome σ))
    (hrec : ∀ g a b mx r, recur g a b mx r ≠ .error .out_of_fuel) :
    ∀ (moves : List Move) (max_move : Scored) (game : Board σ) (alpha : Int) (rng : Rng),
      max_loop ops max_agent beta recur moves max_move game alpha rng ≠ .error .out_of_fuel
  | [], max_move, game, alpha, rng => by
    simp only [max_loop, pure, Except.pure]
    intro h; cases h
  | m :: rest, max_move, game, alpha, rng => by
    rw [max_loop_cons]
    cases hr : recur (play ops game m max_agent) alpha beta (keeps_turn ops game m max_agent) rng with
    | error e =>
      intro h
      simp only [Except.error.injEq] at h
      rw [h] at hr
      exact hrec _ _ _ _ _ hr
    | ok res =>
      simp only
      split
      · intro h; cases h
      · exact max_loop_no_fuel_fault ops max_agent beta recur hrec rest _ _ _ _

theorem min_loop_no_fuel_fault (ops : BoardOps σ) (min_agent : Char) (alpha : Int)
    (recur : Board σ → Int → Int → Bool → Rng → Except Fault (Outcome σ))
    (hrec : ∀ g a b mx r, recur g a b mx r ≠ .error .out_of_fuel) :
    ∀ (moves : List Move) (min_move : Scored) (game : Board σ) (beta : Int) (rng : Rng),
      min_loop ops min_agent alpha recur moves min_move game beta rng ≠ .error .out_of_fuel
  | [], min_move, game, beta, rng => by
    simp only [min_loop, pure, Except.pure]
    intro h; cases h
  | m :: rest, min_move, game, beta, rng => by
    rw [min_loop_cons]
    cases hr : recur (play ops game m min_agent) alpha beta (!keeps_turn ops game m min_agent)
        rng with
    | error e =>
      intro h
      simp only [Except.error.injEq] at h
      rw [h] at hr
      exact hrec _ _ _ _ _ hr
    | ok res =>
      simp only
      split
      · intro h; cases h
      · exact min_loop_no_fuel_fault ops min_agent alpha recur hrec rest _ _ _ _

/-- Whatever the board and its operations, a call with a depth of at least 0 and a nesting
budget above the depth does not exhaust the budget. -/
theorem minimax_no_fuel_fault (ops : BoardOps σ) (max_agent min_agent : Char) :
    ∀ (fuel : Nat) (game : Board σ) (depth alpha beta : Int) (maximize : Bool) (rng : Rng),
      0 ≤ depth → depth < fuel →
      minimax ops fuel game depth alpha beta maximize max_agent min_agent rng ≠
        .error .out_of_fuel
  | 0, _, depth, _, _, _, _, h0, h1 => by
    exfalso
    have : depth < 0 := by exact_mod_cast h1
    omega
  | fuel + 1, game, depth, alpha, beta, maximize, rng, h0, h1 => by
    by_cases hleaf : depth = 0 ∨ ops.finished game = true
    · rw [minimax_leaf_eq ops fuel game depth alpha beta maximize max_agent min_agent rng hleaf]
      intro h; cases h
    · obtain ⟨hd, hf⟩ := not_leaf hleaf
      rw [minimax_node ops fuel game depth alpha beta maximize max_agent min_agent rng hd hf]
      have hrec : ∀ g a b mx r,
          minimax ops fuel g (depth - 1) a b mx max_agent min_agent r ≠ .error .out_of_fuel :=
        fun g a b mx r => minimax_no_fuel_fault ops max_agent min_agent fuel g (depth - 1) a b mx r
          (by omega) (by push_cast at h1; omega)
      cases hc : allowed_moves game rng with
      | error e =>
        intro h
        simp only [Except.error.injEq] at h
        rw [h] at hc
        exact allowed_moves_no_fuel_fault game rng hc
      | ok cand =>
        simp only
        cases maximize
        · simp only [Bool.false_eq_true, if_false]
          exact min_loop_no_fuel_fault ops min_agent alpha _ hrec _ _ _ _ _
        · simp only [if_true]
          exact max_loop_no_fuel_fault ops max_agent beta _ hrec _ _ _ _ _

/-- The result of a call does not depend on the nesting budget once the budget is above the
depth. -/
theorem minimax_fuel_irrelevant (ops : BoardOps σ) (max_agent min_agent : Char) :
    ∀ (fuel1 fuel2 : Nat) (game : Board σ) (depth alpha beta : Int) (maximize : Bool) (rng : Rng),
      0 ≤ depth → depth < fuel1 → depth < fuel2 →
      minimax ops fuel1 game depth alpha beta maximize max_agent min_agent rng =
        minimax ops fuel2 game depth alpha beta maximize max_agent min_agent rng
  | 0, _, _, depth, _, _, _, _, h0, h1, _ => by
    exfalso
    have : depth < 0 := by exact_mod_cast h1
    omega
  | _ + 1, 0, _, depth, _, _, _, _, h0, _, h2 => by
    exfalso
    have : depth < 0 := by exact_mod_cast h2
    omega
  | fuel1 + 1, fuel2 + 1, game, depth, alpha, beta, maximize, rng, h0, h1, h2 => by
    by_cases hleaf : depth = 0 ∨ ops.finished game = true
    · rw [minimax_leaf_eq ops fuel1 game depth alpha beta maximize max_agent min_agent rng hleaf,
        minimax_leaf_eq ops fuel2 game depth alpha beta maximize max_agent min_agent rng hleaf]
    · obtain ⟨hd, hf⟩ := not_leaf hleaf
      rw [minimax_node ops fuel1 game depth alpha beta maximize max_agent min_agent rng hd hf,
        minimax_node ops fuel2 game depth alpha beta maximize max_agent min_agent rng hd hf]
      have hrec : (fun g a b mx r =>
            minimax ops fuel1 g (depth - 1) a b mx max_agent min_agent r) =
          (fun g a b mx r => minimax ops fuel2 g (depth - 1) a b mx max_agent min_agent r) := by
        funext g a b mx r
        exact minimax_fuel_irrelevant ops max_agent min_agent fuel1 fuel2 g (depth - 1) a b mx r
          (by omega) (by push_cast at h1; omega) (by push_cast at h2; omega)
      rw [hrec]

/-- C17: for every board, whatever its operations, and every depth d >= 0, `minimax` never
exhausts a nesting budget of d + 1 calls (the call itself and at most d nested levels, one
speculative move being applied per level), and any larger budget gives the same result; below a
leaf every recursive call, with the maximizing flag kept or flipped, is made with depth - 1, and
at depth 0 the call is a leaf; on the positions of a board whose `remove_move` reverses
`add_move` the call returns a result with that budget. -/
theorem minimax_terminates (ops : BoardOps σ) (game : Board σ) (depth : Int) (h0 : 0 ≤ depth)
    (alpha beta : Int) (maximize : Bool) (max_agent min_agent : Char) (rng : Rng) :
    minimax ops (depth.toNat + 1) game depth alpha beta maximize max_agent min_agent rng ≠
      .error .out_of_fuel ∧
    (∀ fuel : Nat, depth < fuel →
      minimax ops fuel game depth alpha beta maximize max_agent min_agent rng =
        minimax ops (depth.toNat + 1) game depth alpha beta maximize max_agent min_agent rng) ∧
    (depth ≠ 0 → ops.finished game = false → ∀ fuel : Nat,
      minimax ops (fuel + 1) game depth alpha beta maximize max_agent min_agent rng =
        match allowed_moves game rng with
        | .error e => .error e
        | .ok cand =>
          if maximize then
            max_loop ops max_agent beta
              (fun g a b mx r => minimax ops fuel g (depth - 1) a b mx max_agent min_agent r)
              cand.1 (0, 0, false, -1000) game alpha cand.2
          else
            min_loop ops min_agent alpha
              (fun g a b mx r => minimax ops fuel g (depth - 1) a b mx max_agent min_agent r)
              cand.1 (0, 0, false, 1000) game beta cand.2) ∧
    (depth = 0 → ∀ fuel : Nat,
      minimax ops (fuel + 1) game depth alpha beta maximize max_agent min_agent rng =
        .ok ((0, 0, false, minimax_heuristic ops game max_agent min_agent), game, rng)) ∧
    (∀ Inv : Board σ → Prop, Reversible ops Inv → Inv game → ∃ result rng2,
      minimax ops (depth.toNat + 1) game depth alpha beta maximize max_agent min_agent rng =
        .ok (result, game, rng2)) := by
  have hlt : depth < ((depth.toNat + 1 : Nat) : Int) := by
    push_cast
    rw [Int.toNat_of_nonneg h0]
    omega
  refine ⟨minimax_no_fuel_fault ops max_agent min_agent _ game depth alpha beta maximize rng h0
      hlt, ?_, ?_, ?_, ?_⟩
  · intro fuel hf
    exact minimax_fuel_irrelevant ops max_agent min_agent fuel _ game depth alpha beta maximize
      rng h0 hf hlt
  · intro hd hf fuel
    exact minimax_node ops fuel game depth alpha beta maximize max_agent min_agent rng hd hf
  · intro hd fuel
    exact minimax_leaf_eq ops fuel game depth alpha beta maximize max_agent min_agent rng
      (Or.inl hd)
  · intro Inv hrev hinv
    obtain ⟨out, h⟩ := minimax_total hrev max_agent min_agent _ game depth alpha beta maximize
      rng hinv h0 hlt
    have hframe := minimax_frame hrev max_agent min_agent _ game depth alpha beta maximize rng
      out hinv h
    obtain ⟨result, g, rng2⟩ := out
    simp only at hframe
    subst hframe
    exact ⟨result, rng2, h⟩

/-- Witness of C17: depth 2 on the empty 2 x 2 board.  The budget of 3 nested calls is not
exhausted, while a budget of 2 is: the nesting does reach 2 levels below the call. -/
theorem minimax_terminates_witness :
    (0 : Int) ≤ 2 ∧
    minimax std_ops ((2 : Int).toNat + 1) (empty_board 2) 2 (-1000) 1000 true 'A' 'B' [] ≠
      .error .out_of_fuel ∧
    minimax std_ops 2 (empty_board 2) 2 (-1000) 1000 true 'A' 'B' [] = .error .out_of_fuel :=
  ⟨by decide,
    (minimax_terminates std_ops (empty_board 2) 2 (by decide) (-1000) 1000 true 'A' 'B' []).1,
    by rfl⟩

/-! ## Fail-soft bounds -/

/-- C18: on positions whose score differentials lie strictly between -1000 and 1000, for every
depth of at least 0, either maximizing flag, every state of the random engine (hence every
candidate order) and every window with -1000 <= alpha < beta <= 1000, `minimax` returns a score
v that relates to the value m of plain minimax without pruning as follows: alpha < v < beta
implies v = m, v <= alpha implies m <= v, and v >= beta implies m >= v. -/
theorem minimax_fail_soft_bounds (ops : BoardOps σ) (Inv : Board σ → Prop)
    (hrev : Reversible ops Inv) (hplay : Playable ops Inv) (max_agent min_agent : Char)
    (hbound : Bounded ops Inv max_agent min_agent) (game : Board σ) (hinv : Inv game)
    (fuel : Nat) (depth : Int) (h0 : 0 ≤ depth) (hfuel : depth < fuel) (alpha beta : Int)
    (ha : -1000 ≤ alpha) (hab : alpha < beta) (hb : beta ≤ 1000) (maximize : Bool) :
    ∀ rng : Rng, ∃ result rng2,
      minimax ops fuel game depth alpha beta maximize max_agent min_agent rng =
        .ok (result, game, rng2) ∧
      (alpha < result.score → result.score < beta →
        result.score = plain_minimax ops max_agent min_agent depth.toNat game maximize) ∧
      (result.score ≤ alpha →
        plain_minimax ops max_agent min_agent depth.toNat game maximize ≤ result.score) ∧
      (beta ≤ result.score →
        result.score ≤ plain_minimax ops max_agent min_agent depth.toNat game maximize) := by
  intro rng
  obtain ⟨out, h⟩ := minimax_total hrev max_agent min_agent fuel game depth alpha beta maximize
    rng hinv h0 hfuel
  have hframe := minimax_frame hrev max_agent min_agent fuel game depth alpha beta maximize rng
    out hinv h
  obtain ⟨s1, s2, s3⟩ := minimax_fail_soft hrev hplay hbound fuel game depth alpha beta maximize
    rng out hinv h0 hab (lt_of_lt_of_le hab hb) (lt_of_le_of_lt ha hab) h
  obtain ⟨result, g, rng2⟩ := out
  simp only at hframe
  subst hframe
  exact ⟨result, rng2, h, s2, s1, s3⟩

/-- Witness of C18: the sample 2 x 2 position at depth 2, where plain minimax gives 2; with the
window (-1000, 1) the search returns a score of at least 1 that is at most 2. -/
theorem minimax_fail_soft_bounds_witness :
    std_inv 31 two_boxes_board ∧
    plain_minimax std_ops 'A' 'B' 2 two_boxes_board true = 2 ∧
    (minimax std_ops 3 two_boxes_board 2 (-1000) 1 true 'A' 'B' [5, 3, 8, 1]).toOption.map
      (fun out => out.1.score) = some 2 ∧
    ∃ result rng2,
      minimax std_ops 3 two_boxes_board 2 (-1000) 1 true 'A' 'B' [5, 3, 8, 1] =
        .ok (result, two_boxes_board, rng2) ∧
      ((1 : Int) ≤ result.score →
        result.score ≤ plain_minimax std_ops 'A' 'B' (2 : Int).toNat two_boxes_board true) := by
  refine ⟨by decide, by decide, by decide, ?_⟩
  obtain ⟨result, rng2, h, _, _, h3⟩ :=
    minimax_fail_soft_bounds std_ops (std_inv 31) (std_reversible 31) (std_playable 31) 'A' 'B'
      (std_bounded 'A' 'B') two_boxes_board (by decide) 3 2 (by decide) (by decide) (-1000) 1
      (by decide) (by decide) (by decide) true [5, 3, 8, 1]
  exact ⟨result, rng2, h, h3⟩

/-! ## A node without candidates -/

/-- C19: at a node with depth > 0 on a board that reports not finished, if the enumerator
returns no candidate then `minimax` returns its initial tuple, (0, 0, false, -1000) when
maximizing and (0, 0, false, 1000) when minimizing, with the board as it was; and on a
well-formed position of a board whose `finished()` is true exactly when no undrawn edge remains
the enumerator does not return an empty sequence there. -/
theorem minimax_no_candidates (ops : BoardOps σ) (game : Board σ) (fuel : Nat) (depth : Int)
    (hd : 0 < depth) (hfin : ops.finished game = false) (alpha beta : Int)
    (max_agent min_agent : Char) (rng : Rng) :
    (∀ rng2 : Rng, allowed_moves game rng = .ok ([], rng2) →
      minimax ops (fuel + 1) game depth alpha beta true max_agent min_agent rng =
        .ok ((0, 0, false, -1000), game, rng2) ∧
      minimax ops (fuel + 1) game depth alpha beta false max_agent min_agent rng =
        .ok ((0, 0, false, 1000), game, rng2)) ∧
    (∀ Inv : Board σ → Prop, Terminal ops Inv → Inv game → WellFormed game →
      ∀ rng2 : Rng, allowed_moves game rng ≠ .ok ([], rng2)) := by
  constructor
  · intro rng2 hempty
    constructor
    · rw [minimax_node ops fuel game depth alpha beta true max_agent min_agent rng (ne_of_gt hd)
        hfin, hempty]
      rfl
    · rw [minimax_node ops fuel game depth alpha beta false max_agent min_agent rng (ne_of_gt hd)
        hfin, hempty]
      rfl
  · intro Inv hterm hinv hw rng2 hempty
    obtain ⟨moves, rng3, hc, hp⟩ := allowed_moves_perm hw rng
    rw [hc] at hempty
    simp only [Except.ok.injEq, Prod.mk.injEq] at hempty
    rw [hempty.1] at hp
    have hnone : undrawn_edges game = [] := hp.symm.eq_nil
    have := (hterm game hinv).2 hnone
    rw [hfin] at this
    cases this

/-- Witness of C19: the 1 x 1 board with all four edges drawn and a `finished()` that reports
not finished.  The enumerator returns no candidate, and the search at depth 1 returns the
sentinel tuples with the board as it was. -/
theorem minimax_no_candidates_witness :
    (0 : Int) < 1 ∧ unending_ops.finished (full_board 1 'A') = false ∧
    allowed_moves (full_board 1 'A') [] = .ok ([], []) ∧
    minimax unending_ops 1 (full_board 1 'A') 1 (-1000) 1000 true 'A' 'B' [] =
      .ok ((0, 0, false, -1000), full_board 1 'A', []) ∧
    minimax unending_ops 1 (full_board 1 'A') 1 (-1000) 1000 false 'A' 'B' [] =
      .ok ((0, 0, false, 1000), full_board 1 'A', []) :=
  ⟨by decide, rfl, rfl,
    (minimax_no_candidates unending_ops (full_board 1 'A') 0 1 (by decide) rfl (-1000) 1000
      'A' 'B' []).1 [] rfl⟩

end DotsAndBoxes
